import Mathlib

/-!
Verification development for the wasp-core compiler
(`src/wasp-core/src/compiler.rs`).

The Rust source is shallowly embedded as follows.

* Rust `f64` values are modelled as `ℚ`.  Every compile-time float
  computation in the source (heap positions starting at `4.0`, adding byte
  lengths, dividing and multiplying by `4.0`, the `%` remainder, casts of
  small natural numbers such as vector lengths and type indices) is exact
  IEEE-754 double arithmetic on integer-valued or quarter-integer-valued
  numbers far below 2^53, where double arithmetic and rational arithmetic
  agree, so `ℚ` is a faithful model of these values.
* Rust float-to-int `as` casts truncate toward zero and saturate; see
  `asI32` / `asU32`.
* Rust panics (`panic!`, `.expect`, out-of-bounds indexing) are modelled by
  the `Except Unwind` monad: `.error` means the Rust code unwinds.  The
  `failure::Error` channel of the public `compile` function is modelled by
  the inner `Except CompileError` layer; `CompileError` has no constructor
  because the source never constructs such an error.
* The byte image of an IEEE-754 double (`Compiler::float_to_bytes`, an 8
  byte little-endian transmute) is modelled opaquely: `MByte.floatByte v k`
  is byte `k` of the encoding of `v`.  Lengths and identity of encoded
  data are preserved; individual bit patterns are not interpreted.
* The `crate::ast` module and the `wasmly` module-builder crate are not
  under `src/`; their shapes and behaviour are modelled from the spec
  (§6 AST structural contract, §4.5 module-builder contract) and marked
  `Modelled from the spec` below.
-/

namespace Wasp

/-- Modelled from the spec (§6): the value types of the target VM,
`wasmly::DataType`. -/
inductive DataType where
  | I32 | I64 | F32 | F64
deriving DecidableEq

/-- A byte of a data segment.  `raw b` is a literal byte; `floatByte v k` is
byte `k` (little-endian) of the IEEE-754 double encoding of `v`, kept
opaque (see the header comment). -/
inductive MByte where
  | raw (b : ℕ)
  | floatByte (v : ℚ) (k : ℕ)
deriving DecidableEq

/-- A Rust unwind: `msg` models `panic!`/`.expect` with the given message,
`indexOutOfBounds` models an out-of-bounds slice index. -/
inductive Unwind where
  | msg (s : String)
  | indexOutOfBounds
deriving DecidableEq

/-- The error type of the public `compile` entry point (`failure::Error`).
It has no constructors because the source never constructs one: every
diagnostic in the source is a panic. -/
inductive CompileError : Type
deriving DecidableEq

instance : DecidableEq CompileError := fun a _ => isTrue (by cases a)

deriving instance DecidableEq for Except

/-- `IdentifierType` from the source. -/
inductive IdentifierType where
  | Global | Local | Function
deriving DecidableEq

/-! ## The AST (modelled from the spec §6) -/

/-- Modelled from the spec (§6): `Expression`.  `TextLiteral` carries the
UTF-8 bytes of the literal. -/
inductive Expression where
  | SymbolLiteral (x : String)
  | FnSig (inputs : List DataType) (output : Option DataType)
  | Loop (expressions : List Expression)
  | Recur
  | IfStatement (condition : Expression) (if_true : List Expression)
      (if_false : Option (List Expression))
  | Assignment (id : String) (value : Expression)
  | FunctionCall (function_name : String) (params : List Expression)
  | TextLiteral (bytes : List ℕ)
  | Identifier (id : String)
  | Number (x : ℚ)

/-- Modelled from the spec (§6): `GlobalValue`.  `Struct` carries the member
names (the source reads `s.members[i].name`). -/
inductive GlobalValue where
  | Symbol (t : String)
  | Number (t : ℚ)
  | Text (bytes : List ℕ)
  | Data (t : List GlobalValue)
  | Struct (members : List String)
  | Identifier (t : String)

/-- Modelled from the spec (§6): an external function declaration. -/
structure ExternalFunction where
  name : String
  params : List String

/-- Modelled from the spec (§6): a global definition. -/
structure Global where
  name : String
  value : GlobalValue

/-- Modelled from the spec (§6): a function definition. -/
structure FunctionDef where
  name : String
  exported : Bool
  params : List String
  children : List Expression

/-- Modelled from the spec (§6): `TopLevelOperation`. -/
inductive TopLevelOperation where
  | ExternalFunction (f : ExternalFunction)
  | DefineGlobal (g : Global)
  | DefineFunction (f : FunctionDef)

/-- Modelled from the spec (§6): the input AST `App`. -/
structure App where
  children : List TopLevelOperation

/-! ## The wasmly module model (modelled from the spec §4.5/§6) -/

/-- One VM instruction with its immediates.  The source emits flat opcode /
immediate streams (`vec![F64_CONST, v.into()]`); each such opcode together
with its immediates is one constructor here. -/
inductive Instr where
  | F64_CONST (v : ℚ)
  | I32_CONST (v : ℤ)
  | I64_CONST (v : ℤ)
  | F64_EQ | F64_NE | F64_LT | F64_GT | F64_LE | F64_GE
  | I32_EQ | I32_AND
  | F64_ADD | F64_SUB | F64_MUL | F64_DIV
  | I64_AND | I64_OR | I64_XOR | I64_SHL | I64_SHR_S | I64_REM_S | I64_NE
  | F64_CONVERT_S_I32 | F64_CONVERT_S_I64
  | I32_TRUNC_S_F64 | I64_TRUNC_S_F64
  | I32_LOAD8_U (a o : ℤ) | I32_STORE8 (a o : ℤ)
  | F64_LOAD (a o : ℤ) | F64_STORE (a o : ℤ)
  | GLOBAL_GET (n : ℕ) | GLOBAL_SET (n : ℕ)
  | LOCAL_GET (n : ℤ) | LOCAL_SET (n : ℤ)
  | CALL (handle : ℤ)
  | CALL_INDIRECT (typeidx : ℕ) (table : ℕ)
  | IF (bt : DataType) | ELSE | END
  | LOOP (bt : DataType)
  | BR (depth : ℕ)
  | DROP
deriving DecidableEq

/-- Modelled from the spec (§4.6 phase 1): `wasmly::ImportFunction`. -/
structure ImportFunction where
  name : String
  params : List DataType
  output : Option DataType
deriving DecidableEq

/-- Modelled from the spec (§4.5): `wasmly::FunctionType`. -/
structure FunctionType where
  inputs : List DataType
  output : Option DataType
deriving DecidableEq

/-- Modelled from the spec (§4.5): a function table declaration. -/
structure WTable where
  min : ℕ
  max : ℕ
deriving DecidableEq

/-- Modelled from the spec (§4.5): the `wasmly::Function` body builder:
optional export name, parameter types, result type, extra local
declarations, and the instruction stream. -/
structure WasmFunction where
  exportName : Option String := none
  inputs : List DataType := []
  output : Option DataType := none
  locals : List DataType := []
  instructions : List Instr := []
deriving DecidableEq

def WasmFunction.new : WasmFunction := {}

def WasmFunction.with_name (f : WasmFunction) (n : String) : WasmFunction :=
  { f with exportName := some n }

def WasmFunction.with_inputs (f : WasmFunction) (l : List DataType) : WasmFunction :=
  { f with inputs := l }

def WasmFunction.with_output (f : WasmFunction) (t : DataType) : WasmFunction :=
  { f with output := some t }

def WasmFunction.with_local (f : WasmFunction) (t : DataType) : WasmFunction :=
  { f with locals := f.locals ++ [t] }

def WasmFunction.with_instructions (f : WasmFunction) (l : List Instr) : WasmFunction :=
  { f with instructions := f.instructions ++ l }

/-- Modelled from the spec (§4.5): the module under construction
(`wasmly::App`).  Globals are `(initial value, mutable)` pairs; data
segments are `(offset, bytes)`; the element section is
`(table offset, function indices)`. -/
structure WasmApp where
  imports : List ImportFunction := []
  types : List FunctionType := []
  tables : List WTable := []
  functions : List WasmFunction := []
  data : List (ℤ × List MByte) := []
  globals : List (ℤ × Bool) := []
  elements : List (ℕ × List ℕ) := []
deriving DecidableEq

def WasmApp.new (imports : List ImportFunction) : WasmApp :=
  { imports := imports }

/-- Modelled from the spec (§4.5): type registration appends sequentially
("sequential append is sufficient and matches current behavior") and
returns the new entry's index. -/
def WasmApp.add_type (a : WasmApp) (t : FunctionType) : ℕ × WasmApp :=
  (a.types.length, { a with types := a.types ++ [t] })

def WasmApp.add_table (a : WasmApp) (t : WTable) : WasmApp :=
  { a with tables := a.tables ++ [t] }

def WasmApp.add_data (a : WasmApp) (d : ℤ × List MByte) : WasmApp :=
  { a with data := a.data ++ [d] }

def WasmApp.add_global (a : WasmApp) (g : ℤ × Bool) : WasmApp :=
  { a with globals := a.globals ++ [g] }

def WasmApp.add_function (a : WasmApp) (f : WasmFunction) : WasmApp :=
  { a with functions := a.functions ++ [f] }

def WasmApp.add_elements (a : WasmApp) (off : ℕ) (es : List ℕ) : WasmApp :=
  { a with elements := a.elements ++ [(off, es)] }

/-! ## Exact rational models of the f64 operations used at compile time -/

/-- Rust's `Iterator::position` on a list: index of the first element
satisfying `p`. -/
def position {α : Type} (p : α → Bool) : List α → Option ℕ
  | [] => none
  | x :: xs => if p x then some 0 else (position p xs).map (· + 1)

/-- Truncation toward zero, as Rust float-to-int `as` casts do. -/
def ratTrunc (q : ℚ) : ℤ :=
  if 0 ≤ q then ⌊q⌋ else ⌈q⌉

/-- Rust `as i32` on an f64: truncate toward zero, saturate. -/
def asI32 (q : ℚ) : ℤ :=
  max (-2147483648) (min 2147483647 (ratTrunc q))

/-- Rust `as u32` on an f64: truncate toward zero, saturate. -/
def asU32 (q : ℚ) : ℕ :=
  (max 0 (min 4294967295 (ratTrunc q))).toNat

/-- Rust `%` on f64 (`x - y * trunc (x / y)`), which is exact on finite
doubles; modelled exactly in `ℚ`. -/
def fmod (x y : ℚ) : ℚ :=
  x - y * ((ratTrunc (x / y) : ℤ) : ℚ)

/-! ## The compiler state -/

/-- The `Compiler` struct of the source, field for field.  `recur_depth`
and `return_depth` are `u32` in the source; they are modelled as `ℕ`
(the source only ever sets, increments by one, or reads them, and the
reachable values are tiny, so wrap-around never occurs). -/
structure Compiler where
  wasm : WasmApp
  ast : App
  symbols : List String
  global_names : List String
  global_values : List ℚ
  local_names : List String
  heap_position : ℚ
  function_defs : List TopLevelOperation
  function_names : List String
  function_implementations : List WasmFunction
  non_imported_functions : List String
  recur_depth : ℕ
  return_depth : ℕ

/-- Update position `i` of a list in place (identity when out of range).
The source writes `self.function_implementations[i]`, which would panic
out of range; the driver only ever passes in-range indices (one builder
per function definition), so the out-of-range branch is never exercised. -/
def updateAt {α : Type} : List α → ℕ → (α → α) → List α
  | [], _, _ => []
  | x :: xs, 0, g => g x :: xs
  | x :: xs, n + 1, g => x :: updateAt xs n g

/-- `Compiler::initialize` (renamed: `initialize` is reserved here).
Collects the imports, seeds `function_names` with the import names,
creates the module with those imports and captures the function
definitions. -/
def Compiler.initCompiler (c : Compiler) : Compiler :=
  let import_defs : List ExternalFunction :=
    c.ast.children.filterMap (fun x => match x with
      | .ExternalFunction f => some f
      | _ => none)
  let names : List String := c.function_names ++ import_defs.map (·.name)
  let imports : List ImportFunction := import_defs.map (fun d =>
    ImportFunction.mk d.name (d.params.map fun _ => DataType.F64) (some DataType.F64))
  let fdefs : List TopLevelOperation := c.ast.children.filter (fun x => match x with
    | .DefineFunction _ => true
    | _ => false)
  let c := { c with function_names := names, wasm := WasmApp.new imports }
  { c with function_defs := fdefs }

/-- `Compiler::new`. -/
def Compiler.new (app : App) : Compiler :=
  let c : Compiler := {
    wasm := WasmApp.new []
    ast := app
    symbols := []
    global_names := []
    global_values := []
    local_names := []
    heap_position := 4  -- start at 4 so nothing has 0 address
    function_defs := []
    function_names := []
    function_implementations := []
    non_imported_functions := []
    recur_depth := 0
    return_depth := 1 }
  c.initCompiler

/-- `Compiler::float_to_bytes`: the 8 little-endian bytes of the IEEE-754
double encoding of `i`, kept opaque (see header). -/
def Compiler.float_to_bytes (_ : Compiler) (i : ℚ) : List MByte :=
  (List.range 8).map (fun k => MByte.floatByte i k)

/-- `Compiler::get_symbol_value`: first index of `t` in the symbol pool
plus one; appends `t` first when absent.  No symbol has the value 0. -/
def Compiler.get_symbol_value (s : Compiler) (t : String) : ℚ × Compiler :=
  match position (fun x => x == t) s.symbols with
  | some i => (((i : ℕ) : ℚ) + 1, s)
  | none => (((s.symbols.length : ℕ) : ℚ) + 1, { s with symbols := s.symbols ++ [t] })

/-- `Compiler::create_data`: record a data segment at the current heap
position, then advance the heap position past the written end, applying
the source's (faulty, see `C1`) re-alignment expression verbatim. -/
def Compiler.create_data (s : Compiler) (bytes : List MByte) : ℚ × Compiler :=
  let pos := s.heap_position
  let size := bytes.length
  let s := { s with wasm := s.wasm.add_data (asI32 pos, bytes) }
  let final0 := s.heap_position + (size : ℚ)
  -- align data to 4 (the source comment); the expression below is the
  -- verbatim translation of `(final_heap_pos / 4.0) * 4.0 + 4.0`
  let final_heap_pos := if fmod final0 4 ≠ 0 then final0 / 4 * 4 + 4 else final0
  (pos, { s with heap_position := final_heap_pos })

/-- `Compiler::get_or_create_text_data`: the UTF-8 bytes of the string
followed by a single NUL byte, allocated through `create_data`. -/
def Compiler.get_or_create_text_data (s : Compiler) (str : List ℕ) : ℚ × Compiler :=
  s.create_data (str.map MByte.raw ++ [MByte.raw 0])

/-- The body of `Compiler::resolve_identifier` over its four inputs
(local names, function names, global names, global values).  Built-ins
first, then locals in reverse (shadowing), then functions by first
position, then globals by precomputed value.  Indexing
`global_values[p]` out of range unwinds, as the Rust slice index does. -/
def resolveCore (locals fns gns : List String) (gvs : List ℚ) (id : String) :
    Except Unwind (Option (ℚ × IdentifierType)) :=
  if id = "nil" then .ok (some (0, .Global))
  else if id = "size_num" then .ok (some (8, .Global))
  else match position (fun r => r == id) locals.reverse with
  | some p => .ok (some (((locals.length : ℕ) : ℚ) - 1 - ((p : ℕ) : ℚ), .Local))
  | none => match position (fun r => r == id) fns with
    | some p => .ok (some (((p : ℕ) : ℚ), .Function))
    | none => match position (fun r => r == id) gns with
      | some p => match gvs[p]? with
        | some v => .ok (some (v, .Global))
        | none => .error .indexOutOfBounds
      | none => .ok none

/-- `Compiler::resolve_identifier`. -/
def Compiler.resolve_identifier (s : Compiler) (id : String) :
    Except Unwind (Option (ℚ × IdentifierType)) :=
  resolveCore s.local_names s.function_names s.global_names s.global_values id

/-- Helper for the `Struct` arm of `get_global_value`: evaluate a row of
symbol literals left to right, concatenating their byte encodings.  The
`Struct` arm of the source builds the list
`members.map Symbol ++ [Number 0]` and feeds it to `create_global_data`;
all its entries are non-recursive, and `structArm_eq_globalDataBytes`
below proves this inlined form equal to the generic loop, so the
faithfulness of the inlining is certified in-file. -/
def Compiler.symbolRowBytes (s : Compiler) : List String → List MByte × Compiler
  | [] => ([], s)
  | m :: rest =>
    let (x, s₁) := s.get_symbol_value m
    let (bs, s₂) := s₁.symbolRowBytes rest
    (s₁.float_to_bytes x ++ bs, s₂)

mutual

/-- `Compiler::get_global_value`: compile-time evaluation of a global
initializer to a single scalar.  The `Data` and `Struct` arms of the
source call `create_global_data`; its body (gather the byte encodings,
then allocate one segment) is inlined here so the recursion is
structural, and `create_global_data` below is the same wrapper
(`create_global_data_eq` / `structArm_eq` certify the inlining). -/
def Compiler.get_global_value (s : Compiler) (v : GlobalValue) :
    Except Unwind (ℚ × Compiler) :=
  match v with
  | .Symbol t => .ok (s.get_symbol_value t)
  | .Number t => .ok (t, s)
  | .Text t => .ok (s.get_or_create_text_data t)
  | .Data t => do
      let (bytes, s₁) ← s.globalDataBytes t
      .ok (s₁.create_data bytes)
  | .Struct members =>
      -- the source builds `members.map Symbol ++ [Number 0]` and calls
      -- `create_global_data`; inlined here (see `symbolRowBytes`)
      let (bs, s₁) := s.symbolRowBytes members
      .ok (s₁.create_data (bs ++ s₁.float_to_bytes 0))
  | .Identifier t =>
      match s.resolve_identifier t with
      | .error e => .error e
      | .ok none => .error (.msg (t ++ " is not a valid identifier"))
      | .ok (some r) => .ok (r.1, s)

/-- The byte-gathering loop of `Compiler::create_global_data`: evaluate
each entry, gather the 8-byte encodings. -/
def Compiler.globalDataBytes (s : Compiler) : List GlobalValue →
    Except Unwind (List MByte × Compiler)
  | [] => .ok ([], s)
  | gv :: rest => do
    let (x, s₁) ← s.get_global_value gv
    let (bs, s₂) ← s₁.globalDataBytes rest
    .ok (s₁.float_to_bytes x ++ bs, s₂)

end

/-- `Compiler::create_global_data`: gather the encodings of all entries,
then allocate them as one segment. -/
def Compiler.create_global_data (s : Compiler) (v : List GlobalValue) :
    Except Unwind (ℚ × Compiler) := do
  let (bytes, s₁) ← s.globalDataBytes v
  .ok (s₁.create_data bytes)

/-- The loop of `Compiler::process_globals`: for each definition, push the
name first, then evaluate the initializer, then push the value. -/
def Compiler.processGlobalDefs (s : Compiler) : List Global → Except Unwind Compiler
  | [] => .ok s
  | g :: rest => do
    let s₁ := { s with global_names := s.global_names ++ [g.name] }
    let (v, s₂) ← s₁.get_global_value g.value
    let s₃ := { s₂ with global_values := s₂.global_values ++ [v] }
    s₃.processGlobalDefs rest

/-- `Compiler::process_globals`. -/
def Compiler.process_globals (s : Compiler) : Except Unwind Compiler :=
  s.processGlobalDefs (s.ast.children.filterMap (fun x => match x with
    | .DefineGlobal g => some g
    | _ => none))

/-- `Compiler::pre_process_functions`: record the defined function names,
create one body builder per definition, and declare the function table
sized by the total number of function names. -/
def Compiler.pre_process_functions (s : Compiler) : Compiler :=
  let defs : List FunctionDef :=
    s.function_defs.filterMap (fun x => match x with
      | .DefineFunction f => some f
      | _ => none)
  let defNames : List String := defs.map (·.name)
  let s := { s with
    non_imported_functions := defNames,
    function_names := s.function_names ++ defNames }
  let impls : List WasmFunction := defs.map (fun fd =>
    let f := WasmFunction.new
    let f := if fd.exported then f.with_name fd.name else f
    let f := f.with_inputs (fd.params.map fun _ => DataType.F64)
    f.with_output DataType.F64)
  let s := { s with function_implementations := s.function_implementations ++ impls }
  { s with wasm := s.wasm.add_table ⟨s.function_names.length, s.function_names.length⟩ }

/-- `Compiler::set_heap_start`: publish the two heap globals (index 0
immutable, index 1 mutable), both initialized to the final heap position
run through the source's re-alignment expression verbatim. -/
def Compiler.set_heap_start (s : Compiler) : Compiler :=
  let final_heap_pos :=
    if fmod s.heap_position 4 ≠ 0 then s.heap_position / 4 * 4 + 4
    else s.heap_position
  let s := { s with wasm := s.wasm.add_global (asI32 final_heap_pos, false) }
  { s with wasm := s.wasm.add_global (asI32 final_heap_pos, true) }

/-- `self.function_implementations[i].with_instructions l` (in-range in
every driver run; see `updateAt`). -/
def Compiler.emitAt (s : Compiler) (i : ℕ) (l : List Instr) : Compiler :=
  { s with function_implementations :=
      updateAt s.function_implementations i (fun f => f.with_instructions l) }

/-- `self.function_implementations[i].with_local t`. -/
def Compiler.addLocalAt (s : Compiler) (i : ℕ) (t : DataType) : Compiler :=
  { s with function_implementations :=
      updateAt s.function_implementations i (fun f => f.with_local t) }

/-- Instruction selector of the comparison-operator clause (the `_` arm of
the source's inner `match` is the unreachable `panic!("unexpected
operator")`). -/
def cmpOpInstr (fname : String) : Except Unwind (List Instr) :=
  if fname = "==" then .ok [.F64_EQ]
  else if fname = "!=" then .ok [.F64_NE]
  else if fname = "<=" then .ok [.F64_LE]
  else if fname = ">=" then .ok [.F64_GE]
  else if fname = "<" then .ok [.F64_LT]
  else if fname = ">" then .ok [.F64_GT]
  else .error (.msg "unexpected operator")

/-- Instruction selector of the bitwise-operator clause. -/
def bitOpInstr (fname : String) : Except Unwind (List Instr) :=
  if fname = "&" then .ok [.I64_AND]
  else if fname = "|" then .ok [.I64_OR]
  else if fname = "^" then .ok [.I64_XOR]
  else if fname = "<<" then .ok [.I64_SHL]
  else if fname = ">>" then .ok [.I64_SHR_S]
  else .error (.msg "unexpected operator")

/-- Instruction selector of the arithmetic-operator clause. -/
def arithOpInstr (fname : String) : Except Unwind (List Instr) :=
  if fname = "+" then .ok [.F64_ADD]
  else if fname = "-" then .ok [.F64_SUB]
  else if fname = "*" then .ok [.F64_MUL]
  else if fname = "/" then .ok [.F64_DIV]
  else if fname = "%" then .ok [.I64_REM_S, .F64_CONVERT_S_I64]
  else .error (.msg "unexpected operator")

mutual

/-- `Compiler::process_expression`: lower one expression into instructions
appended to function body `i`.  Arms in source order; the bodies of the
intrinsic clauses of the `FunctionCall` arm's dispatch chain live in the
`processAssert` … `processUserCall` helpers below, one per labelled branch
of the source's if-chain. -/
def Compiler.process_expression (s : Compiler) (i : ℕ) (e : Expression) :
    Except Unwind Compiler :=
  match e with
  | .SymbolLiteral x =>
      let (v, s₁) := s.get_symbol_value x
      .ok (s₁.emitAt i [.F64_CONST v])
  | .FnSig inputs output =>
      let (t, w) := s.wasm.add_type ⟨inputs, output⟩
      .ok (({ s with wasm := w }).emitAt i [.F64_CONST ((t : ℕ) : ℚ)])
  | .Loop xs =>
      let s := { s with recur_depth := 0 }
      match xs with
      | [] => .error (.msg "useless infinite loop detected")
      | _ :: _ => do
        let s₁ ← (s.emitAt i [.LOOP .F64]).processSeq i xs
        .ok (s₁.emitAt i [.END])
  | .Recur =>
      .ok (s.emitAt i [.F64_CONST 0, .BR s.recur_depth])
  | .IfStatement cond tbr fbr => do
      let s := { s with recur_depth := s.recur_depth + 1 }
      let s₁ ← s.process_expression i cond
      let s₂ := s₁.emitAt i [.F64_CONST 0, .F64_EQ, .I32_CONST 0, .I32_EQ]
      let s₃ := s₂.emitAt i [.IF .F64]
      let s₄ ← s₃.processSeq i tbr
      let s₅ := s₄.emitAt i [.ELSE]
      let s₆ ← match fbr with
        | some es => s₅.processSeq i es
        | none => .ok (s₅.emitAt i [.F64_CONST 0])
      .ok (s₆.emitAt i [.END])
  | .Assignment id value => do
      let s₁ ← s.process_expression i value
      let s₂ := s₁.addLocalAt i .F64
      match s₂.resolve_identifier id with
      | .error e => .error e
      | .ok p =>
          let r : ℕ × Compiler :=
            match p with
            | some ident =>
                if ident.2 = .Local then (asU32 ident.1, s₂)
                else (s₂.local_names.length,
                  { s₂ with local_names := s₂.local_names ++ [id] })
            | none => (s₂.local_names.length,
                { s₂ with local_names := s₂.local_names ++ [id] })
          .ok (r.2.emitAt i [.LOCAL_SET ((r.1 : ℕ) : ℤ), .LOCAL_GET ((r.1 : ℕ) : ℤ)])
  | .FunctionCall fname params =>
      if fname = "assert" then s.processAssert i params
      else if fname = "call" then s.processCallSig i params
      else if fname = "mem_byte" then s.processMemByte i params
      else if fname = "mem_heap_start" then
        match params with
        | [] => .ok (s.emitAt i [.GLOBAL_GET 0, .F64_CONVERT_S_I32])
        | _ => .error (.msg "invalid number params for mem_heap_start")
      else if fname = "mem_heap_end" then s.processMemHeapEnd i params
      else if fname = "mem" then s.processMem i params
      else if fname = "==" ∨ fname = "!=" ∨ fname = "<=" ∨ fname = ">=" ∨
          fname = "<" ∨ fname = ">" then s.processCmpOp i fname params
      else if fname = "&" ∨ fname = "|" ∨ fname = "^" ∨ fname = "<<" ∨
          fname = ">>" then s.processBitOp i fname params
      else if fname = "+" ∨ fname = "-" ∨ fname = "*" ∨ fname = "/" ∨
          fname = "%" then s.processArithOp i fname params
      else if fname = "!" then s.processNotOp i params
      else if fname = "~" then s.processComplementOp i params
      else if fname = "and" then s.processAndOp i params
      else if fname = "or" then s.processOrOp i params
      else
        match s.resolve_identifier fname with
        | .error e => .error e
        | .ok none => .error (.msg (fname ++ " is not a valid function"))
        | .ok (some fh) => s.processUserCall i fh.1 params
  | .TextLiteral x =>
      let (pos, s₁) := s.get_or_create_text_data x
      .ok (s₁.emitAt i [.F64_CONST pos])
  | .Identifier x =>
      match s.resolve_identifier x with
      | .error e => .error e
      | .ok none => .error (.msg (x ++ " is not a valid identifier"))
      | .ok (some val) =>
          match val.2 with
          | .Global => .ok (s.emitAt i [.F64_CONST val.1])
          | .Local => .ok (s.emitAt i [.LOCAL_GET (asI32 val.1)])
          | .Function => .ok (s.emitAt i [.F64_CONST val.1])
  | .Number x => .ok (s.emitAt i [.F64_CONST x])

/-- The `assert` clause. -/
def Compiler.processAssert (s : Compiler) (i : ℕ) (params : List Expression) :
    Except Unwind Compiler :=
  match params with
  | [p0, p1, p2] => do
      let s₁ ← s.process_expression i p0
      let s₂ ← s₁.process_expression i p1
      let s₃ := s₂.emitAt i [.F64_EQ]
      let s₄ := s₃.emitAt i [.IF .F64]
      let s₅ := s₄.emitAt i [.F64_CONST 0]
      let s₆ := s₅.emitAt i [.ELSE]
      let s₇ ← s₆.process_expression i p2
      .ok (s₇.emitAt i [.BR s₇.return_depth, .END])
  | _ => .error (.msg "assert has 3 parameters")

/-- The `call` (indirect call) clause. -/
def Compiler.processCallSig (s : Compiler) (i : ℕ) (params : List Expression) :
    Except Unwind Compiler :=
  match params with
  | sigE :: idxE :: rest =>
    match sigE with
    | .FnSig inputs output => do
        let s₁ ← s.processPlainList i rest
        let s₂ ← s₁.process_expression i idxE
        let s₃ := s₂.emitAt i [.I32_TRUNC_S_F64]
        let (t, w) := s₃.wasm.add_type ⟨inputs, output⟩
        let s₄ := ({ s₃ with wasm := w }).emitAt i [.CALL_INDIRECT t 0]
        .ok (if output = none then s₄.emitAt i [.F64_CONST 0] else s₄)
    | _ => .error (.msg "call must begin with a function signature not an expression")
  | _ => .error (.msg "call must have at least function signature and function index")

/-- The `mem_byte` clause. -/
def Compiler.processMemByte (s : Compiler) (i : ℕ) (params : List Expression) :
    Except Unwind Compiler :=
  match params with
  | [p0] => do
      let s₁ ← s.process_expression i p0
      let s₂ := s₁.emitAt i [.I32_TRUNC_S_F64]
      .ok (s₂.emitAt i [.I32_LOAD8_U 0 0, .F64_CONVERT_S_I32])
  | [p0, p1] => do
      let s₁ ← s.process_expression i p0
      let s₂ := s₁.emitAt i [.I32_TRUNC_S_F64]
      let s₃ ← s₂.process_expression i p1
      let s₄ := s₃.emitAt i [.I32_TRUNC_S_F64]
      let s₅ := s₄.emitAt i [.I32_STORE8 0 0]
      .ok (s₅.emitAt i [.F64_CONST 0])
  | _ => .error (.msg "invalid number params for mem_byte")

/-- The `mem_heap_end` clause (its arity message indeed says
mem_heap_start, as in the source). -/
def Compiler.processMemHeapEnd (s : Compiler) (i : ℕ) (params : List Expression) :
    Except Unwind Compiler :=
  match params with
  | [] => .ok (s.emitAt i [.GLOBAL_GET 1, .F64_CONVERT_S_I32])
  | [p0] => do
      let s₁ ← s.process_expression i p0
      let s₂ := s₁.emitAt i [.I32_TRUNC_S_F64]
      .ok (s₂.emitAt i [.GLOBAL_SET 1, .I32_CONST 0])
  | _ => .error (.msg "invalid number params for mem_heap_start")

/-- The `mem` clause. -/
def Compiler.processMem (s : Compiler) (i : ℕ) (params : List Expression) :
    Except Unwind Compiler :=
  match params with
  | [p0] => do
      let s₁ ← s.process_expression i p0
      .ok (s₁.emitAt i [.I32_TRUNC_S_F64, .F64_LOAD 0 0])
  | [p0, p1] => do
      let s₁ ← s.process_expression i p0
      let s₂ := s₁.emitAt i [.I32_TRUNC_S_F64]
      let s₃ ← s₂.process_expression i p1
      let s₄ := s₃.emitAt i [.F64_STORE 0 0]
      .ok (s₄.emitAt i [.F64_CONST 0])
  | _ => .error (.msg "invalid number params for mem")

/-- The comparison-operator clause. -/
def Compiler.processCmpOp (s : Compiler) (i : ℕ) (fname : String)
    (params : List Expression) : Except Unwind Compiler :=
  match params with
  | [p0, p1] => do
      let s₁ ← s.process_expression i p0
      let s₂ ← s₁.process_expression i p1
      let f ← cmpOpInstr fname
      .ok (s₂.emitAt i (f ++ [.F64_CONVERT_S_I32]))
  | _ => .error (.msg ("operator " ++ fname ++ " expected 2 parameters"))

/-- The bitwise-operator clause. -/
def Compiler.processBitOp (s : Compiler) (i : ℕ) (fname : String)
    (params : List Expression) : Except Unwind Compiler :=
  match params with
  | [p0, p1] => do
      let s₁ ← s.process_expression i p0
      let s₂ := s₁.emitAt i [.I64_TRUNC_S_F64]
      let s₃ ← s₂.process_expression i p1
      let s₄ := s₃.emitAt i [.I64_TRUNC_S_F64]
      let f ← bitOpInstr fname
      .ok (s₄.emitAt i (f ++ [.F64_CONVERT_S_I64]))
  | _ => .error (.msg ("operator " ++ fname ++ " expected 2 parameters"))

/-- The arithmetic-operator clause (a left fold over at least two
operands). -/
def Compiler.processArithOp (s : Compiler) (i : ℕ) (fname : String)
    (params : List Expression) : Except Unwind Compiler :=
  match params with
  | p0 :: p1 :: rest => do
      let s₁ ← s.process_expression i p0
      let s₂ := if fname = "%" then s₁.emitAt i [.I64_TRUNC_S_F64] else s₁
      s₂.processArithRest i fname (p1 :: rest)
  | _ => .error (.msg ("operator " ++ fname ++ " expected at least 2 parameters"))

/-- The `!` clause. -/
def Compiler.processNotOp (s : Compiler) (i : ℕ) (params : List Expression) :
    Except Unwind Compiler :=
  match params with
  | [p0] => do
      let s₁ ← s.process_expression i p0
      .ok (s₁.emitAt i [.F64_CONST 0, .F64_EQ, .F64_CONVERT_S_I32])
  | _ => .error (.msg ("operator ! expected 1 parameters"))

/-- The `~` clause. -/
def Compiler.processComplementOp (s : Compiler) (i : ℕ) (params : List Expression) :
    Except Unwind Compiler :=
  match params with
  | [p0] => do
      let s₁ ← s.process_expression i p0
      .ok (s₁.emitAt i
        [.I64_TRUNC_S_F64, .I64_CONST (-1), .I64_XOR, .F64_CONVERT_S_I64])
  | _ => .error (.msg ("operator ~ expected 1 parameters"))

/-- The `and` clause. -/
def Compiler.processAndOp (s : Compiler) (i : ℕ) (params : List Expression) :
    Except Unwind Compiler :=
  match params with
  | [p0, p1] => do
      let s₁ ← s.process_expression i p0
      let s₂ := s₁.emitAt i [.I64_TRUNC_S_F64, .I64_CONST 0, .I64_NE]
      let s₃ ← s₂.process_expression i p1
      .ok (s₃.emitAt i
        [.I64_TRUNC_S_F64, .I64_CONST 0, .I64_NE, .I32_AND, .F64_CONVERT_S_I32])
  | _ => .error (.msg ("operator and expected 2 parameters"))

/-- The `or` clause. -/
def Compiler.processOrOp (s : Compiler) (i : ℕ) (params : List Expression) :
    Except Unwind Compiler :=
  match params with
  | [p0, p1] => do
      let s₁ ← s.process_expression i p0
      let s₂ := s₁.emitAt i [.I64_TRUNC_S_F64]
      let s₃ ← s₂.process_expression i p1
      .ok (s₃.emitAt i
        [.I64_TRUNC_S_F64, .I64_OR, .I64_CONST 0, .I64_NE, .F64_CONVERT_S_I32])
  | _ => .error (.msg ("operator or expected 2 parameters"))

/-- The user-defined-call fallthrough of the dispatch chain: with the
name already resolved to handle `fh`, lower every argument in order and
emit a direct call.  The source loops over all of `params` and then
emits; the loop is unrolled one step here (see
`processUserCall_loop_eq`) so the recursion stays structural. -/
def Compiler.processUserCall (s : Compiler) (i : ℕ) (fh : ℚ)
    (params : List Expression) : Except Unwind Compiler :=
  match params with
  | [] => .ok (s.emitAt i [.CALL (asI32 fh)])
  | p :: rest => do
      let s₁ ← s.process_expression i p
      let s₂ ← s₁.processPlainList i rest
      .ok (s₂.emitAt i [.CALL (asI32 fh)])

/-- The body-sequence loop shared by `Loop`, the two `If` branches and the
function-body loop: lower each expression, emitting `DROP` after every
one except the last. -/
def Compiler.processSeq (s : Compiler) (i : ℕ) : List Expression → Except Unwind Compiler
  | [] => .ok s
  | [e] => s.process_expression i e
  | e :: e' :: rest => do
      let s₁ ← s.process_expression i e
      (s₁.emitAt i [.DROP]).processSeq i (e' :: rest)

/-- Lower a list of expressions in order with no separators (used for the
arguments of direct calls and of the `call` intrinsic). -/
def Compiler.processPlainList (s : Compiler) (i : ℕ) : List Expression → Except Unwind Compiler
  | [] => .ok s
  | e :: rest => do
      let s₁ ← s.process_expression i e
      s₁.processPlainList i rest

/-- The tail of the arithmetic-operator fold: lower each further operand
(truncating for `%`) and emit the operator after each. -/
def Compiler.processArithRest (s : Compiler) (i : ℕ) (fname : String) :
    List Expression → Except Unwind Compiler
  | [] => .ok s
  | p :: rest => do
      let s₁ ← s.process_expression i p
      let s₂ := if fname = "%" then s₁.emitAt i [.I64_TRUNC_S_F64] else s₁
      let f ← arithOpInstr fname
      (s₂.emitAt i f).processArithRest i fname rest

end
/-- `processUserCall` at an empty argument list. -/
theorem processUserCall_nil (s : Compiler) (i : ℕ) (fh : ℚ) :
    Compiler.processUserCall s i fh [] = .ok (s.emitAt i [.CALL (asI32 fh)]) := rfl

/-- `processUserCall` at a nonempty argument list. -/
theorem processUserCall_cons (s : Compiler) (i : ℕ) (fh : ℚ) (p : Expression)
    (rest : List Expression) :
    Compiler.processUserCall s i fh (p :: rest) = (do
      let s₁ ← s.process_expression i p
      let s₂ ← s₁.processPlainList i rest
      .ok (s₂.emitAt i [.CALL (asI32 fh)])) := rfl

/-- The one-step unrolling in `processUserCall` agrees with the source's
plain loop over all of `params`. -/
theorem processUserCall_loop_eq (s : Compiler) (i : ℕ) (fh : ℚ)
    (params : List Expression) :
    Compiler.processUserCall s i fh params = (do
      let s₁ ← s.processPlainList i params
      .ok (s₁.emitAt i [.CALL (asI32 fh)])) := by
  cases params with
  | nil => simp [processUserCall_nil, Compiler.processPlainList, bind, Except.bind]
  | cons p rest =>
      rw [processUserCall_cons]
      show _ = (do
        let s₁ ← (do
          let t ← s.process_expression i p
          t.processPlainList i rest)
        Except.ok (s₁.emitAt i [Instr.CALL (asI32 fh)]))
      cases s.process_expression i p <;> rfl

/-- The loop of `Compiler::process_functions`: set the locals to the
parameter list, lower the body with drops, close with `END`. -/
def Compiler.processFunctionDefs (s : Compiler) (i : ℕ) :
    List TopLevelOperation → Except Unwind Compiler
  | [] => .ok s
  | .DefineFunction f :: rest => do
      let s₁ := { s with local_names := f.params }
      let s₂ ← s₁.processSeq i f.children
      (s₂.emitAt i [.END]).processFunctionDefs (i + 1) rest
  | _ :: rest => s.processFunctionDefs (i + 1) rest

/-- `Compiler::process_functions`: lower every function body, move the
finished builders into the module, then write the element section
mapping table slot `i` to function `i`. -/
def Compiler.process_functions (s : Compiler) : Except Unwind Compiler := do
  let s₁ ← s.processFunctionDefs 0 s.function_defs
  let s₂ := { s₁ with
    wasm := { s₁.wasm with functions := s₁.wasm.functions ++ s₁.function_implementations },
    function_implementations := [] }
  .ok { s₂ with wasm := s₂.wasm.add_elements 0 (List.range s₂.function_names.length) }

/-- The public entry point `compile`.  The inner `Except CompileError`
layer is the `Result<Vec<u8>, Error>` of the source; its `Err` branch is
never taken (the source's only `return` is `Ok(...)`).  The final
`to_bytes` step is the external encoder (out of scope per spec §1), so
the result is the finished module description. -/
def compile (app : App) : Except Unwind (Except CompileError WasmApp) := do
  let c := Compiler.new app
  let c := c.pre_process_functions
  let c ← c.process_globals
  let c ← c.process_functions
  let c := c.set_heap_start
  .ok (.ok c.wasm)

/-- The instruction stream of body builder `i` (empty when out of range). -/
def Compiler.implInstrs (s : Compiler) (i : ℕ) : List Instr :=
  match s.function_implementations[i]? with
  | some f => f.instructions
  | none => []

/-- The declared extra locals of body builder `i`. -/
def Compiler.implLocals (s : Compiler) (i : ℕ) : List DataType :=
  match s.function_implementations[i]? with
  | some f => f.locals
  | none => []

/-! ## Basic lemmas about `position` -/

theorem position_eq_none_iff {α : Type} (p : α → Bool) (l : List α) :
    position p l = none ↔ ∀ x ∈ l, p x = false := by
  induction l with
  | nil => simp [position]
  | cons x xs ih =>
    by_cases h : p x = true
    · simp [position, h]
    · simp only [Bool.not_eq_true] at h
      simp [position, h, ih]

theorem position_append_of_none {α : Type} {p : α → Bool} {xs : List α} (ys : List α)
    (h : position p xs = none) :
    position p (xs ++ ys) = (position p ys).map (· + xs.length) := by
  induction xs with
  | nil => simp [Option.map_id']
  | cons x xs ih =>
    rw [position] at h
    by_cases hx : p x = true
    · simp [hx] at h
    · simp only [Bool.not_eq_true] at hx
      simp only [hx, Bool.false_eq_true, if_false, Option.map_eq_none'] at h
      rw [List.cons_append, position]
      simp only [hx, Bool.false_eq_true, if_false]
      rw [ih h]
      cases position p ys with
      | none => rfl
      | some v =>
          simp only [Option.map_some', List.length_cons, Option.some.injEq]
          omega

theorem position_append_left {α : Type} {p : α → Bool} {xs : List α} {k : ℕ} (ys : List α)
    (h : position p xs = some k) :
    position p (xs ++ ys) = some k := by
  induction xs generalizing k with
  | nil => simp [position] at h
  | cons x xs ih =>
    rw [position] at h
    by_cases hx : p x = true
    · simp only [hx, if_true, Option.some.injEq] at h
      simp [position, hx, h]
    · simp only [Bool.not_eq_true] at hx
      simp only [hx, Bool.false_eq_true, if_false, Option.map_eq_some'] at h
      obtain ⟨j, hj, rfl⟩ := h
      simp [position, hx, ih hj]

theorem position_lt_length {α : Type} {p : α → Bool} {l : List α} {k : ℕ}
    (h : position p l = some k) : k < l.length := by
  induction l generalizing k with
  | nil => simp [position] at h
  | cons x xs ih =>
    rw [position] at h
    by_cases hx : p x = true
    · simp only [hx, if_true, Option.some.injEq] at h
      simp [← h]
    · simp only [Bool.not_eq_true] at hx
      simp only [hx, Bool.false_eq_true, if_false, Option.map_eq_some'] at h
      obtain ⟨j, hj, rfl⟩ := h
      simpa using ih hj

theorem position_beq_eq_none_iff (l : List String) (t : String) :
    position (fun x => x == t) l = none ↔ t ∉ l := by
  rw [position_eq_none_iff]
  constructor
  · intro h ht
    have := h t ht
    simp at this
  · intro ht x hx
    have : x ≠ t := fun he => ht (he ▸ hx)
    simpa using this

theorem position_beq_singleton (t : String) :
    position (fun x => x == t) [t] = some 0 := by
  simp [position]

/-! ## Lemmas about the exact rational f64 model -/

theorem ratTrunc_nonneg_intCast_div_natCast (n : ℤ) (d : ℕ) (hn : 0 ≤ n) :
    ratTrunc ((n : ℚ) / (d : ℚ)) = n / (d : ℤ) := by
  have h : (0 : ℚ) ≤ (n : ℚ) / (d : ℚ) := by positivity
  simp only [ratTrunc, if_pos h]
  exact Rat.floor_intCast_div_natCast n d

theorem fmod_four_intCast (n : ℤ) (hn : 0 ≤ n) :
    fmod (n : ℚ) 4 = ((n % 4 : ℤ) : ℚ) := by
  have h := ratTrunc_nonneg_intCast_div_natCast n 4 hn
  rw [fmod, Int.emod_def]
  push_cast at h ⊢
  rw [h]

theorem align_step (x : ℚ) : x / 4 * 4 + 4 = x + 4 := by
  field_simp

/-! ## Lemmas about the allocator -/

theorem create_data_fst (s : Compiler) (bytes : List MByte) :
    (s.create_data bytes).1 = s.heap_position := rfl

theorem create_data_data (s : Compiler) (bytes : List MByte) :
    (s.create_data bytes).2.wasm.data =
      s.wasm.data ++ [(asI32 s.heap_position, bytes)] := rfl

theorem create_data_heap (s : Compiler) (bytes : List MByte) :
    (s.create_data bytes).2.heap_position =
      if fmod (s.heap_position + (bytes.length : ℚ)) 4 ≠ 0 then
        s.heap_position + (bytes.length : ℚ) + 4
      else s.heap_position + (bytes.length : ℚ) := by
  show (if fmod (s.heap_position + (bytes.length : ℚ)) 4 ≠ 0 then
      (s.heap_position + (bytes.length : ℚ)) / 4 * 4 + 4
    else s.heap_position + (bytes.length : ℚ)) = _
  rw [align_step]

theorem create_data_heap_lt (s : Compiler) (bytes : List MByte) (h : bytes ≠ []) :
    s.heap_position < (s.create_data bytes).2.heap_position := by
  rw [create_data_heap]
  have h1 : (1 : ℚ) ≤ (bytes.length : ℚ) := by
    have : 1 ≤ bytes.length := List.length_pos.mpr h
    exact_mod_cast this
  split <;> linarith

theorem create_data_heap_mono (s : Compiler) (bytes : List MByte) :
    s.heap_position ≤ (s.create_data bytes).2.heap_position := by
  rw [create_data_heap]
  have h1 : (0 : ℚ) ≤ (bytes.length : ℚ) := by positivity
  split <;> linarith

/-! ## Claim C1 (alignment of `heap_position`) -/

/-- C1: the claim states that after every `create_data` allocation
`heap_position ≡ 0 (mod 4)`, misaligned ends being rounded up to the next
multiple of 4, and that `set_heap_start` applies the same rounding.  The
code is wrong: its re-alignment expression `(x / 4.0) * 4.0 + 4.0` is f64
arithmetic, where division by 4 is exact, so it computes `x + 4` and never
re-aligns.  Witnessed here: allocating the 3-byte segment `"hi\x00"` from
the initial state (heap position 4) leaves `heap_position = 11`, which is
not a multiple of 4 and not the spec's next multiple 8; and the driver's
heap-global phase then publishes 15 (not a multiple of 4) as both heap
globals of the compiled module. -/
theorem C1_alignment_code_bug :
    ((Compiler.new ⟨[]⟩).create_data [.raw 104, .raw 105, .raw 0]).2.heap_position = 11 ∧
    (¬ ∃ k : ℤ, ((Compiler.new ⟨[]⟩).create_data
        [.raw 104, .raw 105, .raw 0]).2.heap_position = 4 * (k : ℚ)) ∧
    ((Compiler.new ⟨[]⟩).create_data [.raw 104, .raw 105, .raw 0]).2.heap_position ≠ 8 ∧
    compile ⟨[.DefineGlobal ⟨"s", .Text [104, 105]⟩]⟩ =
      .ok (.ok { imports := [], types := [], tables := [⟨0, 0⟩], functions := [],
                 data := [(4, [.raw 104, .raw 105, .raw 0])],
                 globals := [(15, false), (15, true)], elements := [(0, [])] }) := by
  have hheap : ((Compiler.new ⟨[]⟩).create_data
      [.raw 104, .raw 105, .raw 0]).2.heap_position = 11 := by
    norm_num [Compiler.new, Compiler.initCompiler, Compiler.create_data, WasmApp.new,
      WasmApp.add_data, fmod, ratTrunc]
  refine ⟨hheap, ?_, ?_, ?_⟩
  · rw [hheap]
    rintro ⟨k, hk⟩
    have : (11 : ℚ) = ((4 * k : ℤ) : ℚ) := by push_cast; exact hk
    have h2 : (11 : ℤ) = 4 * k := by exact_mod_cast this
    omega
  · rw [hheap]; norm_num
  · norm_num [compile, Compiler.new, Compiler.initCompiler, Compiler.pre_process_functions,
      Compiler.process_globals, Compiler.processGlobalDefs, Compiler.get_global_value,
      Compiler.get_or_create_text_data, Compiler.create_data, Compiler.process_functions,
      Compiler.processFunctionDefs, Compiler.set_heap_start, fmod, ratTrunc, asI32,
      WasmApp.new, WasmApp.add_data, WasmApp.add_table, WasmApp.add_global,
      WasmApp.add_elements, position, bind, Except.bind, pure, Except.pure]

/-! ## Claim C5 (symbol interning) -/

/-- C5: `get_symbol_value` returns `index_in_pool + 1` for every name: a
first interning appends the name and returns its 1-based position, later
internings of the same name return the same value without growing the
pool, and no interning returns 0. -/
theorem C5_symbol_interning (s : Compiler) (t : String) :
    (s.get_symbol_value t).1 ≠ 0 ∧
    (∃ k : ℕ, position (fun x => x == t) (s.get_symbol_value t).2.symbols = some k ∧
      (s.get_symbol_value t).1 = (k : ℚ) + 1) ∧
    (t ∉ s.symbols →
      (s.get_symbol_value t).2.symbols = s.symbols ++ [t] ∧
      (s.get_symbol_value t).1 = (s.symbols.length : ℚ) + 1) ∧
    ((s.get_symbol_value t).2.get_symbol_value t).1 = (s.get_symbol_value t).1 ∧
    ((s.get_symbol_value t).2.get_symbol_value t).2 = (s.get_symbol_value t).2 := by
  cases h : position (fun x => x == t) s.symbols with
  | some k =>
      have hres : s.get_symbol_value t = ((k : ℚ) + 1, s) := by
        rw [Compiler.get_symbol_value, h]
      have hpos : ((k : ℚ) + 1) ≠ 0 := by positivity
      have hnotmem : ¬ t ∉ s.symbols := by
        intro hmem
        rw [(position_beq_eq_none_iff s.symbols t).2 hmem] at h
        exact Option.noConfusion h
      simp only [hres]
      refine ⟨hpos, ⟨k, h, rfl⟩, fun hm => absurd hm hnotmem, ?_, ?_⟩ <;> trivial
  | none =>
      have happ : position (fun x => x == t) (s.symbols ++ [t]) =
          some s.symbols.length := by
        rw [position_append_of_none [t] h, position_beq_singleton]
        simp
      have hres : s.get_symbol_value t =
          ((s.symbols.length : ℚ) + 1, { s with symbols := s.symbols ++ [t] }) := by
        rw [Compiler.get_symbol_value, h]
      have hres2 : ({ s with symbols := s.symbols ++ [t] } :
          Compiler).get_symbol_value t =
          ((s.symbols.length : ℚ) + 1, { s with symbols := s.symbols ++ [t] }) := by
        rw [Compiler.get_symbol_value]
        simp only [happ]
      have hpos : ((s.symbols.length : ℚ) + 1) ≠ 0 := by positivity
      simp only [hres, hres2]
      refine ⟨hpos, ⟨s.symbols.length, happ, rfl⟩, fun _ => ?_, ?_, ?_⟩ <;> trivial

/-- Witness for `C5_symbol_interning` at a concrete state and name. -/
theorem C5_symbol_interning_witness :
    "foo" ∉ (Compiler.new ⟨[]⟩).symbols ∧
    ((Compiler.new ⟨[]⟩).get_symbol_value "foo").2.symbols =
      (Compiler.new ⟨[]⟩).symbols ++ ["foo"] ∧
    ((Compiler.new ⟨[]⟩).get_symbol_value "foo").1 =
      ((Compiler.new ⟨[]⟩).symbols.length : ℚ) + 1 := by
  have h : "foo" ∉ (Compiler.new ⟨[]⟩).symbols := by
    show "foo" ∉ ([] : List String)
    simp
  have := (C5_symbol_interning (Compiler.new ⟨[]⟩) "foo").2.2.1 h
  exact ⟨h, this.1, this.2⟩

/-! ## Claim C7 (`intern_text` behaviour, no deduplication) -/

/-- C7: `intern_text` appends the string's UTF-8 bytes plus exactly one
NUL byte at the current heap position, records a data segment at that
address, returns that address, and never deduplicates: a second call
with the same string returns a strictly larger, hence distinct,
address and records a second fresh segment. -/
theorem C7_intern_text_no_dedup (s : Compiler) (str : List ℕ) :
    (s.get_or_create_text_data str).1 = s.heap_position ∧
    (s.get_or_create_text_data str).2.wasm.data =
      s.wasm.data ++ [(asI32 s.heap_position, str.map MByte.raw ++ [MByte.raw 0])] ∧
    ((s.get_or_create_text_data str).2.get_or_create_text_data str).2.wasm.data =
      s.wasm.data ++ [(asI32 s.heap_position, str.map MByte.raw ++ [MByte.raw 0])] ++
        [(asI32 (s.get_or_create_text_data str).2.heap_position,
          str.map MByte.raw ++ [MByte.raw 0])] ∧
    ((s.get_or_create_text_data str).2.get_or_create_text_data str).1 ≠
      (s.get_or_create_text_data str).1 := by
  have hne : str.map MByte.raw ++ [MByte.raw 0] ≠ [] := by simp
  refine ⟨rfl, rfl, rfl, ?_⟩
  have hlt : s.heap_position < (s.get_or_create_text_data str).2.heap_position :=
    create_data_heap_lt s _ hne
  have h1 : (s.get_or_create_text_data str).1 = s.heap_position := rfl
  have h2 : ((s.get_or_create_text_data str).2.get_or_create_text_data str).1 =
      (s.get_or_create_text_data str).2.heap_position := rfl
  rw [h1, h2]
  exact ne_of_gt hlt

/-! ## Lemmas about `updateAt` and the body builders -/

theorem updateAt_length {α : Type} (l : List α) (n : ℕ) (g : α → α) :
    (updateAt l n g).length = l.length := by
  induction l generalizing n with
  | nil => rfl
  | cons x xs ih =>
      cases n with
      | zero => rfl
      | succ m => simp [updateAt, ih]

theorem getElem?_updateAt_self {α : Type} (l : List α) (n : ℕ) (g : α → α) :
    (updateAt l n g)[n]? = l[n]?.map g := by
  induction l generalizing n with
  | nil => rfl
  | cons x xs ih =>
      cases n with
      | zero => simp [updateAt]
      | succ m => simpa [updateAt] using ih m

theorem emitAt_implInstrs (s : Compiler) (i : ℕ) (l : List Instr)
    (hi : i < s.function_implementations.length) :
    (s.emitAt i l).implInstrs i = s.implInstrs i ++ l := by
  have hf : s.function_implementations[i]? = some s.function_implementations[i] :=
    List.getElem?_eq_some_iff.mpr ⟨hi, rfl⟩
  simp [Compiler.emitAt, Compiler.implInstrs, getElem?_updateAt_self, hf,
    WasmFunction.with_instructions]

theorem emitAt_implInstrs_suffix (s : Compiler) (i : ℕ) (l : List Instr) :
    ∃ g, (s.emitAt i l).implInstrs i = s.implInstrs i ++ g := by
  by_cases hi : i < s.function_implementations.length
  · exact ⟨l, emitAt_implInstrs s i l hi⟩
  · refine ⟨[], ?_⟩
    have hnone : s.function_implementations[i]? = none := by
      simp [List.getElem?_eq_none_iff]
      omega
    have hnone' : (updateAt s.function_implementations i
        (fun f => f.with_instructions l))[i]? = none := by
      rw [getElem?_updateAt_self, hnone]
      rfl
    simp [Compiler.emitAt, Compiler.implInstrs, hnone, hnone']

theorem emitAt_implLocals (s : Compiler) (i : ℕ) (l : List Instr) :
    (s.emitAt i l).implLocals i = s.implLocals i := by
  cases hf : s.function_implementations[i]? with
  | none =>
      have h2 : (updateAt s.function_implementations i
          (fun f => f.with_instructions l))[i]? = none := by
        rw [getElem?_updateAt_self, hf]; rfl
      simp [Compiler.emitAt, Compiler.implLocals, hf, h2]
  | some f =>
      simp [Compiler.emitAt, Compiler.implLocals, getElem?_updateAt_self, hf,
        WasmFunction.with_instructions]

theorem addLocalAt_implLocals (s : Compiler) (i : ℕ) (t : DataType)
    (hi : i < s.function_implementations.length) :
    (s.addLocalAt i t).implLocals i = s.implLocals i ++ [t] := by
  have hf : s.function_implementations[i]? = some s.function_implementations[i] :=
    List.getElem?_eq_some_iff.mpr ⟨hi, rfl⟩
  simp [Compiler.addLocalAt, Compiler.implLocals, getElem?_updateAt_self, hf,
    WasmFunction.with_local]

theorem addLocalAt_implInstrs (s : Compiler) (i : ℕ) (t : DataType) :
    (s.addLocalAt i t).implInstrs i = s.implInstrs i := by
  cases hf : s.function_implementations[i]? with
  | none =>
      have h2 : (updateAt s.function_implementations i
          (fun f => f.with_local t))[i]? = none := by
        rw [getElem?_updateAt_self, hf]; rfl
      simp [Compiler.addLocalAt, Compiler.implInstrs, hf, h2]
  | some f =>
      simp [Compiler.addLocalAt, Compiler.implInstrs, getElem?_updateAt_self, hf,
        WasmFunction.with_local]

theorem emitAt_length (s : Compiler) (i : ℕ) (l : List Instr) :
    (s.emitAt i l).function_implementations.length =
      s.function_implementations.length := by
  simp [Compiler.emitAt, updateAt_length]

theorem addLocalAt_length (s : Compiler) (i : ℕ) (t : DataType) :
    (s.addLocalAt i t).function_implementations.length =
      s.function_implementations.length := by
  simp [Compiler.addLocalAt, updateAt_length]

/-! ## Claim C2 (assignment to an existing local) -/

/-- A concrete state with one body builder and one existing local `x`. -/
def c2State : Compiler :=
  { Compiler.new ⟨[]⟩ with
    function_implementations := [WasmFunction.new],
    local_names := ["x"] }

/-- C2 counterexample: in a state where `x` is already a local (slot 0,
`local_names = ["x"]`), lowering `x := 1` leaves `local_names` unchanged —
the claim says the name is appended and later resolution finds a new
slot — and the emitted store/reload indexes the old slot 0, not the newly
allocated slot 1 (the declared local count does still grow by one). -/
theorem C2_assignment_counterexample :
    (c2State.process_expression 0 (.Assignment "x" (.Number 1))).map
        (fun s' => (s'.local_names, s'.implInstrs 0, s'.implLocals 0)) =
      .ok (["x"], [.F64_CONST 1, .LOCAL_SET 0, .LOCAL_GET 0], [.F64]) ∧
    (["x"] : List String) ≠ ["x", "x"] ∧
    Instr.LOCAL_SET 0 ≠ .LOCAL_SET 1 := by
  have hval : asU32 (((1 : ℕ) : ℚ) - 1 - ((0 : ℕ) : ℚ)) = 0 := by
    norm_num [asU32, ratTrunc]
  refine ⟨?_, by simp, by simp⟩
  have hstep : (c2State.process_expression 0 (.Assignment "x" (.Number 1))).map
      (fun s' => (s'.local_names, s'.implInstrs 0, s'.implLocals 0)) =
      .ok (["x"],
        [.F64_CONST 1,
         .LOCAL_SET ((asU32 (((1 : ℕ) : ℚ) - 1 - ((0 : ℕ) : ℚ)) : ℕ) : ℤ),
         .LOCAL_GET ((asU32 (((1 : ℕ) : ℚ) - 1 - ((0 : ℕ) : ℚ)) : ℕ) : ℤ)],
        [.F64]) := rfl
  rw [hstep, hval]
  norm_num

/-- Unfolding equation of the `Assignment` arm of `process_expression`. -/
theorem process_assignment_eq (s : Compiler) (i : ℕ) (id : String) (value : Expression) :
    s.process_expression i (.Assignment id value) =
      (s.process_expression i value).bind (fun s₁ =>
        let s₂ := s₁.addLocalAt i DataType.F64
        match s₂.resolve_identifier id with
        | .error e => .error e
        | .ok p =>
            let r : ℕ × Compiler :=
              match p with
              | some ident =>
                  if ident.2 = .Local then (asU32 ident.1, s₂)
                  else (s₂.local_names.length,
                    { s₂ with local_names := s₂.local_names ++ [id] })
              | none => (s₂.local_names.length,
                  { s₂ with local_names := s₂.local_names ++ [id] })
            .ok (r.2.emitAt i [.LOCAL_SET ((r.1 : ℕ) : ℤ), .LOCAL_GET ((r.1 : ℕ) : ℤ)])) :=
  rfl

/-- C2 (amended): lowering `id := e` always calls `with_local`, so the
function's declared local count grows by one; but when `id` currently
resolves to a `Local`, `local_names` is left unchanged (the name is not
appended) and the emitted store/reload indexes the old slot.  A fresh
slot index (the current `local_names` length) is used, and the name
appended, only when `id` is unbound or resolves to a non-`Local`. -/
theorem C2_assignment_reuses_local_slot (s s₁ : Compiler) (i : ℕ) (id : String)
    (value : Expression) (hv : s.process_expression i value = .ok s₁)
    (hi : i < s₁.function_implementations.length) :
    (∀ v, s₁.resolve_identifier id = .ok (some (v, .Local)) →
      ∃ s', s.process_expression i (.Assignment id value) = .ok s' ∧
        s'.local_names = s₁.local_names ∧
        s'.implLocals i = s₁.implLocals i ++ [.F64] ∧
        s'.implInstrs i = s₁.implInstrs i ++
          [.LOCAL_SET ((asU32 v : ℕ) : ℤ), .LOCAL_GET ((asU32 v : ℕ) : ℤ)]) ∧
    (∀ r, s₁.resolve_identifier id = .ok r →
      (∀ v, r ≠ some (v, IdentifierType.Local)) →
      ∃ s', s.process_expression i (.Assignment id value) = .ok s' ∧
        s'.local_names = s₁.local_names ++ [id] ∧
        s'.implLocals i = s₁.implLocals i ++ [.F64] ∧
        s'.implInstrs i = s₁.implInstrs i ++
          [.LOCAL_SET ((s₁.local_names.length : ℕ) : ℤ),
           .LOCAL_GET ((s₁.local_names.length : ℕ) : ℤ)]) := by
  have hresolve : (s₁.addLocalAt i .F64).resolve_identifier id =
      s₁.resolve_identifier id := rfl
  have hnames : (s₁.addLocalAt i .F64).local_names = s₁.local_names := rfl
  have hlen : i < (s₁.addLocalAt i .F64).function_implementations.length := by
    rw [addLocalAt_length]; exact hi
  constructor
  · intro v hres
    refine ⟨((s₁.addLocalAt i .F64).emitAt i
      [.LOCAL_SET ((asU32 v : ℕ) : ℤ), .LOCAL_GET ((asU32 v : ℕ) : ℤ)]), ?_, rfl, ?_, ?_⟩
    · rw [process_assignment_eq, hv]
      show (match (s₁.addLocalAt i DataType.F64).resolve_identifier id with
        | .error e => (.error e : Except Unwind Compiler)
        | .ok p => _) = _
      rw [hresolve, hres]
      simp
    · rw [emitAt_implLocals, addLocalAt_implLocals _ _ _ hi]
    · rw [emitAt_implInstrs _ _ _ hlen, addLocalAt_implInstrs]
  · intro r hres hnl
    have hbranch : s.process_expression i (.Assignment id value) =
        .ok (({ s₁.addLocalAt i .F64 with
            local_names := (s₁.addLocalAt i .F64).local_names ++ [id] }).emitAt i
          [.LOCAL_SET (((s₁.addLocalAt i .F64).local_names.length : ℕ) : ℤ),
           .LOCAL_GET (((s₁.addLocalAt i .F64).local_names.length : ℕ) : ℤ)]) := by
      rw [process_assignment_eq, hv]
      show (match (s₁.addLocalAt i DataType.F64).resolve_identifier id with
        | .error e => (.error e : Except Unwind Compiler)
        | .ok p => _) = _
      rw [hresolve, hres]
      cases r with
      | none => rfl
      | some ident =>
          obtain ⟨w, k⟩ := ident
          cases k with
          | Local => exact absurd rfl (hnl w)
          | Global => rfl
          | Function => rfl
    refine ⟨_, hbranch, ?_, ?_, ?_⟩
    · rfl
    · rw [emitAt_implLocals]
      show (s₁.addLocalAt i .F64).implLocals i = _
      rw [addLocalAt_implLocals _ _ _ hi]
    · rw [hnames, emitAt_implInstrs]
      · show (s₁.addLocalAt i .F64).implInstrs i ++ _ = _
        rw [addLocalAt_implInstrs]
      · simpa using hlen

/-! ## Unfolding equations for the lowering arms, and bind decomposition -/

theorem bind_ok_iff {α β : Type} {x : Except Unwind α} {f : α → Except Unwind β}
    {b : β} : (x >>= f) = .ok b ↔ ∃ a, x = .ok a ∧ f a = .ok b := by
  cases x <;> simp [Bind.bind, Except.bind]

theorem processSeq_nil (s : Compiler) (i : ℕ) : s.processSeq i [] = .ok s := rfl

theorem processSeq_single (s : Compiler) (i : ℕ) (e : Expression) :
    s.processSeq i [e] = s.process_expression i e := rfl

theorem processSeq_cons₂ (s : Compiler) (i : ℕ) (e e' : Expression)
    (rest : List Expression) :
    s.processSeq i (e :: e' :: rest) = (do
      let s₁ ← s.process_expression i e
      (s₁.emitAt i [.DROP]).processSeq i (e' :: rest)) := rfl

theorem processPlainList_nil (s : Compiler) (i : ℕ) :
    s.processPlainList i [] = .ok s := rfl

theorem processPlainList_cons (s : Compiler) (i : ℕ) (e : Expression)
    (rest : List Expression) :
    s.processPlainList i (e :: rest) = (do
      let s₁ ← s.process_expression i e
      s₁.processPlainList i rest) := rfl

theorem processArithRest_nil (s : Compiler) (i : ℕ) (fname : String) :
    s.processArithRest i fname [] = .ok s := rfl

theorem processArithRest_cons (s : Compiler) (i : ℕ) (fname : String)
    (p : Expression) (rest : List Expression) :
    s.processArithRest i fname (p :: rest) = (do
      let s₁ ← s.process_expression i p
      let s₂ := if fname = "%" then s₁.emitAt i [.I64_TRUNC_S_F64] else s₁
      let f ← arithOpInstr fname
      (s₂.emitAt i f).processArithRest i fname rest) := rfl

theorem process_number_eq (s : Compiler) (i : ℕ) (x : ℚ) :
    s.process_expression i (.Number x) = .ok (s.emitAt i [.F64_CONST x]) := rfl

theorem process_symbol_eq (s : Compiler) (i : ℕ) (x : String) :
    s.process_expression i (.SymbolLiteral x) =
      .ok ((s.get_symbol_value x).2.emitAt i [.F64_CONST (s.get_symbol_value x).1]) := rfl

theorem process_fnsig_eq (s : Compiler) (i : ℕ) (inputs : List DataType)
    (output : Option DataType) :
    s.process_expression i (.FnSig inputs output) =
      .ok (({ s with wasm := (s.wasm.add_type ⟨inputs, output⟩).2 }).emitAt i
        [.F64_CONST (((s.wasm.add_type ⟨inputs, output⟩).1 : ℕ) : ℚ)]) := rfl

theorem process_text_eq (s : Compiler) (i : ℕ) (x : List ℕ) :
    s.process_expression i (.TextLiteral x) =
      .ok ((s.get_or_create_text_data x).2.emitAt i
        [.F64_CONST (s.get_or_create_text_data x).1]) := rfl

theorem process_recur_eq (s : Compiler) (i : ℕ) :
    s.process_expression i .Recur =
      .ok (s.emitAt i [.F64_CONST 0, .BR s.recur_depth]) := rfl

theorem process_loop_nil_eq (s : Compiler) (i : ℕ) :
    s.process_expression i (.Loop []) =
      .error (.msg "useless infinite loop detected") := rfl

theorem process_loop_cons_eq (s : Compiler) (i : ℕ) (e : Expression)
    (rest : List Expression) :
    s.process_expression i (.Loop (e :: rest)) = (do
      let s₁ ← (({ s with recur_depth := 0 }).emitAt i [.LOOP .F64]).processSeq i
        (e :: rest)
      .ok (s₁.emitAt i [.END])) := rfl
/-- Unfolding equation of the `IfStatement` arm with an explicit else
branch. -/
theorem process_if_some_eq (s : Compiler) (i : ℕ) (cond : Expression)
    (tbr fb : List Expression) :
    s.process_expression i (.IfStatement cond tbr (some fb)) = (do
      let s₁ ← ({ s with recur_depth := s.recur_depth + 1 }).process_expression i cond
      let s₂ : Compiler := s₁.emitAt i [.F64_CONST 0, .F64_EQ, .I32_CONST 0, .I32_EQ]
      let s₃ : Compiler := s₂.emitAt i [.IF .F64]
      let s₄ ← s₃.processSeq i tbr
      let s₅ : Compiler := s₄.emitAt i [.ELSE]
      let s₆ ← s₅.processSeq i fb
      .ok (s₆.emitAt i [.END])) := rfl

/-- Unfolding equation of the `IfStatement` arm with no else branch. -/
theorem process_if_none_eq (s : Compiler) (i : ℕ) (cond : Expression)
    (tbr : List Expression) :
    s.process_expression i (.IfStatement cond tbr none) = (do
      let s₁ ← ({ s with recur_depth := s.recur_depth + 1 }).process_expression i cond
      let s₂ : Compiler := s₁.emitAt i [.F64_CONST 0, .F64_EQ, .I32_CONST 0, .I32_EQ]
      let s₃ : Compiler := s₂.emitAt i [.IF .F64]
      let s₄ ← s₃.processSeq i tbr
      let s₅ : Compiler := s₄.emitAt i [.ELSE]
      .ok ((s₅.emitAt i [.F64_CONST 0]).emitAt i [.END])) := rfl



theorem process_identifier_eq (s : Compiler) (i : ℕ) (x : String) :
    s.process_expression i (.Identifier x) =
      (match s.resolve_identifier x with
      | .error e => .error e
      | .ok none => .error (.msg (x ++ " is not a valid identifier"))
      | .ok (some val) =>
          match val.2 with
          | .Global => .ok (s.emitAt i [.F64_CONST val.1])
          | .Local => .ok (s.emitAt i [.LOCAL_GET (asI32 val.1)])
          | .Function => .ok (s.emitAt i [.F64_CONST val.1])) := rfl

/-- Unfolding equation of the whole `FunctionCall` arm: the dispatch
if-chain of the source, each labelled clause delegated to its helper. -/
theorem process_functionCall_eq (s : Compiler) (i : ℕ) (fname : String)
    (params : List Expression) :
    s.process_expression i (.FunctionCall fname params) =
      (if fname = "assert" then s.processAssert i params
      else if fname = "call" then s.processCallSig i params
      else if fname = "mem_byte" then s.processMemByte i params
      else if fname = "mem_heap_start" then
        match params with
        | [] => .ok (s.emitAt i [.GLOBAL_GET 0, .F64_CONVERT_S_I32])
        | _ => .error (.msg "invalid number params for mem_heap_start")
      else if fname = "mem_heap_end" then s.processMemHeapEnd i params
      else if fname = "mem" then s.processMem i params
      else if fname = "==" ∨ fname = "!=" ∨ fname = "<=" ∨ fname = ">=" ∨
          fname = "<" ∨ fname = ">" then s.processCmpOp i fname params
      else if fname = "&" ∨ fname = "|" ∨ fname = "^" ∨ fname = "<<" ∨
          fname = ">>" then s.processBitOp i fname params
      else if fname = "+" ∨ fname = "-" ∨ fname = "*" ∨ fname = "/" ∨
          fname = "%" then s.processArithOp i fname params
      else if fname = "!" then s.processNotOp i params
      else if fname = "~" then s.processComplementOp i params
      else if fname = "and" then s.processAndOp i params
      else if fname = "or" then s.processOrOp i params
      else
        match s.resolve_identifier fname with
        | .error e => .error e
        | .ok none => .error (.msg (fname ++ " is not a valid function"))
        | .ok (some fh) => s.processUserCall i fh.1 params) := rfl

/-- Unfolding equation of the `assert` helper at its accepted arity. -/
theorem processAssert_eq3 (s : Compiler) (i : ℕ) (p0 p1 p2 : Expression) :
    Compiler.processAssert s i [p0, p1, p2] = (do
      let s₁ ← s.process_expression i p0
      let s₂ ← s₁.process_expression i p1
      let s₇ ← (((s₂.emitAt i [.F64_EQ]).emitAt i [.IF .F64]).emitAt i
        [.F64_CONST 0]).emitAt i [.ELSE] |>.process_expression i p2
      .ok (s₇.emitAt i [.BR s₇.return_depth, .END])) := rfl

/-- Unfolding equation of the `call` helper with a leading signature. -/
theorem processCallSig_eq (s : Compiler) (i : ℕ) (inputs : List DataType)
    (output : Option DataType) (idxE : Expression) (rest : List Expression) :
    Compiler.processCallSig s i (.FnSig inputs output :: idxE :: rest) = (do
      let s₁ ← s.processPlainList i rest
      let s₂ ← s₁.process_expression i idxE
      let s₃ : Compiler := s₂.emitAt i [.I32_TRUNC_S_F64]
      let t := (s₃.wasm.add_type ⟨inputs, output⟩).1
      let w := (s₃.wasm.add_type ⟨inputs, output⟩).2
      let s₄ : Compiler := ({ s₃ with wasm := w }).emitAt i [.CALL_INDIRECT t 0]
      .ok (if output = none then s₄.emitAt i [.F64_CONST 0] else s₄)) := rfl

/-- Unfolding equation of the one-argument `mem_byte` helper. -/
theorem processMemByte_eq1 (s : Compiler) (i : ℕ) (p0 : Expression) :
    Compiler.processMemByte s i [p0] = (do
      let s₁ ← s.process_expression i p0
      .ok ((s₁.emitAt i [.I32_TRUNC_S_F64]).emitAt i
        [.I32_LOAD8_U 0 0, .F64_CONVERT_S_I32])) := rfl

/-- Unfolding equation of the two-argument `mem_byte` helper. -/
theorem processMemByte_eq2 (s : Compiler) (i : ℕ) (p0 p1 : Expression) :
    Compiler.processMemByte s i [p0, p1] = (do
      let s₁ ← s.process_expression i p0
      let s₃ ← (s₁.emitAt i [.I32_TRUNC_S_F64]).process_expression i p1
      .ok (((s₃.emitAt i [.I32_TRUNC_S_F64]).emitAt i [.I32_STORE8 0 0]).emitAt i
        [.F64_CONST 0])) := rfl

/-- Unfolding equation of the zero-argument `mem_heap_end` helper. -/
theorem processMemHeapEnd_eq0 (s : Compiler) (i : ℕ) :
    Compiler.processMemHeapEnd s i [] =
      .ok (s.emitAt i [.GLOBAL_GET 1, .F64_CONVERT_S_I32]) := rfl

/-- Unfolding equation of the one-argument `mem_heap_end` helper. -/
theorem processMemHeapEnd_eq1 (s : Compiler) (i : ℕ) (p0 : Expression) :
    Compiler.processMemHeapEnd s i [p0] = (do
      let s₁ ← s.process_expression i p0
      .ok ((s₁.emitAt i [.I32_TRUNC_S_F64]).emitAt i
        [.GLOBAL_SET 1, .I32_CONST 0])) := rfl

/-- Unfolding equation of the one-argument `mem` helper. -/
theorem processMem_eq1 (s : Compiler) (i : ℕ) (p0 : Expression) :
    Compiler.processMem s i [p0] = (do
      let s₁ ← s.process_expression i p0
      .ok (s₁.emitAt i [.I32_TRUNC_S_F64, .F64_LOAD 0 0])) := rfl

/-- Unfolding equation of the two-argument `mem` helper. -/
theorem processMem_eq2 (s : Compiler) (i : ℕ) (p0 p1 : Expression) :
    Compiler.processMem s i [p0, p1] = (do
      let s₁ ← s.process_expression i p0
      let s₃ ← (s₁.emitAt i [.I32_TRUNC_S_F64]).process_expression i p1
      .ok ((s₃.emitAt i [.F64_STORE 0 0]).emitAt i [.F64_CONST 0])) := rfl

/-- Unfolding equation of the comparison helper at its accepted arity. -/
theorem processCmpOp_eq2 (s : Compiler) (i : ℕ) (fname : String) (p0 p1 : Expression) :
    Compiler.processCmpOp s i fname [p0, p1] = (do
      let s₁ ← s.process_expression i p0
      let s₂ ← s₁.process_expression i p1
      let f ← cmpOpInstr fname
      .ok (s₂.emitAt i (f ++ [.F64_CONVERT_S_I32]))) := rfl

/-- Unfolding equation of the bitwise helper at its accepted arity. -/
theorem processBitOp_eq2 (s : Compiler) (i : ℕ) (fname : String) (p0 p1 : Expression) :
    Compiler.processBitOp s i fname [p0, p1] = (do
      let s₁ ← s.process_expression i p0
      let s₃ ← (s₁.emitAt i [.I64_TRUNC_S_F64]).process_expression i p1
      let f ← bitOpInstr fname
      .ok ((s₃.emitAt i [.I64_TRUNC_S_F64]).emitAt i (f ++ [.F64_CONVERT_S_I64]))) := rfl

/-- Unfolding equation of the arithmetic helper at its accepted arity. -/
theorem processArithOp_eq (s : Compiler) (i : ℕ) (fname : String)
    (p0 p1 : Expression) (rest : List Expression) :
    Compiler.processArithOp s i fname (p0 :: p1 :: rest) = (do
      let s₁ ← s.process_expression i p0
      let s₂ : Compiler := if fname = "%" then s₁.emitAt i [.I64_TRUNC_S_F64] else s₁
      s₂.processArithRest i fname (p1 :: rest)) := rfl

/-- Unfolding equation of the `!` helper at its accepted arity. -/
theorem processNotOp_eq1 (s : Compiler) (i : ℕ) (p0 : Expression) :
    Compiler.processNotOp s i [p0] = (do
      let s₁ ← s.process_expression i p0
      .ok (s₁.emitAt i [.F64_CONST 0, .F64_EQ, .F64_CONVERT_S_I32])) := rfl

/-- Unfolding equation of the `~` helper at its accepted arity. -/
theorem processComplementOp_eq1 (s : Compiler) (i : ℕ) (p0 : Expression) :
    Compiler.processComplementOp s i [p0] = (do
      let s₁ ← s.process_expression i p0
      .ok (s₁.emitAt i
        [.I64_TRUNC_S_F64, .I64_CONST (-1), .I64_XOR, .F64_CONVERT_S_I64])) := rfl

/-- Unfolding equation of the `and` helper at its accepted arity. -/
theorem processAndOp_eq2 (s : Compiler) (i : ℕ) (p0 p1 : Expression) :
    Compiler.processAndOp s i [p0, p1] = (do
      let s₁ ← s.process_expression i p0
      let s₃ ← (s₁.emitAt i [.I64_TRUNC_S_F64, .I64_CONST 0, .I64_NE]).process_expression i p1
      .ok (s₃.emitAt i
        [.I64_TRUNC_S_F64, .I64_CONST 0, .I64_NE, .I32_AND, .F64_CONVERT_S_I32])) := rfl

/-- Unfolding equation of the `or` helper at its accepted arity. -/
theorem processOrOp_eq2 (s : Compiler) (i : ℕ) (p0 p1 : Expression) :
    Compiler.processOrOp s i [p0, p1] = (do
      let s₁ ← s.process_expression i p0
      let s₃ ← (s₁.emitAt i [.I64_TRUNC_S_F64]).process_expression i p1
      .ok (s₃.emitAt i
        [.I64_TRUNC_S_F64, .I64_OR, .I64_CONST 0, .I64_NE, .F64_CONVERT_S_I32])) := rfl

/-! ## Preservation of `recur_depth`, `return_depth` and name environments -/

theorem emitAt_state (s : Compiler) (i : ℕ) (l : List Instr) :
    (s.emitAt i l).recur_depth = s.recur_depth ∧
    (s.emitAt i l).return_depth = s.return_depth ∧
    (s.emitAt i l).local_names = s.local_names := ⟨rfl, rfl, rfl⟩

theorem get_symbol_value_state (s : Compiler) (t : String) :
    ((s.get_symbol_value t).2.recur_depth = s.recur_depth ∧
     (s.get_symbol_value t).2.return_depth = s.return_depth ∧
     (s.get_symbol_value t).2.local_names = s.local_names) := by
  cases h : position (fun x => x == t) s.symbols <;>
    simp [Compiler.get_symbol_value, h]

/-- Witness for `C2_assignment_reuses_local_slot`, discharging its
hypotheses at the concrete state `c2State` and assignment `x := 1`. -/
theorem C2_assignment_reuses_local_slot_witness :
    ∃ s', c2State.process_expression 0 (.Assignment "x" (.Number 1)) = .ok s' ∧
      s'.local_names = ["x"] := by
  have hv : c2State.process_expression 0 (.Number 1) =
      .ok (c2State.emitAt 0 [.F64_CONST 1]) := rfl
  have hi : 0 < (c2State.emitAt 0 [.F64_CONST 1]).function_implementations.length := by
    rw [emitAt_length]
    simp [c2State]
  have hres : (c2State.emitAt 0 [.F64_CONST 1]).resolve_identifier "x" =
      .ok (some (0, .Local)) := by
    have h0 : (c2State.emitAt 0 [.F64_CONST 1]).resolve_identifier "x" =
        .ok (some (((1 : ℕ) : ℚ) - 1 - ((0 : ℕ) : ℚ), .Local)) := rfl
    have h1 : (((1 : ℕ) : ℚ) - 1 - ((0 : ℕ) : ℚ)) = 0 := by norm_num
    rw [h0, h1]
  obtain ⟨s', hs', hnames, -, -⟩ :=
    (C2_assignment_reuses_local_slot c2State (c2State.emitAt 0 [.F64_CONST 1]) 0 "x"
      (.Number 1) hv hi).1 0 hres
  refine ⟨s', hs', ?_⟩
  rw [hnames]
  rfl

/-! ## Claim C6 (identifier resolution order) -/

theorem position_beq_cons_self (t : String) (xs : List String) :
    position (fun r => r == t) (t :: xs) = some 0 := by
  simp [position]

theorem position_beq_first (l₁ l₂ : List String) (id : String) (h : id ∉ l₁) :
    position (fun r => r == id) (l₁ ++ id :: l₂) = some l₁.length := by
  rw [position_append_of_none _ ((position_beq_eq_none_iff l₁ id).2 h),
    position_beq_cons_self]
  simp

theorem position_beq_last (l₁ l₂ : List String) (id : String) (h : id ∉ l₂) :
    position (fun r => r == id) (l₁ ++ id :: l₂).reverse = some l₂.length := by
  have h2 : id ∉ l₂.reverse := by simpa using h
  rw [List.reverse_append, List.reverse_cons, List.append_assoc]
  rw [position_append_of_none _ ((position_beq_eq_none_iff l₂.reverse id).2 h2)]
  rw [List.singleton_append, position_beq_cons_self]
  simp

/-- C6: identifier resolution checks the four namespaces in the fixed
order: built-ins (`nil` then `size_num`, winning even over a local of the
same name), then locals searched in reverse so the most recently pushed
occurrence wins, then function names by first position, then globals by
precomputed value; a name in none of them resolves to `none`.  Purity is
structural: the embedding of `resolve_identifier` is a function of the
state with no state output, mirroring the `&self` receiver of the
source. -/
theorem C6_resolution_order (locals fns gns : List String) (gvs : List ℚ) (id : String) :
    (resolveCore locals fns gns gvs "nil" = .ok (some (0, .Global))) ∧
    (resolveCore locals fns gns gvs "size_num" = .ok (some (8, .Global))) ∧
    (∀ l₁ l₂, id ≠ "nil" → id ≠ "size_num" → locals = l₁ ++ id :: l₂ → id ∉ l₂ →
      resolveCore locals fns gns gvs id = .ok (some ((l₁.length : ℚ), .Local))) ∧
    (∀ f₁ f₂, id ≠ "nil" → id ≠ "size_num" → id ∉ locals → fns = f₁ ++ id :: f₂ →
      id ∉ f₁ →
      resolveCore locals fns gns gvs id = .ok (some ((f₁.length : ℚ), .Function))) ∧
    (∀ g₁ g₂ v, id ≠ "nil" → id ≠ "size_num" → id ∉ locals → id ∉ fns →
      gns = g₁ ++ id :: g₂ → id ∉ g₁ → gvs[g₁.length]? = some v →
      resolveCore locals fns gns gvs id = .ok (some (v, .Global))) ∧
    (id ≠ "nil" → id ≠ "size_num" → id ∉ locals → id ∉ fns → id ∉ gns →
      resolveCore locals fns gns gvs id = .ok none) := by
  have hrev : ∀ l : List String, id ∉ l →
      position (fun r => r == id) l.reverse = none := by
    intro l hl
    exact (position_beq_eq_none_iff l.reverse id).2 (by simpa using hl)
  refine ⟨by simp [resolveCore], by simp [resolveCore], ?_, ?_, ?_, ?_⟩
  · rintro l₁ l₂ h1 h2 rfl h3
    rw [resolveCore, if_neg h1, if_neg h2, position_beq_last l₁ l₂ id h3]
    have hval : (((l₁ ++ id :: l₂).length : ℕ) : ℚ) - 1 - ((l₂.length : ℕ) : ℚ) =
        (l₁.length : ℚ) := by
      push_cast [List.length_append, List.length_cons]
      ring
    simp only []
    push_cast [List.length_append, List.length_cons]
    norm_num
    ring
  · rintro f₁ f₂ h1 h2 hl rfl h3
    rw [resolveCore, if_neg h1, if_neg h2, hrev _ hl, position_beq_first f₁ f₂ id h3]
  · rintro g₁ g₂ v h1 h2 hl hf rfl h3 hv
    rw [resolveCore, if_neg h1, if_neg h2, hrev _ hl,
      (position_beq_eq_none_iff fns id).2 hf, position_beq_first g₁ g₂ id h3]
    simp [hv]
  · intro h1 h2 hl hf hg
    rw [resolveCore, if_neg h1, if_neg h2, hrev _ hl,
      (position_beq_eq_none_iff fns id).2 hf, (position_beq_eq_none_iff gns id).2 hg]

/-- Witness for `C6_resolution_order` at concrete namespaces: in state
`locals = [x, y, x]`, `fns = [f]`, `gns = [g]`, `gvs = [42]`, the name `x`
resolves to the most recent local slot 2, `f` to function slot 0, `g` to
the precomputed 42, and `z` to `none`. -/
theorem C6_resolution_order_witness :
    resolveCore ["x", "y", "x"] ["f"] ["g"] [42] "x" = .ok (some (2, .Local)) ∧
    resolveCore ["x", "y", "x"] ["f"] ["g"] [42] "f" = .ok (some (0, .Function)) ∧
    resolveCore ["x", "y", "x"] ["f"] ["g"] [42] "g" = .ok (some (42, .Global)) ∧
    resolveCore ["x", "y", "x"] ["f"] ["g"] [42] "z" = .ok none := by
  refine ⟨?_, ?_, ?_, ?_⟩
  · have h := (C6_resolution_order ["x", "y", "x"] ["f"] ["g"] [42] "x").2.2.1
      ["x", "y"] [] (by decide) (by decide) rfl (by simp)
    simpa using h
  · have h := (C6_resolution_order ["x", "y", "x"] ["f"] ["g"] [42] "f").2.2.2.1
      [] [] (by decide) (by decide) (by decide) rfl (by simp)
    simpa using h
  · have h := (C6_resolution_order ["x", "y", "x"] ["f"] ["g"] [42] "g").2.2.2.2.1
      [] [] 42 (by decide) (by decide) (by decide) (by decide) rfl (by simp) rfl
    simpa using h
  · exact (C6_resolution_order ["x", "y", "x"] ["f"] ["g"] [42] "z").2.2.2.2.2
      (by decide) (by decide) (by decide) (by decide) (by decide)

/-! ## Claim C9 (determinism) -/

/-- C9: compilation is deterministic.  The whole pipeline is embedded as
a pure function of the input AST (the source reads no clock, no
randomness, no hash-iteration order and no environment), so structurally
equal inputs yield identical module output. -/
theorem C9_compile_deterministic (a b : App) (h : a = b) : compile a = compile b := by
  rw [h]

/-- Witness for `C9_compile_deterministic` at a concrete input. -/
theorem C9_compile_deterministic_witness :
    compile ⟨[.DefineGlobal ⟨"x", .Number 7⟩]⟩ =
      compile ⟨[.DefineGlobal ⟨"x", .Number 7⟩]⟩ :=
  C9_compile_deterministic _ _ rfl

/-! ## Claim C10 (self-referential global initializer) -/

/-- C10: during global precomputation the name is pushed before the value
is evaluated, so a global whose initializer names itself passes name
lookup (it is the last entry of `global_names`) and then indexes
`global_values` out of bounds — unlike a forward reference to a later
global, which fails with the unknown-identifier panic. -/
theorem C10_self_reference_oob (name : String)
    (h1 : name ≠ "nil") (h2 : name ≠ "size_num") :
    compile ⟨[.DefineGlobal ⟨name, .Identifier name⟩]⟩ = .error .indexOutOfBounds ∧
    compile ⟨[.DefineGlobal ⟨"a", .Identifier "b"⟩, .DefineGlobal ⟨"b", .Number 0⟩]⟩ =
      .error (.msg "b is not a valid identifier") := by
  constructor
  · simp [compile, Compiler.new, Compiler.initCompiler, Compiler.pre_process_functions,
      Compiler.process_globals, Compiler.processGlobalDefs, Compiler.get_global_value,
      Compiler.resolve_identifier, resolveCore, position, h1, h2,
      WasmApp.new, WasmApp.add_table, bind, Except.bind]
  · simp [compile, Compiler.new, Compiler.initCompiler, Compiler.pre_process_functions,
      Compiler.process_globals, Compiler.processGlobalDefs, Compiler.get_global_value,
      Compiler.resolve_identifier, resolveCore, position,
      WasmApp.new, WasmApp.add_table, bind, Except.bind]

/-- Witness for `C10_self_reference_oob` at a concrete name. -/
theorem C10_self_reference_oob_witness :
    "g" ≠ "nil" ∧ "g" ≠ "size_num" ∧
    compile ⟨[.DefineGlobal ⟨"g", .Identifier "g"⟩]⟩ = .error .indexOutOfBounds :=
  ⟨by decide, by decide, (C10_self_reference_oob "g" (by decide) (by decide)).1⟩

/-! ## Claim C8 (recur depth discipline) -/

mutual

/-- Whether an expression contains a `Loop` anywhere.  `Loop` is the only
arm of `process_expression` that writes `recur_depth` downward (resetting
it to 0), so monotonicity of the counter is stated over `Loop`-free
expressions. -/
def containsLoop : Expression → Bool
  | .Loop _ => true
  | .IfStatement c t f =>
      containsLoop c || containsLoopList t ||
        (match f with
        | some l => containsLoopList l
        | none => false)
  | .Assignment _ v => containsLoop v
  | .FunctionCall _ ps => containsLoopList ps
  | .SymbolLiteral _ => false
  | .FnSig _ _ => false
  | .Recur => false
  | .TextLiteral _ => false
  | .Identifier _ => false
  | .Number _ => false

/-- `containsLoop` over a list of expressions. -/
def containsLoopList : List Expression → Bool
  | [] => false
  | e :: rest => containsLoop e || containsLoopList rest

end

theorem containsLoopList_cons (e : Expression) (rest : List Expression) :
    containsLoopList (e :: rest) = (containsLoop e || containsLoopList rest) := rfl

theorem containsLoop_of_mem {xs : List Expression} (h : containsLoopList xs = false)
    {p : Expression} (hp : p ∈ xs) : containsLoop p = false := by
  induction xs with
  | nil => cases hp
  | cons e rest ih =>
      rw [containsLoopList_cons, Bool.or_eq_false_iff] at h
      cases hp with
      | head => exact h.1
      | tail _ hm => exact ih h.2 hm

theorem containsLoopList_tail {e : Expression} {rest : List Expression}
    (h : containsLoopList (e :: rest) = false) : containsLoopList rest = false := by
  rw [containsLoopList_cons, Bool.or_eq_false_iff] at h
  exact h.2

theorem emitAt_recur_depth (s : Compiler) (i : ℕ) (l : List Instr) :
    (s.emitAt i l).recur_depth = s.recur_depth := rfl

theorem addLocalAt_recur_depth (s : Compiler) (i : ℕ) (t : DataType) :
    (s.addLocalAt i t).recur_depth = s.recur_depth := rfl

theorem get_or_create_text_data_recur_depth (s : Compiler) (str : List ℕ) :
    ((s.get_or_create_text_data str).2).recur_depth = s.recur_depth := rfl

/-- Monotonicity of `recur_depth` across the lowering of one `Loop`-free
expression: the form of the statement that the `sizeOf` induction and the
per-clause lemmas below thread around. -/
abbrev RecurMonoE (e : Expression) : Prop :=
  containsLoop e = false → ∀ (s : Compiler) (i : ℕ) (s' : Compiler),
    s.process_expression i e = .ok s' → s.recur_depth ≤ s'.recur_depth

theorem processSeq_recur_mono (i : ℕ) (xs : List Expression)
    (hm : ∀ p ∈ xs, RecurMonoE p) (hx : containsLoopList xs = false) :
    ∀ s s' : Compiler, s.processSeq i xs = .ok s' → s.recur_depth ≤ s'.recur_depth := by
  induction xs with
  | nil => intro s s' h; rw [processSeq_nil] at h; cases h; exact le_refl _
  | cons e rest ih =>
      have he : containsLoop e = false := containsLoop_of_mem hx (List.mem_cons_self e rest)
      have hrest : containsLoopList rest = false := containsLoopList_tail hx
      cases rest with
      | nil =>
          intro s s' h
          rw [processSeq_single] at h
          exact hm e (List.mem_cons_self e []) he s i s' h
      | cons f rest' =>
          intro s s' h
          rw [processSeq_cons₂] at h
          rw [bind_ok_iff] at h
          obtain ⟨s₁, h1, h2⟩ := h
          calc s.recur_depth ≤ s₁.recur_depth :=
                hm e (List.mem_cons_self e _) he s i s₁ h1
            _ = (s₁.emitAt i [.DROP]).recur_depth := (emitAt_recur_depth s₁ i _).symm
            _ ≤ s'.recur_depth :=
                ih (fun p hp => hm p (List.mem_cons_of_mem e hp)) hrest _ _ h2

theorem processPlainList_recur_mono (i : ℕ) (xs : List Expression)
    (hm : ∀ p ∈ xs, RecurMonoE p) (hx : containsLoopList xs = false) :
    ∀ s s' : Compiler, s.processPlainList i xs = .ok s' →
      s.recur_depth ≤ s'.recur_depth := by
  induction xs with
  | nil => intro s s' h; rw [processPlainList_nil] at h; cases h; exact le_refl _
  | cons e rest ih =>
      intro s s' h
      rw [processPlainList_cons, bind_ok_iff] at h
      obtain ⟨s₁, h1, h2⟩ := h
      exact le_trans
        (hm e (List.mem_cons_self e rest) (containsLoop_of_mem hx (List.mem_cons_self e rest))
          s i s₁ h1)
        (ih (fun p hp => hm p (List.mem_cons_of_mem e hp)) (containsLoopList_tail hx) s₁ s' h2)

theorem processArithRest_recur_mono (i : ℕ) (fname : String) (xs : List Expression)
    (hm : ∀ p ∈ xs, RecurMonoE p) (hx : containsLoopList xs = false) :
    ∀ s s' : Compiler, s.processArithRest i fname xs = .ok s' →
      s.recur_depth ≤ s'.recur_depth := by
  induction xs with
  | nil => intro s s' h; rw [processArithRest_nil] at h; cases h; exact le_refl _
  | cons p rest ih =>
      intro s s' h
      rw [processArithRest_cons, bind_ok_iff] at h
      obtain ⟨s₁, h1, h2⟩ := h
      cases hf : arithOpInstr fname with
      | error m =>
          rw [hf] at h2
          simp only [bind, Except.bind] at h2
          exact Except.noConfusion h2
      | ok f =>
          rw [hf] at h2
          simp only [bind, Except.bind] at h2
          calc s.recur_depth ≤ s₁.recur_depth :=
                hm p (List.mem_cons_self p rest)
                  (containsLoop_of_mem hx (List.mem_cons_self p rest)) s i s₁ h1
            _ = ((if fname = "%" then s₁.emitAt i [.I64_TRUNC_S_F64] else s₁).emitAt
                  i f).recur_depth := by
                  by_cases hp : fname = "%" <;> simp [hp, emitAt_recur_depth]
            _ ≤ s'.recur_depth :=
                ih (fun q hq => hm q (List.mem_cons_of_mem p hq))
                  (containsLoopList_tail hx) _ _ h2

theorem processAssert_recur_mono (i : ℕ) (params : List Expression)
    (hm : ∀ p ∈ params, RecurMonoE p) (hx : containsLoopList params = false)
    (s s' : Compiler) (h : Compiler.processAssert s i params = .ok s') :
    s.recur_depth ≤ s'.recur_depth := by
  rcases params with _ | ⟨p0, _ | ⟨p1, _ | ⟨p2, _ | ⟨p3, rest⟩⟩⟩⟩
  · exact Except.noConfusion h
  · exact Except.noConfusion h
  · exact Except.noConfusion h
  · simp only [processAssert_eq3, bind_ok_iff, Except.ok.injEq] at h
    obtain ⟨s₁, h1, s₂, h2, s₇, h3, h4⟩ := h
    subst h4
    calc s.recur_depth
        ≤ s₁.recur_depth := hm p0 (by simp) (containsLoop_of_mem hx (by simp)) s i s₁ h1
      _ ≤ s₂.recur_depth := hm p1 (by simp) (containsLoop_of_mem hx (by simp)) s₁ i s₂ h2
      _ ≤ s₇.recur_depth := hm p2 (by simp) (containsLoop_of_mem hx (by simp))
          ((((s₂.emitAt i [.F64_EQ]).emitAt i [.IF .F64]).emitAt i
            [.F64_CONST 0]).emitAt i [.ELSE]) i s₇ h3
      _ ≤ _ := le_of_eq rfl
  · exact Except.noConfusion h

theorem processCallSig_recur_mono (i : ℕ) (params : List Expression)
    (hm : ∀ p ∈ params, RecurMonoE p) (hx : containsLoopList params = false)
    (s s' : Compiler) (h : Compiler.processCallSig s i params = .ok s') :
    s.recur_depth ≤ s'.recur_depth := by
  rcases params with _ | ⟨sigE, _ | ⟨idxE, rest⟩⟩
  · exact Except.noConfusion h
  · exact Except.noConfusion h
  · cases sigE
    case FnSig inputs output =>
      simp only [processCallSig_eq, bind_ok_iff, Except.ok.injEq, reduceIte] at h
      obtain ⟨s₁, h1, s₂, h2, h4⟩ := h
      subst h4
      calc s.recur_depth
          ≤ s₁.recur_depth :=
            processPlainList_recur_mono i rest
              (fun p hp => hm p (by simp [hp]))
              (containsLoopList_tail (containsLoopList_tail hx)) s s₁ h1
        _ ≤ s₂.recur_depth :=
            hm idxE (by simp) (containsLoop_of_mem hx (by simp)) s₁ i s₂ h2
        _ ≤ _ := by
            by_cases ho : output = none
            · rw [if_pos ho]
              exact le_of_eq rfl
            · rw [if_neg ho]
              exact le_of_eq rfl
    all_goals exact Except.noConfusion h

theorem processMemByte_recur_mono (i : ℕ) (params : List Expression)
    (hm : ∀ p ∈ params, RecurMonoE p) (hx : containsLoopList params = false)
    (s s' : Compiler) (h : Compiler.processMemByte s i params = .ok s') :
    s.recur_depth ≤ s'.recur_depth := by
  rcases params with _ | ⟨p0, _ | ⟨p1, _ | ⟨p2, rest⟩⟩⟩
  · exact Except.noConfusion h
  · simp only [processMemByte_eq1, bind_ok_iff, Except.ok.injEq] at h
    obtain ⟨s₁, h1, h4⟩ := h
    subst h4
    exact le_trans (hm p0 (by simp) (containsLoop_of_mem hx (by simp)) s i s₁ h1)
      (le_of_eq rfl)
  · simp only [processMemByte_eq2, bind_ok_iff, Except.ok.injEq] at h
    obtain ⟨s₁, h1, s₃, h3, h4⟩ := h
    subst h4
    calc s.recur_depth
        ≤ s₁.recur_depth := hm p0 (by simp) (containsLoop_of_mem hx (by simp)) s i s₁ h1
      _ ≤ s₃.recur_depth := hm p1 (by simp) (containsLoop_of_mem hx (by simp))
          (s₁.emitAt i [.I32_TRUNC_S_F64]) i s₃ h3
      _ ≤ _ := le_of_eq rfl
  · exact Except.noConfusion h

theorem processMemHeapEnd_recur_mono (i : ℕ) (params : List Expression)
    (hm : ∀ p ∈ params, RecurMonoE p) (hx : containsLoopList params = false)
    (s s' : Compiler) (h : Compiler.processMemHeapEnd s i params = .ok s') :
    s.recur_depth ≤ s'.recur_depth := by
  rcases params with _ | ⟨p0, _ | ⟨p1, rest⟩⟩
  · simp only [processMemHeapEnd_eq0, Except.ok.injEq] at h
    subst h
    exact le_of_eq rfl
  · simp only [processMemHeapEnd_eq1, bind_ok_iff, Except.ok.injEq] at h
    obtain ⟨s₁, h1, h4⟩ := h
    subst h4
    exact le_trans (hm p0 (by simp) (containsLoop_of_mem hx (by simp)) s i s₁ h1)
      (le_of_eq rfl)
  · exact Except.noConfusion h

theorem processMem_recur_mono (i : ℕ) (params : List Expression)
    (hm : ∀ p ∈ params, RecurMonoE p) (hx : containsLoopList params = false)
    (s s' : Compiler) (h : Compiler.processMem s i params = .ok s') :
    s.recur_depth ≤ s'.recur_depth := by
  rcases params with _ | ⟨p0, _ | ⟨p1, _ | ⟨p2, rest⟩⟩⟩
  · exact Except.noConfusion h
  · simp only [processMem_eq1, bind_ok_iff, Except.ok.injEq] at h
    obtain ⟨s₁, h1, h4⟩ := h
    subst h4
    exact le_trans (hm p0 (by simp) (containsLoop_of_mem hx (by simp)) s i s₁ h1)
      (le_of_eq rfl)
  · simp only [processMem_eq2, bind_ok_iff, Except.ok.injEq] at h
    obtain ⟨s₁, h1, s₃, h3, h4⟩ := h
    subst h4
    calc s.recur_depth
        ≤ s₁.recur_depth := hm p0 (by simp) (containsLoop_of_mem hx (by simp)) s i s₁ h1
      _ ≤ s₃.recur_depth := hm p1 (by simp) (containsLoop_of_mem hx (by simp))
          (s₁.emitAt i [.I32_TRUNC_S_F64]) i s₃ h3
      _ ≤ _ := le_of_eq rfl
  · exact Except.noConfusion h

theorem processCmpOp_recur_mono (i : ℕ) (fname : String) (params : List Expression)
    (hm : ∀ p ∈ params, RecurMonoE p) (hx : containsLoopList params = false)
    (s s' : Compiler) (h : Compiler.processCmpOp s i fname params = .ok s') :
    s.recur_depth ≤ s'.recur_depth := by
  rcases params with _ | ⟨p0, _ | ⟨p1, _ | ⟨p2, rest⟩⟩⟩
  · exact Except.noConfusion h
  · exact Except.noConfusion h
  · simp only [processCmpOp_eq2, bind_ok_iff, Except.ok.injEq] at h
    obtain ⟨s₁, h1, s₂, h2, f, hf, h4⟩ := h
    subst h4
    calc s.recur_depth
        ≤ s₁.recur_depth := hm p0 (by simp) (containsLoop_of_mem hx (by simp)) s i s₁ h1
      _ ≤ s₂.recur_depth := hm p1 (by simp) (containsLoop_of_mem hx (by simp)) s₁ i s₂ h2
      _ ≤ _ := le_of_eq rfl
  · exact Except.noConfusion h

theorem processBitOp_recur_mono (i : ℕ) (fname : String) (params : List Expression)
    (hm : ∀ p ∈ params, RecurMonoE p) (hx : containsLoopList params = false)
    (s s' : Compiler) (h : Compiler.processBitOp s i fname params = .ok s') :
    s.recur_depth ≤ s'.recur_depth := by
  rcases params with _ | ⟨p0, _ | ⟨p1, _ | ⟨p2, rest⟩⟩⟩
  · exact Except.noConfusion h
  · exact Except.noConfusion h
  · simp only [processBitOp_eq2, bind_ok_iff, Except.ok.injEq] at h
    obtain ⟨s₁, h1, s₃, h3, f, hf, h4⟩ := h
    subst h4
    calc s.recur_depth
        ≤ s₁.recur_depth := hm p0 (by simp) (containsLoop_of_mem hx (by simp)) s i s₁ h1
      _ ≤ s₃.recur_depth := hm p1 (by simp) (containsLoop_of_mem hx (by simp))
          (s₁.emitAt i [.I64_TRUNC_S_F64]) i s₃ h3
      _ ≤ _ := le_of_eq rfl
  · exact Except.noConfusion h

theorem processArithOp_recur_mono (i : ℕ) (fname : String) (params : List Expression)
    (hm : ∀ p ∈ params, RecurMonoE p) (hx : containsLoopList params = false)
    (s s' : Compiler) (h : Compiler.processArithOp s i fname params = .ok s') :
    s.recur_depth ≤ s'.recur_depth := by
  rcases params with _ | ⟨p0, _ | ⟨p1, rest⟩⟩
  · exact Except.noConfusion h
  · exact Except.noConfusion h
  · simp only [processArithOp_eq, bind_ok_iff] at h
    obtain ⟨s₁, h1, h2⟩ := h
    calc s.recur_depth
        ≤ s₁.recur_depth := hm p0 (by simp) (containsLoop_of_mem hx (by simp)) s i s₁ h1
      _ = (if fname = "%" then s₁.emitAt i [.I64_TRUNC_S_F64] else s₁).recur_depth := by
          by_cases hp : fname = "%" <;> simp [hp, emitAt_recur_depth]
      _ ≤ s'.recur_depth :=
          processArithRest_recur_mono i fname (p1 :: rest)
            (fun q hq => hm q (List.mem_cons_of_mem p0 hq))
            (containsLoopList_tail hx) _ s' h2

theorem processNotOp_recur_mono (i : ℕ) (params : List Expression)
    (hm : ∀ p ∈ params, RecurMonoE p) (hx : containsLoopList params = false)
    (s s' : Compiler) (h : Compiler.processNotOp s i params = .ok s') :
    s.recur_depth ≤ s'.recur_depth := by
  rcases params with _ | ⟨p0, _ | ⟨p1, rest⟩⟩
  · exact Except.noConfusion h
  · simp only [processNotOp_eq1, bind_ok_iff, Except.ok.injEq] at h
    obtain ⟨s₁, h1, h4⟩ := h
    subst h4
    exact le_trans (hm p0 (by simp) (containsLoop_of_mem hx (by simp)) s i s₁ h1)
      (le_of_eq rfl)
  · exact Except.noConfusion h

theorem processComplementOp_recur_mono (i : ℕ) (params : List Expression)
    (hm : ∀ p ∈ params, RecurMonoE p) (hx : containsLoopList params = false)
    (s s' : Compiler) (h : Compiler.processComplementOp s i params = .ok s') :
    s.recur_depth ≤ s'.recur_depth := by
  rcases params with _ | ⟨p0, _ | ⟨p1, rest⟩⟩
  · exact Except.noConfusion h
  · simp only [processComplementOp_eq1, bind_ok_iff, Except.ok.injEq] at h
    obtain ⟨s₁, h1, h4⟩ := h
    subst h4
    exact le_trans (hm p0 (by simp) (containsLoop_of_mem hx (by simp)) s i s₁ h1)
      (le_of_eq rfl)
  · exact Except.noConfusion h

theorem processAndOp_recur_mono (i : ℕ) (params : List Expression)
    (hm : ∀ p ∈ params, RecurMonoE p) (hx : containsLoopList params = false)
    (s s' : Compiler) (h : Compiler.processAndOp s i params = .ok s') :
    s.recur_depth ≤ s'.recur_depth := by
  rcases params with _ | ⟨p0, _ | ⟨p1, _ | ⟨p2, rest⟩⟩⟩
  · exact Except.noConfusion h
  · exact Except.noConfusion h
  · simp only [processAndOp_eq2, bind_ok_iff, Except.ok.injEq] at h
    obtain ⟨s₁, h1, s₃, h3, h4⟩ := h
    subst h4
    calc s.recur_depth
        ≤ s₁.recur_depth := hm p0 (by simp) (containsLoop_of_mem hx (by simp)) s i s₁ h1
      _ ≤ s₃.recur_depth := hm p1 (by simp) (containsLoop_of_mem hx (by simp))
          (s₁.emitAt i [.I64_TRUNC_S_F64, .I64_CONST 0, .I64_NE]) i s₃ h3
      _ ≤ _ := le_of_eq rfl
  · exact Except.noConfusion h

theorem processOrOp_recur_mono (i : ℕ) (params : List Expression)
    (hm : ∀ p ∈ params, RecurMonoE p) (hx : containsLoopList params = false)
    (s s' : Compiler) (h : Compiler.processOrOp s i params = .ok s') :
    s.recur_depth ≤ s'.recur_depth := by
  rcases params with _ | ⟨p0, _ | ⟨p1, _ | ⟨p2, rest⟩⟩⟩
  · exact Except.noConfusion h
  · exact Except.noConfusion h
  · simp only [processOrOp_eq2, bind_ok_iff, Except.ok.injEq] at h
    obtain ⟨s₁, h1, s₃, h3, h4⟩ := h
    subst h4
    calc s.recur_depth
        ≤ s₁.recur_depth := hm p0 (by simp) (containsLoop_of_mem hx (by simp)) s i s₁ h1
      _ ≤ s₃.recur_depth := hm p1 (by simp) (containsLoop_of_mem hx (by simp))
          (s₁.emitAt i [.I64_TRUNC_S_F64]) i s₃ h3
      _ ≤ _ := le_of_eq rfl
  · exact Except.noConfusion h

theorem processUserCall_recur_mono (i : ℕ) (fh : ℚ) (params : List Expression)
    (hm : ∀ p ∈ params, RecurMonoE p) (hx : containsLoopList params = false)
    (s s' : Compiler) (h : Compiler.processUserCall s i fh params = .ok s') :
    s.recur_depth ≤ s'.recur_depth := by
  rw [processUserCall_loop_eq] at h
  simp only [bind_ok_iff, Except.ok.injEq] at h
  obtain ⟨s₁, h1, h4⟩ := h
  subst h4
  exact le_trans (processPlainList_recur_mono i params hm hx s s₁ h1) (le_of_eq rfl)

theorem recur_mono_sized : ∀ (n : ℕ) (e : Expression), sizeOf e < n → RecurMonoE e := by
  intro n
  induction n with
  | zero => intro e he; exact absurd he (Nat.not_lt_zero _)
  | succ n ih =>
      intro e he hcl s i s' h
      cases e with
      | SymbolLiteral x =>
          rw [process_symbol_eq] at h
          cases h
          exact le_of_eq ((get_symbol_value_state s x).1.symm)
      | FnSig inputs output =>
          rw [process_fnsig_eq] at h
          cases h
          exact le_refl _
      | Loop xs => exact Bool.noConfusion hcl
      | Recur =>
          rw [process_recur_eq] at h
          cases h
          exact le_refl _
      | IfStatement cond tbr fbr =>
          have hmc : RecurMonoE cond := ih cond (by
            simp only [Expression.IfStatement.sizeOf_spec] at he
            omega)
          have hmt : ∀ p ∈ tbr, RecurMonoE p := fun p hp => ih p (by
            have hlt := List.sizeOf_lt_of_mem hp
            simp only [Expression.IfStatement.sizeOf_spec] at he
            omega)
          cases fbr with
          | some fb =>
              have h' : (containsLoop cond || containsLoopList tbr ||
                  containsLoopList fb) = false := hcl
              rw [Bool.or_eq_false_iff, Bool.or_eq_false_iff] at h'
              have hmf : ∀ p ∈ fb, RecurMonoE p := fun p hp => ih p (by
                have hlt := List.sizeOf_lt_of_mem hp
                simp only [Expression.IfStatement.sizeOf_spec,
                  Option.some.sizeOf_spec] at he
                omega)
              rw [process_if_some_eq] at h
              simp only [bind_ok_iff, Except.ok.injEq] at h
              obtain ⟨s₁, h1, s₄, h4, s₆, h6, hfin⟩ := h
              subst hfin
              calc s.recur_depth
                  ≤ s.recur_depth + 1 := Nat.le_succ _
                _ ≤ s₁.recur_depth :=
                    hmc h'.1.1 { s with recur_depth := s.recur_depth + 1 } i s₁ h1
                _ ≤ s₄.recur_depth :=
                    processSeq_recur_mono i tbr hmt h'.1.2
                      ((s₁.emitAt i [.F64_CONST 0, .F64_EQ, .I32_CONST 0,
                        .I32_EQ]).emitAt i [.IF .F64]) s₄ h4
                _ ≤ s₆.recur_depth :=
                    processSeq_recur_mono i fb hmf h'.2 (s₄.emitAt i [.ELSE]) s₆ h6
                _ ≤ _ := le_of_eq rfl
          | none =>
              have h' : (containsLoop cond || containsLoopList tbr || false) = false := hcl
              rw [Bool.or_eq_false_iff, Bool.or_eq_false_iff] at h'
              rw [process_if_none_eq] at h
              simp only [bind_ok_iff, Except.ok.injEq] at h
              obtain ⟨s₁, h1, s₄, h4, hfin⟩ := h
              subst hfin
              calc s.recur_depth
                  ≤ s.recur_depth + 1 := Nat.le_succ _
                _ ≤ s₁.recur_depth :=
                    hmc h'.1.1 { s with recur_depth := s.recur_depth + 1 } i s₁ h1
                _ ≤ s₄.recur_depth :=
                    processSeq_recur_mono i tbr hmt h'.1.2
                      ((s₁.emitAt i [.F64_CONST 0, .F64_EQ, .I32_CONST 0,
                        .I32_EQ]).emitAt i [.IF .F64]) s₄ h4
                _ ≤ _ := le_of_eq rfl
      | Assignment id v =>
          cases hv : s.process_expression i v with
          | error m =>
              rw [process_assignment_eq, hv] at h
              exact Except.noConfusion h
          | ok s₁ =>
              have hs1 : s.recur_depth ≤ s₁.recur_depth :=
                ih v (by
                  simp only [Expression.Assignment.sizeOf_spec] at he
                  omega) hcl s i s₁ hv
              rw [process_assignment_eq, hv] at h
              simp only [Except.bind] at h
              split at h
              · exact Except.noConfusion h
              · rename_i p heq
                rw [Except.ok.injEq] at h
                subst h
                refine le_trans hs1 (le_of_eq ?_)
                rcases p with _ | ⟨w, k⟩
                · rfl
                · show s₁.recur_depth =
                    ((if k = IdentifierType.Local
                      then (asU32 w, s₁.addLocalAt i DataType.F64)
                      else ((s₁.addLocalAt i DataType.F64).local_names.length,
                        { s₁.addLocalAt i DataType.F64 with
                          local_names :=
                            (s₁.addLocalAt i DataType.F64).local_names ++
                              [id] })).2.emitAt i _).recur_depth
                  by_cases hk : k = IdentifierType.Local
                  · rw [if_pos hk]
                    exact rfl
                  · rw [if_neg hk]
                    exact rfl
      | FunctionCall fname params =>
          have hx : containsLoopList params = false := hcl
          have hm : ∀ p ∈ params, RecurMonoE p := fun p hp => ih p (by
            have hlt := List.sizeOf_lt_of_mem hp
            simp only [Expression.FunctionCall.sizeOf_spec] at he
            omega)
          rw [process_functionCall_eq] at h
          by_cases hb1 : fname = "assert"
          · rw [if_pos hb1] at h
            exact processAssert_recur_mono i params hm hx s s' h
          · rw [if_neg hb1] at h
            by_cases hb2 : fname = "call"
            · rw [if_pos hb2] at h
              exact processCallSig_recur_mono i params hm hx s s' h
            · rw [if_neg hb2] at h
              by_cases hb3 : fname = "mem_byte"
              · rw [if_pos hb3] at h
                exact processMemByte_recur_mono i params hm hx s s' h
              · rw [if_neg hb3] at h
                by_cases hb4 : fname = "mem_heap_start"
                · rw [if_pos hb4] at h
                  rcases params with _ | ⟨q, qs⟩
                  · cases h
                    exact le_refl _
                  · exact Except.noConfusion h
                · rw [if_neg hb4] at h
                  by_cases hb5 : fname = "mem_heap_end"
                  · rw [if_pos hb5] at h
                    exact processMemHeapEnd_recur_mono i params hm hx s s' h
                  · rw [if_neg hb5] at h
                    by_cases hb6 : fname = "mem"
                    · rw [if_pos hb6] at h
                      exact processMem_recur_mono i params hm hx s s' h
                    · rw [if_neg hb6] at h
                      by_cases hb7 : fname = "==" ∨ fname = "!=" ∨ fname = "<=" ∨ fname = ">=" ∨ fname = "<" ∨ fname = ">"
                      · rw [if_pos hb7] at h
                        exact processCmpOp_recur_mono i fname params hm hx s s' h
                      · rw [if_neg hb7] at h
                        by_cases hb8 : fname = "&" ∨ fname = "|" ∨ fname = "^" ∨ fname = "<<" ∨ fname = ">>"
                        · rw [if_pos hb8] at h
                          exact processBitOp_recur_mono i fname params hm hx s s' h
                        · rw [if_neg hb8] at h
                          by_cases hb9 : fname = "+" ∨ fname = "-" ∨ fname = "*" ∨ fname = "/" ∨ fname = "%"
                          · rw [if_pos hb9] at h
                            exact processArithOp_recur_mono i fname params hm hx s s' h
                          · rw [if_neg hb9] at h
                            by_cases hb10 : fname = "!"
                            · rw [if_pos hb10] at h
                              exact processNotOp_recur_mono i params hm hx s s' h
                            · rw [if_neg hb10] at h
                              by_cases hb11 : fname = "~"
                              · rw [if_pos hb11] at h
                                exact processComplementOp_recur_mono i params hm hx s s' h
                              · rw [if_neg hb11] at h
                                by_cases hb12 : fname = "and"
                                · rw [if_pos hb12] at h
                                  exact processAndOp_recur_mono i params hm hx s s' h
                                · rw [if_neg hb12] at h
                                  by_cases hb13 : fname = "or"
                                  · rw [if_pos hb13] at h
                                    exact processOrOp_recur_mono i params hm hx s s' h
                                  · rw [if_neg hb13] at h
                                    cases hres : s.resolve_identifier fname with
                                    | error e =>
                                        rw [hres] at h
                                        exact Except.noConfusion h
                                    | ok r =>
                                        rw [hres] at h
                                        cases r with
                                        | none => exact Except.noConfusion h
                                        | some fh =>
                                            exact processUserCall_recur_mono i fh.1 params hm hx s s' h
      | TextLiteral x =>
          rw [process_text_eq] at h
          cases h
          exact le_refl _
      | Identifier x =>
          rw [process_identifier_eq] at h
          split at h
          · exact Except.noConfusion h
          · exact Except.noConfusion h
          · split at h
            all_goals (cases h; exact le_refl _)
      | Number x =>
          rw [process_number_eq] at h
          cases h
          exact le_refl _

theorem recur_mono (e : Expression) : RecurMonoE e :=
  recur_mono_sized (sizeOf e + 1) e (Nat.lt_succ_self _)

/-- C8: the recur-depth discipline of the lowerer.  (1) `Recur` pushes the
constant 0.0 and branches to the current `recur_depth`.  (2) A (nonempty)
`Loop` body is lowered from a state whose `recur_depth` has been reset to
0.  (3, 4) An `IfStatement` lowers its condition — and everything after
it — from a state whose `recur_depth` has been incremented by 1, whether
or not an else branch is present.  (5) No arm other than `Loop` ever
decreases the counter: across the lowering of any `Loop`-free expression
`recur_depth` is monotone. -/
theorem C8_recur_depth_discipline :
    (∀ (s : Compiler) (i : ℕ),
      s.process_expression i .Recur =
        .ok (s.emitAt i [.F64_CONST 0, .BR s.recur_depth])) ∧
    (∀ (s : Compiler) (i : ℕ) (e : Expression) (rest : List Expression),
      s.process_expression i (.Loop (e :: rest)) = (do
        let s₁ ← (({ s with recur_depth := 0 }).emitAt i [.LOOP .F64]).processSeq i
          (e :: rest)
        .ok (s₁.emitAt i [.END]))) ∧
    (∀ (s : Compiler) (i : ℕ) (cond : Expression) (tbr fb : List Expression),
      s.process_expression i (.IfStatement cond tbr (some fb)) = (do
        let s₁ ← ({ s with recur_depth := s.recur_depth + 1 }).process_expression i cond
        let s₂ : Compiler := s₁.emitAt i [.F64_CONST 0, .F64_EQ, .I32_CONST 0, .I32_EQ]
        let s₃ : Compiler := s₂.emitAt i [.IF .F64]
        let s₄ ← s₃.processSeq i tbr
        let s₅ : Compiler := s₄.emitAt i [.ELSE]
        let s₆ ← s₅.processSeq i fb
        .ok (s₆.emitAt i [.END]))) ∧
    (∀ (s : Compiler) (i : ℕ) (cond : Expression) (tbr : List Expression),
      s.process_expression i (.IfStatement cond tbr none) = (do
        let s₁ ← ({ s with recur_depth := s.recur_depth + 1 }).process_expression i cond
        let s₂ : Compiler := s₁.emitAt i [.F64_CONST 0, .F64_EQ, .I32_CONST 0, .I32_EQ]
        let s₃ : Compiler := s₂.emitAt i [.IF .F64]
        let s₄ ← s₃.processSeq i tbr
        let s₅ : Compiler := s₄.emitAt i [.ELSE]
        .ok ((s₅.emitAt i [.F64_CONST 0]).emitAt i [.END]))) ∧
    (∀ (e : Expression) (s : Compiler) (i : ℕ) (s' : Compiler),
      containsLoop e = false → s.process_expression i e = .ok s' →
        s.recur_depth ≤ s'.recur_depth) :=
  ⟨process_recur_eq, process_loop_cons_eq, process_if_some_eq, process_if_none_eq,
    fun e s i s' hcl h => recur_mono e hcl s i s' h⟩

/-- Witness for `C8_recur_depth_discipline`: the monotonicity conjunct
applied to the concrete loop-free expression `1` at a concrete state. -/
theorem C8_recur_depth_discipline_witness :
    containsLoop (.Number 1) = false ∧
    (Compiler.new ⟨[]⟩).recur_depth ≤
      ((Compiler.new ⟨[]⟩).emitAt 0 [.F64_CONST 1]).recur_depth :=
  ⟨rfl, C8_recur_depth_discipline.2.2.2.2 (.Number 1) (Compiler.new ⟨[]⟩) 0
    ((Compiler.new ⟨[]⟩).emitAt 0 [.F64_CONST 1]) rfl rfl⟩

/-! ## Certifying the `create_global_data` inlining in `get_global_value` -/

/-- The inlined `Struct` row evaluation agrees with the generic
`create_global_data` byte-gathering loop run on
`members.map Symbol ++ [Number 0]`, the list the source builds. -/
theorem structArm_eq_globalDataBytes (s : Compiler) (members : List String) :
    s.globalDataBytes (members.map GlobalValue.Symbol ++ [.Number 0]) =
      .ok ((s.symbolRowBytes members).1 ++
        (s.symbolRowBytes members).2.float_to_bytes 0,
        (s.symbolRowBytes members).2) := by
  induction members generalizing s with
  | nil =>
      simp [Compiler.globalDataBytes, Compiler.symbolRowBytes,
        Compiler.get_global_value, bind, Except.bind]
  | cons m rest ih =>
      simp only [List.map_cons, List.cons_append, Compiler.globalDataBytes,
        Compiler.get_global_value, bind, Except.bind]
      simp only [List.append_eq]
      rw [ih]
      simp [Compiler.symbolRowBytes, List.append_assoc]

/-- The `Data` arm of `get_global_value` is exactly the
`create_global_data` wrapper. -/
theorem create_global_data_eq (s : Compiler) (t : List GlobalValue) :
    s.get_global_value (.Data t) = s.create_global_data t := rfl

/-- The `Struct` arm of `get_global_value` is `create_global_data` run on
`members.map Symbol ++ [Number 0]`, as in the source. -/
theorem structArm_eq (s : Compiler) (members : List String) :
    s.get_global_value (.Struct members) =
      s.create_global_data (members.map GlobalValue.Symbol ++ [.Number 0]) := by
  have h1 : s.get_global_value (.Struct members) =
      .ok ((s.symbolRowBytes members).2.create_data
        ((s.symbolRowBytes members).1 ++
          (s.symbolRowBytes members).2.float_to_bytes 0)) := rfl
  rw [h1]
  simp only [Compiler.create_global_data, structArm_eq_globalDataBytes, bind,
    Except.bind]

/-! ## State evolution across the lowering (groundwork for C3 and C4) -/

mutual

/-- All names assigned (`Assignment` targets) anywhere in an expression;
during a successful lowering every subterm is traversed, and these are
exactly the names that can be appended to `local_names`. -/
def assignedIds : Expression → List String
  | .Assignment id v => id :: assignedIds v
  | .IfStatement c t f =>
      assignedIds c ++ assignedIdsList t ++
        (match f with
        | some l => assignedIdsList l
        | none => [])
  | .FunctionCall _ ps => assignedIdsList ps
  | .Loop b => assignedIdsList b
  | .SymbolLiteral _ => []
  | .FnSig _ _ => []
  | .Recur => []
  | .TextLiteral _ => []
  | .Identifier _ => []
  | .Number _ => []

/-- `assignedIds` over a list of expressions. -/
def assignedIdsList : List Expression → List String
  | [] => []
  | e :: rest => assignedIds e ++ assignedIdsList rest

end

/-- The state facts preserved by one lowering step: the resolution
environments other than the locals are unchanged, the body-builder count
is unchanged, the type table only grows, and the set of local names grows
by exactly the assigned names `A`. -/
def SFB (A : List String) (s s' : Compiler) : Prop :=
  s'.function_names = s.function_names ∧
  s'.global_names = s.global_names ∧
  s'.global_values = s.global_values ∧
  s'.function_implementations.length = s.function_implementations.length ∧
  s.wasm.types <+: s'.wasm.types ∧
  ∀ x, x ∈ s'.local_names ↔ (x ∈ s.local_names ∨ x ∈ A)

theorem SFB_comp {A B : List String} {s s₁ s₂ : Compiler}
    (h1 : SFB A s s₁) (h2 : SFB B s₁ s₂) : SFB (A ++ B) s s₂ := by
  obtain ⟨f1, g1, v1, i1, t1, l1⟩ := h1
  obtain ⟨f2, g2, v2, i2, t2, l2⟩ := h2
  refine ⟨f2.trans f1, g2.trans g1, v2.trans v1, i2.trans i1, t1.trans t2, ?_⟩
  intro x
  rw [l2 x, l1 x, List.mem_append]
  tauto

theorem SFB_perm {A A' : List String} {s s' : Compiler}
    (hA : ∀ x, x ∈ A ↔ x ∈ A') (h : SFB A s s') : SFB A' s s' := by
  obtain ⟨f1, g1, v1, i1, t1, l1⟩ := h
  exact ⟨f1, g1, v1, i1, t1, fun x => by rw [l1 x, hA x]⟩

theorem SFB_perm2 {A A' : List String} {s s' : Compiler}
    (h : SFB A s s') (hA : ∀ x, x ∈ A ↔ x ∈ A') : SFB A' s s' :=
  SFB_perm hA h

theorem SFB_nil_refl (s : Compiler) : SFB [] s s :=
  ⟨rfl, rfl, rfl, rfl, List.prefix_refl _, fun x => by simp⟩

theorem SFB_emitAt (s : Compiler) (i : ℕ) (l : List Instr) :
    SFB [] s (s.emitAt i l) :=
  ⟨rfl, rfl, rfl, by simp [Compiler.emitAt, updateAt_length],
    List.prefix_refl _, fun x => by simp [Compiler.emitAt]⟩

theorem SFB_addLocalAt (s : Compiler) (i : ℕ) (t : DataType) :
    SFB [] s (s.addLocalAt i t) :=
  ⟨rfl, rfl, rfl, by simp [Compiler.addLocalAt, updateAt_length],
    List.prefix_refl _, fun x => by simp [Compiler.addLocalAt]⟩

theorem SFB_get_symbol_value (s : Compiler) (t : String) :
    SFB [] s (s.get_symbol_value t).2 := by
  cases h : position (fun x => x == t) s.symbols <;>
    exact ⟨by simp [Compiler.get_symbol_value, h], by simp [Compiler.get_symbol_value, h],
      by simp [Compiler.get_symbol_value, h], by simp [Compiler.get_symbol_value, h],
      by simp [Compiler.get_symbol_value, h],
      fun x => by simp [Compiler.get_symbol_value, h]⟩

theorem SFB_text_data (s : Compiler) (x : List ℕ) :
    SFB [] s (s.get_or_create_text_data x).2 :=
  ⟨rfl, rfl, rfl, rfl, List.prefix_refl _, fun y => by
    simp [Compiler.get_or_create_text_data, Compiler.create_data]⟩

theorem SFB_addType (s : Compiler) (ft : FunctionType) :
    SFB [] s { s with wasm := (s.wasm.add_type ft).2 } :=
  ⟨rfl, rfl, rfl, rfl, by simp [WasmApp.add_type], fun x => by simp⟩

theorem SFB_trans_nil_left {A : List String} {s s₁ s₂ : Compiler}
    (h1 : SFB [] s s₁) (h2 : SFB A s₁ s₂) : SFB A s s₂ :=
  SFB_comp h1 h2

theorem SFB_trans_nil_right {A : List String} {s s₁ s₂ : Compiler}
    (h1 : SFB A s s₁) (h2 : SFB [] s₁ s₂) : SFB A s s₂ :=
  SFB_perm (fun x => by simp) (SFB_comp h1 h2)

/-- A `Local` resolution means the name is among the local names. -/
theorem resolve_local_mem {s : Compiler} {id : String} {w : ℚ}
    (h : s.resolve_identifier id = .ok (some (w, .Local))) :
    id ∈ s.local_names := by
  unfold Compiler.resolve_identifier resolveCore at h
  by_cases h1 : id = "nil"
  · rw [if_pos h1] at h
    simp at h
  · rw [if_neg h1] at h
    by_cases h2 : id = "size_num"
    · rw [if_pos h2] at h
      simp at h
    · rw [if_neg h2] at h
      cases hp : position (fun r => r == id) s.local_names.reverse with
      | some p =>
          have hne : ¬ (id ∉ s.local_names.reverse) := by
            intro hmem
            rw [← position_beq_eq_none_iff s.local_names.reverse id] at hmem
            rw [hmem] at hp
            cases hp
          rw [List.mem_reverse] at hne
          exact not_not.mp hne
      | none =>
          cases hf : position (fun r => r == id) s.function_names with
          | some p => simp [hp, hf] at h
          | none =>
              cases hg : position (fun r => r == id) s.global_names with
              | some p =>
                  cases hv : s.global_values[p]? with
                  | some v => simp [hp, hf, hg, hv] at h
                  | none => simp [hp, hf, hg, hv] at h
              | none => simp [hp, hf, hg] at h

theorem assignedIdsList_cons (e : Expression) (rest : List Expression) :
    assignedIdsList (e :: rest) = assignedIds e ++ assignedIdsList rest := rfl

/-- The state-facts form carried by the sized induction below. -/
abbrev SFE (e : Expression) : Prop :=
  ∀ (s : Compiler) (i : ℕ) (s' : Compiler),
    s.process_expression i e = .ok s' → SFB (assignedIds e) s s'

theorem SFB_absorb {A : List String} {id : String} {s s' : Compiler}
    (h : SFB A s s') (hid : id ∈ s'.local_names) : SFB (id :: A) s s' := by
  obtain ⟨f1, g1, v1, i1, t1, l1⟩ := h
  refine ⟨f1, g1, v1, i1, t1, fun x => ?_⟩
  rw [List.mem_cons]
  constructor
  · intro hx
    rcases (l1 x).1 hx with hx | hx
    · exact Or.inl hx
    · exact Or.inr (Or.inr hx)
  · rintro (hx | hx | hx)
    · exact (l1 x).2 (Or.inl hx)
    · exact hx ▸ hid
    · exact (l1 x).2 (Or.inr hx)

theorem SFB_append_name (s : Compiler) (id : String) :
    SFB [id] s { s with local_names := s.local_names ++ [id] } :=
  ⟨rfl, rfl, rfl, rfl, List.prefix_refl _, fun x => by simp⟩

theorem processSeq_SFB (i : ℕ) (xs : List Expression)
    (hm : ∀ p ∈ xs, SFE p) :
    ∀ s s' : Compiler, s.processSeq i xs = .ok s' →
      SFB (assignedIdsList xs) s s' := by
  induction xs with
  | nil =>
      intro s s' h
      rw [processSeq_nil] at h
      cases h
      exact SFB_nil_refl s
  | cons e rest ih =>
      cases rest with
      | nil =>
          intro s s' h
          rw [processSeq_single] at h
          exact SFB_perm (fun x => by simp [assignedIdsList])
            (hm e (List.mem_cons_self e []) s i s' h)
      | cons f rest' =>
          intro s s' h
          rw [processSeq_cons₂, bind_ok_iff] at h
          obtain ⟨s₁, h1, h2⟩ := h
          exact SFB_comp (hm e (List.mem_cons_self e _) s i s₁ h1)
            (SFB_trans_nil_left (SFB_emitAt s₁ i [.DROP])
              (ih (fun p hp => hm p (List.mem_cons_of_mem e hp)) _ _ h2))

theorem processPlainList_SFB (i : ℕ) (xs : List Expression)
    (hm : ∀ p ∈ xs, SFE p) :
    ∀ s s' : Compiler, s.processPlainList i xs = .ok s' →
      SFB (assignedIdsList xs) s s' := by
  induction xs with
  | nil =>
      intro s s' h
      rw [processPlainList_nil] at h
      cases h
      exact SFB_nil_refl s
  | cons e rest ih =>
      intro s s' h
      rw [processPlainList_cons, bind_ok_iff] at h
      obtain ⟨s₁, h1, h2⟩ := h
      exact SFB_comp (hm e (List.mem_cons_self e rest) s i s₁ h1)
        (ih (fun p hp => hm p (List.mem_cons_of_mem e hp)) s₁ s' h2)

theorem processArithRest_SFB (i : ℕ) (fname : String) (xs : List Expression)
    (hm : ∀ p ∈ xs, SFE p) :
    ∀ s s' : Compiler, s.processArithRest i fname xs = .ok s' →
      SFB (assignedIdsList xs) s s' := by
  induction xs with
  | nil =>
      intro s s' h
      rw [processArithRest_nil] at h
      cases h
      exact SFB_nil_refl s
  | cons p rest ih =>
      intro s s' h
      rw [processArithRest_cons, bind_ok_iff] at h
      obtain ⟨s₁, h1, h2⟩ := h
      cases hf : arithOpInstr fname with
      | error m =>
          rw [hf] at h2
          simp only [bind, Except.bind] at h2
          exact Except.noConfusion h2
      | ok f =>
          rw [hf] at h2
          simp only [bind, Except.bind] at h2
          refine SFB_comp (hm p (List.mem_cons_self p rest) s i s₁ h1)
            (SFB_trans_nil_left ?_
              (ih (fun q hq => hm q (List.mem_cons_of_mem p hq)) _ _ h2))
          by_cases hr : fname = "%"
          · rw [if_pos hr]
            exact SFB_trans_nil_left (SFB_emitAt s₁ i [.I64_TRUNC_S_F64])
              (SFB_emitAt _ i f)
          · rw [if_neg hr]
            exact SFB_emitAt s₁ i f

theorem mem_assignedIdsList {x : String} (e : Expression) (rest : List Expression) :
    x ∈ assignedIdsList (e :: rest) ↔ x ∈ assignedIds e ∨ x ∈ assignedIdsList rest := by
  rw [assignedIdsList_cons, List.mem_append]

theorem processAssert_SFB (i : ℕ) (params : List Expression)
    (hm : ∀ p ∈ params, SFE p)
    (s s' : Compiler) (h : Compiler.processAssert s i params = .ok s') :
    SFB (assignedIdsList params) s s' := by
  rcases params with _ | ⟨p0, _ | ⟨p1, _ | ⟨p2, _ | ⟨p3, rest⟩⟩⟩⟩
  · exact Except.noConfusion h
  · exact Except.noConfusion h
  · exact Except.noConfusion h
  · simp only [processAssert_eq3, bind_ok_iff, Except.ok.injEq] at h
    obtain ⟨s₁, h1, s₂, h2, s₇, h3, h4⟩ := h
    subst h4
    exact SFB_perm (fun x => by simp [assignedIds, assignedIdsList] <;> tauto)
      (SFB_comp (hm p0 (by simp) s i s₁ h1)
        (SFB_comp (hm p1 (by simp) s₁ i s₂ h2)
          (SFB_trans_nil_left (SFB_emitAt s₂ i [.F64_EQ])
            (SFB_trans_nil_left (SFB_emitAt _ i [.IF .F64])
              (SFB_trans_nil_left (SFB_emitAt _ i [.F64_CONST 0])
                (SFB_trans_nil_left (SFB_emitAt _ i [.ELSE])
                  (SFB_trans_nil_right (hm p2 (by simp) _ i s₇ h3)
                    (SFB_emitAt s₇ i _))))))))
  · exact Except.noConfusion h

theorem processCallSig_SFB (i : ℕ) (params : List Expression)
    (hm : ∀ p ∈ params, SFE p)
    (s s' : Compiler) (h : Compiler.processCallSig s i params = .ok s') :
    SFB (assignedIdsList params) s s' := by
  rcases params with _ | ⟨sigE, _ | ⟨idxE, rest⟩⟩
  · exact Except.noConfusion h
  · exact Except.noConfusion h
  · cases sigE
    case FnSig inputs output =>
      simp only [processCallSig_eq, bind_ok_iff, Except.ok.injEq, reduceIte] at h
      obtain ⟨s₁, h1, s₂, h2, h4⟩ := h
      by_cases ho : output = none
      · rw [if_pos ho] at h4
        subst h4
        exact SFB_perm (fun x => by simp [assignedIds, assignedIdsList] <;> tauto)
          (SFB_comp
            (processPlainList_SFB i rest (fun p hp => hm p (by simp [hp])) s s₁ h1)
            (SFB_comp (hm idxE (by simp) s₁ i s₂ h2)
              (SFB_trans_nil_left (SFB_emitAt s₂ i [.I32_TRUNC_S_F64])
                (SFB_trans_nil_left (SFB_addType _ ⟨inputs, output⟩)
                  (SFB_trans_nil_left
                    (SFB_emitAt _ i [.CALL_INDIRECT ((s₂.emitAt i
                      [.I32_TRUNC_S_F64]).wasm.add_type ⟨inputs, output⟩).1 0])
                    (SFB_emitAt _ i [.F64_CONST 0]))))))
      · rw [if_neg ho] at h4
        subst h4
        exact SFB_perm (fun x => by simp [assignedIds, assignedIdsList] <;> tauto)
          (SFB_comp
            (processPlainList_SFB i rest (fun p hp => hm p (by simp [hp])) s s₁ h1)
            (SFB_comp (hm idxE (by simp) s₁ i s₂ h2)
              (SFB_trans_nil_left (SFB_emitAt s₂ i [.I32_TRUNC_S_F64])
                (SFB_trans_nil_left (SFB_addType _ ⟨inputs, output⟩)
                  (SFB_emitAt _ i [.CALL_INDIRECT ((s₂.emitAt i
                    [.I32_TRUNC_S_F64]).wasm.add_type ⟨inputs, output⟩).1 0])))))
    all_goals exact Except.noConfusion h

theorem processMemByte_SFB (i : ℕ) (params : List Expression)
    (hm : ∀ p ∈ params, SFE p)
    (s s' : Compiler) (h : Compiler.processMemByte s i params = .ok s') :
    SFB (assignedIdsList params) s s' := by
  rcases params with _ | ⟨p0, _ | ⟨p1, _ | ⟨p2, rest⟩⟩⟩
  · exact Except.noConfusion h
  · simp only [processMemByte_eq1, bind_ok_iff, Except.ok.injEq] at h
    obtain ⟨s₁, h1, h4⟩ := h
    subst h4
    exact SFB_perm (fun x => by simp [assignedIds, assignedIdsList] <;> tauto)
      (SFB_trans_nil_right (hm p0 (by simp) s i s₁ h1)
        (SFB_trans_nil_left (SFB_emitAt s₁ i _) (SFB_emitAt _ i _)))
  · simp only [processMemByte_eq2, bind_ok_iff, Except.ok.injEq] at h
    obtain ⟨s₁, h1, s₃, h3, h4⟩ := h
    subst h4
    exact SFB_perm (fun x => by simp [assignedIds, assignedIdsList] <;> tauto)
      (SFB_comp (hm p0 (by simp) s i s₁ h1)
        (SFB_trans_nil_left (SFB_emitAt s₁ i [.I32_TRUNC_S_F64])
          (SFB_trans_nil_right (hm p1 (by simp) _ i s₃ h3)
            (SFB_trans_nil_left (SFB_emitAt s₃ i _)
              (SFB_trans_nil_left (SFB_emitAt _ i _) (SFB_emitAt _ i _))))))
  · exact Except.noConfusion h

theorem processMemHeapEnd_SFB (i : ℕ) (params : List Expression)
    (hm : ∀ p ∈ params, SFE p)
    (s s' : Compiler) (h : Compiler.processMemHeapEnd s i params = .ok s') :
    SFB (assignedIdsList params) s s' := by
  rcases params with _ | ⟨p0, _ | ⟨p1, rest⟩⟩
  · simp only [processMemHeapEnd_eq0, Except.ok.injEq] at h
    subst h
    exact SFB_perm (fun x => by simp [assignedIdsList]) (SFB_emitAt s i _)
  · simp only [processMemHeapEnd_eq1, bind_ok_iff, Except.ok.injEq] at h
    obtain ⟨s₁, h1, h4⟩ := h
    subst h4
    exact SFB_perm (fun x => by simp [assignedIds, assignedIdsList] <;> tauto)
      (SFB_trans_nil_right (hm p0 (by simp) s i s₁ h1)
        (SFB_trans_nil_left (SFB_emitAt s₁ i _) (SFB_emitAt _ i _)))
  · exact Except.noConfusion h

theorem processMem_SFB (i : ℕ) (params : List Expression)
    (hm : ∀ p ∈ params, SFE p)
    (s s' : Compiler) (h : Compiler.processMem s i params = .ok s') :
    SFB (assignedIdsList params) s s' := by
  rcases params with _ | ⟨p0, _ | ⟨p1, _ | ⟨p2, rest⟩⟩⟩
  · exact Except.noConfusion h
  · simp only [processMem_eq1, bind_ok_iff, Except.ok.injEq] at h
    obtain ⟨s₁, h1, h4⟩ := h
    subst h4
    exact SFB_perm (fun x => by simp [assignedIds, assignedIdsList] <;> tauto)
      (SFB_trans_nil_right (hm p0 (by simp) s i s₁ h1) (SFB_emitAt s₁ i _))
  · simp only [processMem_eq2, bind_ok_iff, Except.ok.injEq] at h
    obtain ⟨s₁, h1, s₃, h3, h4⟩ := h
    subst h4
    exact SFB_perm (fun x => by simp [assignedIds, assignedIdsList] <;> tauto)
      (SFB_comp (hm p0 (by simp) s i s₁ h1)
        (SFB_trans_nil_left (SFB_emitAt s₁ i [.I32_TRUNC_S_F64])
          (SFB_trans_nil_right (hm p1 (by simp) _ i s₃ h3)
            (SFB_trans_nil_left (SFB_emitAt s₃ i _) (SFB_emitAt _ i _)))))
  · exact Except.noConfusion h

theorem processCmpOp_SFB (i : ℕ) (fname : String) (params : List Expression)
    (hm : ∀ p ∈ params, SFE p)
    (s s' : Compiler) (h : Compiler.processCmpOp s i fname params = .ok s') :
    SFB (assignedIdsList params) s s' := by
  rcases params with _ | ⟨p0, _ | ⟨p1, _ | ⟨p2, rest⟩⟩⟩
  · exact Except.noConfusion h
  · exact Except.noConfusion h
  · simp only [processCmpOp_eq2, bind_ok_iff, Except.ok.injEq] at h
    obtain ⟨s₁, h1, s₂, h2, f, hf, h4⟩ := h
    subst h4
    exact SFB_perm (fun x => by simp [assignedIds, assignedIdsList] <;> tauto)
      (SFB_comp (hm p0 (by simp) s i s₁ h1)
        (SFB_trans_nil_right (hm p1 (by simp) s₁ i s₂ h2) (SFB_emitAt s₂ i _)))
  · exact Except.noConfusion h

theorem processBitOp_SFB (i : ℕ) (fname : String) (params : List Expression)
    (hm : ∀ p ∈ params, SFE p)
    (s s' : Compiler) (h : Compiler.processBitOp s i fname params = .ok s') :
    SFB (assignedIdsList params) s s' := by
  rcases params with _ | ⟨p0, _ | ⟨p1, _ | ⟨p2, rest⟩⟩⟩
  · exact Except.noConfusion h
  · exact Except.noConfusion h
  · simp only [processBitOp_eq2, bind_ok_iff, Except.ok.injEq] at h
    obtain ⟨s₁, h1, s₃, h3, f, hf, h4⟩ := h
    subst h4
    exact SFB_perm (fun x => by simp [assignedIds, assignedIdsList] <;> tauto)
      (SFB_comp (hm p0 (by simp) s i s₁ h1)
        (SFB_trans_nil_left (SFB_emitAt s₁ i [.I64_TRUNC_S_F64])
          (SFB_trans_nil_right (hm p1 (by simp) _ i s₃ h3)
            (SFB_trans_nil_left (SFB_emitAt s₃ i _) (SFB_emitAt _ i _)))))
  · exact Except.noConfusion h

theorem processArithOp_SFB (i : ℕ) (fname : String) (params : List Expression)
    (hm : ∀ p ∈ params, SFE p)
    (s s' : Compiler) (h : Compiler.processArithOp s i fname params = .ok s') :
    SFB (assignedIdsList params) s s' := by
  rcases params with _ | ⟨p0, _ | ⟨p1, rest⟩⟩
  · exact Except.noConfusion h
  · exact Except.noConfusion h
  · simp only [processArithOp_eq, bind_ok_iff] at h
    obtain ⟨s₁, h1, h2⟩ := h
    have hmid : SFB ([] : List String) s₁
        (if fname = "%" then s₁.emitAt i [.I64_TRUNC_S_F64] else s₁) := by
      by_cases hr : fname = "%"
      · rw [if_pos hr]
        exact SFB_emitAt s₁ i _
      · rw [if_neg hr]
        exact SFB_nil_refl s₁
    exact SFB_perm (fun x => by simp [assignedIds, assignedIdsList] <;> tauto)
      (SFB_comp (hm p0 (by simp) s i s₁ h1)
        (SFB_trans_nil_left hmid
          (processArithRest_SFB i fname (p1 :: rest)
            (fun q hq => hm q (List.mem_cons_of_mem p0 hq)) _ s' h2)))

theorem processNotOp_SFB (i : ℕ) (params : List Expression)
    (hm : ∀ p ∈ params, SFE p)
    (s s' : Compiler) (h : Compiler.processNotOp s i params = .ok s') :
    SFB (assignedIdsList params) s s' := by
  rcases params with _ | ⟨p0, _ | ⟨p1, rest⟩⟩
  · exact Except.noConfusion h
  · simp only [processNotOp_eq1, bind_ok_iff, Except.ok.injEq] at h
    obtain ⟨s₁, h1, h4⟩ := h
    subst h4
    exact SFB_perm (fun x => by simp [assignedIds, assignedIdsList] <;> tauto)
      (SFB_trans_nil_right (hm p0 (by simp) s i s₁ h1) (SFB_emitAt s₁ i _))
  · exact Except.noConfusion h

theorem processComplementOp_SFB (i : ℕ) (params : List Expression)
    (hm : ∀ p ∈ params, SFE p)
    (s s' : Compiler) (h : Compiler.processComplementOp s i params = .ok s') :
    SFB (assignedIdsList params) s s' := by
  rcases params with _ | ⟨p0, _ | ⟨p1, rest⟩⟩
  · exact Except.noConfusion h
  · simp only [processComplementOp_eq1, bind_ok_iff, Except.ok.injEq] at h
    obtain ⟨s₁, h1, h4⟩ := h
    subst h4
    exact SFB_perm (fun x => by simp [assignedIds, assignedIdsList] <;> tauto)
      (SFB_trans_nil_right (hm p0 (by simp) s i s₁ h1) (SFB_emitAt s₁ i _))
  · exact Except.noConfusion h

theorem processAndOp_SFB (i : ℕ) (params : List Expression)
    (hm : ∀ p ∈ params, SFE p)
    (s s' : Compiler) (h : Compiler.processAndOp s i params = .ok s') :
    SFB (assignedIdsList params) s s' := by
  rcases params with _ | ⟨p0, _ | ⟨p1, _ | ⟨p2, rest⟩⟩⟩
  · exact Except.noConfusion h
  · exact Except.noConfusion h
  · simp only [processAndOp_eq2, bind_ok_iff, Except.ok.injEq] at h
    obtain ⟨s₁, h1, s₃, h3, h4⟩ := h
    subst h4
    exact SFB_perm (fun x => by simp [assignedIds, assignedIdsList] <;> tauto)
      (SFB_comp (hm p0 (by simp) s i s₁ h1)
        (SFB_trans_nil_left (SFB_emitAt s₁ i _)
          (SFB_trans_nil_right (hm p1 (by simp) _ i s₃ h3) (SFB_emitAt s₃ i _))))
  · exact Except.noConfusion h

theorem processOrOp_SFB (i : ℕ) (params : List Expression)
    (hm : ∀ p ∈ params, SFE p)
    (s s' : Compiler) (h : Compiler.processOrOp s i params = .ok s') :
    SFB (assignedIdsList params) s s' := by
  rcases params with _ | ⟨p0, _ | ⟨p1, _ | ⟨p2, rest⟩⟩⟩
  · exact Except.noConfusion h
  · exact Except.noConfusion h
  · simp only [processOrOp_eq2, bind_ok_iff, Except.ok.injEq] at h
    obtain ⟨s₁, h1, s₃, h3, h4⟩ := h
    subst h4
    exact SFB_perm (fun x => by simp [assignedIds, assignedIdsList] <;> tauto)
      (SFB_comp (hm p0 (by simp) s i s₁ h1)
        (SFB_trans_nil_left (SFB_emitAt s₁ i _)
          (SFB_trans_nil_right (hm p1 (by simp) _ i s₃ h3) (SFB_emitAt s₃ i _))))
  · exact Except.noConfusion h

theorem processUserCall_SFB (i : ℕ) (fh : ℚ) (params : List Expression)
    (hm : ∀ p ∈ params, SFE p)
    (s s' : Compiler) (h : Compiler.processUserCall s i fh params = .ok s') :
    SFB (assignedIdsList params) s s' := by
  rw [processUserCall_loop_eq] at h
  simp only [bind_ok_iff, Except.ok.injEq] at h
  obtain ⟨s₁, h1, h4⟩ := h
  subst h4
  exact SFB_trans_nil_right (processPlainList_SFB i params hm s s₁ h1)
    (SFB_emitAt s₁ i _)

/-- State facts for the `Assignment` arm: a fresh local is declared and
the name is appended exactly when it was not already a local; either way
the set of local names afterwards is the old set plus the assigned
name. -/
theorem process_assignment_SFB (s s₁ : Compiler) (i : ℕ) (id : String)
    (v : Expression) (hv : s.process_expression i v = .ok s₁)
    (hSv : SFB (assignedIds v) s s₁) (s' : Compiler)
    (h : s.process_expression i (.Assignment id v) = .ok s') :
    SFB (id :: assignedIds v) s s' := by
  rw [process_assignment_eq, hv] at h
  simp only [Except.bind] at h
  split at h
  · exact Except.noConfusion h
  · rename_i p heq
    rw [Except.ok.injEq] at h
    subst h
    rcases p with _ | ⟨w, k⟩
    · exact SFB_perm (fun x => by simp <;> tauto)
        (SFB_comp hSv (SFB_trans_nil_left (SFB_addLocalAt s₁ i .F64)
          (SFB_trans_nil_right (SFB_append_name _ id) (SFB_emitAt _ i _))))
    · cases k with
      | Local =>
          have hfb : SFB (assignedIds v) s
              ((s₁.addLocalAt i DataType.F64).emitAt i
                [.LOCAL_SET ((asU32 w : ℕ) : ℤ), .LOCAL_GET ((asU32 w : ℕ) : ℤ)]) :=
            SFB_trans_nil_right (SFB_trans_nil_right hSv (SFB_addLocalAt s₁ i .F64))
              (SFB_emitAt _ i _)
          have hid : id ∈ ((s₁.addLocalAt i DataType.F64).emitAt i
              [.LOCAL_SET ((asU32 w : ℕ) : ℤ), .LOCAL_GET ((asU32 w : ℕ) : ℤ)]).local_names :=
            resolve_local_mem heq
          exact SFB_absorb hfb hid
      | Global =>
          exact SFB_perm (fun x => by simp <;> tauto)
            (SFB_comp hSv (SFB_trans_nil_left (SFB_addLocalAt s₁ i .F64)
              (SFB_trans_nil_right (SFB_append_name _ id) (SFB_emitAt _ i _))))
      | Function =>
          exact SFB_perm (fun x => by simp <;> tauto)
            (SFB_comp hSv (SFB_trans_nil_left (SFB_addLocalAt s₁ i .F64)
              (SFB_trans_nil_right (SFB_append_name _ id) (SFB_emitAt _ i _))))

theorem SFE_sized : ∀ (n : ℕ) (e : Expression), sizeOf e < n → SFE e := by
  intro n
  induction n with
  | zero => intro e he; exact absurd he (Nat.not_lt_zero _)
  | succ n ih =>
      intro e he s i s' h
      cases e with
      | SymbolLiteral x =>
          rw [process_symbol_eq] at h
          cases h
          exact SFB_trans_nil_left (SFB_get_symbol_value s x) (SFB_emitAt _ i _)
      | FnSig inputs output =>
          rw [process_fnsig_eq] at h
          cases h
          exact SFB_trans_nil_left (SFB_addType s ⟨inputs, output⟩) (SFB_emitAt _ i _)
      | Loop xs =>
          cases xs with
          | nil => exact Except.noConfusion h
          | cons e0 rest =>
              rw [process_loop_cons_eq] at h
              simp only [bind_ok_iff, Except.ok.injEq] at h
              obtain ⟨s₁, h1, h2⟩ := h
              subst h2
              have hm : ∀ p ∈ e0 :: rest, SFE p := fun p hp => ih p (by
                have hlt := List.sizeOf_lt_of_mem hp
                simp only [Expression.Loop.sizeOf_spec] at he
                omega)
              exact SFB_trans_nil_left
                (show SFB [] s { s with recur_depth := 0 } from
                  ⟨rfl, rfl, rfl, rfl, List.prefix_refl _, fun x => by simp⟩)
                (SFB_trans_nil_left (SFB_emitAt _ i [.LOOP .F64])
                  (SFB_trans_nil_right (processSeq_SFB i (e0 :: rest) hm _ s₁ h1)
                    (SFB_emitAt s₁ i [.END])))
      | Recur =>
          rw [process_recur_eq] at h
          cases h
          exact SFB_emitAt s i _
      | IfStatement cond tbr fbr =>
          have hmc : ∀ s0 i0 s0', s0.process_expression i0 cond = .ok s0' →
              SFB (assignedIds cond) s0 s0' := ih cond (by
            simp only [Expression.IfStatement.sizeOf_spec] at he
            omega)
          have hmt : ∀ p ∈ tbr, SFE p := fun p hp => ih p (by
            have hlt := List.sizeOf_lt_of_mem hp
            simp only [Expression.IfStatement.sizeOf_spec] at he
            omega)
          cases fbr with
          | some fb =>
              have hmf : ∀ p ∈ fb, SFE p := fun p hp => ih p (by
                have hlt := List.sizeOf_lt_of_mem hp
                simp only [Expression.IfStatement.sizeOf_spec,
                  Option.some.sizeOf_spec] at he
                omega)
              rw [process_if_some_eq] at h
              simp only [bind_ok_iff, Except.ok.injEq] at h
              obtain ⟨s₁, h1, s₄, h4, s₆, h6, hfin⟩ := h
              subst hfin
              exact SFB_perm (fun x => by simp [assignedIds, assignedIdsList] <;> tauto)
                (SFB_trans_nil_left
                  (show SFB [] s { s with recur_depth := s.recur_depth + 1 } from
                    ⟨rfl, rfl, rfl, rfl, List.prefix_refl _, fun x => by simp⟩)
                  (SFB_comp (hmc _ i s₁ h1)
                    (SFB_trans_nil_left (SFB_emitAt s₁ i _)
                      (SFB_trans_nil_left (SFB_emitAt _ i [.IF .F64])
                        (SFB_comp (processSeq_SFB i tbr hmt _ s₄ h4)
                          (SFB_trans_nil_left (SFB_emitAt s₄ i [.ELSE])
                            (SFB_trans_nil_right (processSeq_SFB i fb hmf _ s₆ h6)
                              (SFB_emitAt s₆ i [.END]))))))))
          | none =>
              rw [process_if_none_eq] at h
              simp only [bind_ok_iff, Except.ok.injEq] at h
              obtain ⟨s₁, h1, s₄, h4, hfin⟩ := h
              subst hfin
              exact SFB_perm (fun x => by simp [assignedIds, assignedIdsList] <;> tauto)
                (SFB_trans_nil_left
                  (show SFB [] s { s with recur_depth := s.recur_depth + 1 } from
                    ⟨rfl, rfl, rfl, rfl, List.prefix_refl _, fun x => by simp⟩)
                  (SFB_comp (hmc _ i s₁ h1)
                    (SFB_trans_nil_left (SFB_emitAt s₁ i _)
                      (SFB_trans_nil_left (SFB_emitAt _ i [.IF .F64])
                        (SFB_trans_nil_right (processSeq_SFB i tbr hmt _ s₄ h4)
                          (SFB_trans_nil_left (SFB_emitAt s₄ i [.ELSE])
                            (SFB_trans_nil_left (SFB_emitAt _ i [.F64_CONST 0])
                              (SFB_emitAt _ i [.END]))))))))
      | Assignment id v =>
          cases hv : s.process_expression i v with
          | error m =>
              rw [process_assignment_eq, hv] at h
              exact Except.noConfusion h
          | ok s₁ =>
              exact process_assignment_SFB s s₁ i id v hv
                (ih v (by simp only [Expression.Assignment.sizeOf_spec] at he; omega)
                  s i s₁ hv) s' h
      | FunctionCall fname params =>
          have hm : ∀ p ∈ params, SFE p := fun p hp => ih p (by
            have hlt := List.sizeOf_lt_of_mem hp
            simp only [Expression.FunctionCall.sizeOf_spec] at he
            omega)
          rw [process_functionCall_eq] at h
          by_cases hb1 : fname = "assert"
          · rw [if_pos hb1] at h
            exact processAssert_SFB i params hm s s' h
          · rw [if_neg hb1] at h
            by_cases hb2 : fname = "call"
            · rw [if_pos hb2] at h
              exact processCallSig_SFB i params hm s s' h
            · rw [if_neg hb2] at h
              by_cases hb3 : fname = "mem_byte"
              · rw [if_pos hb3] at h
                exact processMemByte_SFB i params hm s s' h
              · rw [if_neg hb3] at h
                by_cases hb4 : fname = "mem_heap_start"
                · rw [if_pos hb4] at h
                  rcases params with _ | ⟨q, qs⟩
                  · cases h
                    exact SFB_emitAt s i _
                  · exact Except.noConfusion h
                · rw [if_neg hb4] at h
                  by_cases hb5 : fname = "mem_heap_end"
                  · rw [if_pos hb5] at h
                    exact processMemHeapEnd_SFB i params hm s s' h
                  · rw [if_neg hb5] at h
                    by_cases hb6 : fname = "mem"
                    · rw [if_pos hb6] at h
                      exact processMem_SFB i params hm s s' h
                    · rw [if_neg hb6] at h
                      by_cases hb7 : fname = "==" ∨ fname = "!=" ∨ fname = "<=" ∨
                          fname = ">=" ∨ fname = "<" ∨ fname = ">"
                      · rw [if_pos hb7] at h
                        exact processCmpOp_SFB i fname params hm s s' h
                      · rw [if_neg hb7] at h
                        by_cases hb8 : fname = "&" ∨ fname = "|" ∨ fname = "^" ∨
                            fname = "<<" ∨ fname = ">>"
                        · rw [if_pos hb8] at h
                          exact processBitOp_SFB i fname params hm s s' h
                        · rw [if_neg hb8] at h
                          by_cases hb9 : fname = "+" ∨ fname = "-" ∨ fname = "*" ∨
                              fname = "/" ∨ fname = "%"
                          · rw [if_pos hb9] at h
                            exact processArithOp_SFB i fname params hm s s' h
                          · rw [if_neg hb9] at h
                            by_cases hb10 : fname = "!"
                            · rw [if_pos hb10] at h
                              exact processNotOp_SFB i params hm s s' h
                            · rw [if_neg hb10] at h
                              by_cases hb11 : fname = "~"
                              · rw [if_pos hb11] at h
                                exact processComplementOp_SFB i params hm s s' h
                              · rw [if_neg hb11] at h
                                by_cases hb12 : fname = "and"
                                · rw [if_pos hb12] at h
                                  exact processAndOp_SFB i params hm s s' h
                                · rw [if_neg hb12] at h
                                  by_cases hb13 : fname = "or"
                                  · rw [if_pos hb13] at h
                                    exact processOrOp_SFB i params hm s s' h
                                  · rw [if_neg hb13] at h
                                    cases hres : s.resolve_identifier fname with
                                    | error e =>
                                        rw [hres] at h
                                        exact Except.noConfusion h
                                    | ok r =>
                                        rw [hres] at h
                                        cases r with
                                        | none => exact Except.noConfusion h
                                        | some fh =>
                                            exact processUserCall_SFB i fh.1 params
                                              hm s s' h
      | TextLiteral x =>
          rw [process_text_eq] at h
          cases h
          exact SFB_trans_nil_left (SFB_text_data s x) (SFB_emitAt _ i _)
      | Identifier x =>
          rw [process_identifier_eq] at h
          split at h
          · exact Except.noConfusion h
          · exact Except.noConfusion h
          · split at h
            all_goals (cases h; exact SFB_emitAt s i _)
      | Number x =>
          rw [process_number_eq] at h
          cases h
          exact SFB_emitAt s i _

theorem SFE_all (e : Expression) : SFE e :=
  SFE_sized (sizeOf e + 1) e (Nat.lt_succ_self _)

/-! ## Claim C4: a typed stack checker for the emitted code -/

/-- VM value types occurring in emitted code (`F32` is never emitted). -/
inductive VT where
  | i32
  | i64
  | f64
deriving DecidableEq

/-- Wasm value type of a `DataType` immediate. -/
def toVT : DataType → VT
  | .I32 => .i32
  | .I64 => .i64
  | .F32 => .f64
  | .F64 => .f64

/-- Module-level context for checking: the input arity of each function
index (every module function — import or defined — takes that many f64
arguments and returns one f64, see `Compiler.initCompiler` and
`Compiler.pre_process_functions`), and the type section. -/
structure CheckCtx where
  funcArity : List ℕ
  typeTab : List FunctionType

/-- One validation frame: the result types expected at `END`, the current
operand stack (bottom first), whether the remaining code in the frame is
dead (after a `BR`), and whether the whole frame was opened inside dead
code (then its `ELSE` arm is dead too). -/
structure CFrame where
  result : List VT
  stack : List VT
  dead : Bool
  bornDead : Bool
deriving DecidableEq

/-- Pop/push typing of the straight-line instructions (`none` for the
control instructions, which `step` handles structurally).  Pops are
listed bottom-first, so the stack must end with them.  `LOCAL_GET` /
`LOCAL_SET` use f64 because every local the compiler declares is f64
(`with_inputs (params.map fun _ => F64)`, `addLocalAt i .F64`);
`GLOBAL_GET` / `GLOBAL_SET` use i32 because the only globals are the two
i32 heap pointers (`set_heap_start`). -/
def stepTy (ctx : CheckCtx) : Instr → Option (List VT × List VT)
  | .F64_CONST _ => some ([], [.f64])
  | .I32_CONST _ => some ([], [.i32])
  | .I64_CONST _ => some ([], [.i64])
  | .F64_EQ | .F64_NE | .F64_LT | .F64_GT | .F64_LE | .F64_GE =>
      some ([.f64, .f64], [.i32])
  | .I32_EQ | .I32_AND => some ([.i32, .i32], [.i32])
  | .F64_ADD | .F64_SUB | .F64_MUL | .F64_DIV => some ([.f64, .f64], [.f64])
  | .I64_AND | .I64_OR | .I64_XOR | .I64_SHL | .I64_SHR_S | .I64_REM_S =>
      some ([.i64, .i64], [.i64])
  | .I64_NE => some ([.i64, .i64], [.i32])
  | .F64_CONVERT_S_I32 => some ([.i32], [.f64])
  | .F64_CONVERT_S_I64 => some ([.i64], [.f64])
  | .I32_TRUNC_S_F64 => some ([.f64], [.i32])
  | .I64_TRUNC_S_F64 => some ([.f64], [.i64])
  | .I32_LOAD8_U _ _ => some ([.i32], [.i32])
  | .I32_STORE8 _ _ => some ([.i32, .i32], [])
  | .F64_LOAD _ _ => some ([.i32], [.f64])
  | .F64_STORE _ _ => some ([.i32, .f64], [])
  | .GLOBAL_GET _ => some ([], [.i32])
  | .GLOBAL_SET _ => some ([.i32], [])
  | .LOCAL_GET _ => some ([], [.f64])
  | .LOCAL_SET _ => some ([.f64], [])
  | .CALL z =>
      match ctx.funcArity[z.toNat]? with
      | some a => some (List.replicate a .f64, [.f64])
      | none => none
  | .CALL_INDIRECT t _ =>
      match ctx.typeTab[t]? with
      | some ft => some (ft.inputs.map toVT ++ [.i32], (ft.output.map toVT).toList)
      | none => none
  | .DROP | .LOOP _ | .IF _ | .ELSE | .END | .BR _ => none

/-- One checking step.  Dead code is accepted without effect; `BR` ends
the live code of the current frame (its depth operand's validity is a
separate property, outside this claim, and is not checked here). -/
def step (ctx : CheckCtx) : List CFrame → Instr → Option (List CFrame)
  | [], _ => none
  | fr :: fs, ins =>
    match stepTy ctx ins with
    | some (pops, pushes) =>
        if fr.dead then some (fr :: fs)
        else if pops.isSuffixOf fr.stack then
          let ns := fr.stack.take (fr.stack.length - pops.length) ++ pushes
          some ({ fr with stack := ns } :: fs)
        else none
    | none =>
      match ins with
      | .DROP =>
          if fr.dead then some (fr :: fs)
          else if fr.stack = [] then none
          else some ({ fr with stack := fr.stack.dropLast } :: fs)
      | .LOOP bt => some (⟨[toVT bt], [], fr.dead, fr.dead⟩ :: fr :: fs)
      | .IF bt =>
          if fr.dead then some (⟨[toVT bt], [], true, true⟩ :: fr :: fs)
          else if [VT.i32].isSuffixOf fr.stack then
            some (⟨[toVT bt], [], false, false⟩ ::
              { fr with stack := fr.stack.dropLast } :: fs)
          else none
      | .ELSE =>
          if fr.dead ∨ fr.stack = fr.result then
            some ({ fr with stack := [], dead := fr.bornDead } :: fs)
          else none
      | .END =>
          if fr.dead ∨ fr.stack = fr.result then
            match fs with
            | parent :: fs' =>
                some ((if parent.dead then parent
                  else { parent with stack := parent.stack ++ fr.result }) :: fs')
            | [] => none
          else none
      | .BR _ =>
          if fr.dead then some (fr :: fs)
          else some ({ fr with stack := [], dead := true } :: fs)
      | _ => none

/-- Run the checker over an instruction sequence. -/
def runChk (ctx : CheckCtx) : List CFrame → List Instr → Option (List CFrame)
  | st, [] => some st
  | st, ins :: rest =>
      match step ctx st ins with
      | some st' => runChk ctx st' rest
      | none => none

theorem runChk_append (ctx : CheckCtx) (a b : List Instr) :
    ∀ st, runChk ctx st (a ++ b) =
      match runChk ctx st a with
      | some st' => runChk ctx st' b
      | none => none := by
  induction a with
  | nil => intro st; rfl
  | cons ins rest ih =>
      intro st
      simp only [List.cons_append, runChk]
      cases step ctx st ins with
      | none => rfl
      | some st2 => exact ih st2

/-- The typed effect of an emitted sequence: from any live frame whose
stack ends in `pops`, running the sequence either replaces them by
`pushes`, or a branch fired and the frame's remaining code is dead; from
a dead frame the sequence has no effect.  This is the stack-discipline
statement of the claim, frame- and stack-polymorphic. -/
def Xform (ctx : CheckCtx) (Δ : List Instr) (pops pushes : List VT) : Prop :=
  (∀ (fr : CFrame) (fs : List CFrame) (σ : List VT), fr.dead = false →
    fr.stack = σ ++ pops →
    runChk ctx (fr :: fs) Δ = some ({ fr with stack := σ ++ pushes } :: fs) ∨
    runChk ctx (fr :: fs) Δ = some ({ fr with stack := [], dead := true } :: fs)) ∧
  (∀ (fr : CFrame) (fs : List CFrame), fr.dead = true →
    runChk ctx (fr :: fs) Δ = some (fr :: fs))

/-- `Pushes`: net effect is pushing `ts`. -/
abbrev Pushes (ctx : CheckCtx) (Δ : List Instr) (ts : List VT) : Prop :=
  Xform ctx Δ [] ts

theorem Xform_nil (ctx : CheckCtx) : Xform ctx [] [] [] := by
  constructor
  · intro fr fs σ hd hst
    left
    have hfr : ({ fr with stack := σ ++ [] } : CFrame) = fr := by
      cases fr
      simp_all
    rw [hfr]
    rfl
  · intro fr fs hd
    rfl

theorem Xform_comp {ctx : CheckCtx} {Δ₁ Δ₂ : List Instr} {a b c : List VT}
    (h1 : Xform ctx Δ₁ a b) (h2 : Xform ctx Δ₂ b c) :
    Xform ctx (Δ₁ ++ Δ₂) a c := by
  constructor
  · intro fr fs σ hd hst
    rcases h1.1 fr fs σ hd hst with hrun | hrun
    · have key : runChk ctx (fr :: fs) (Δ₁ ++ Δ₂) =
          runChk ctx ({ fr with stack := σ ++ b } :: fs) Δ₂ := by
        rw [runChk_append, hrun]
      rcases h2.1 { fr with stack := σ ++ b } fs σ hd rfl with hrun2 | hrun2
      · left
        rw [key]
        exact hrun2
      · right
        rw [key]
        exact hrun2
    · right
      have key : runChk ctx (fr :: fs) (Δ₁ ++ Δ₂) =
          runChk ctx ({ fr with stack := [], dead := true } :: fs) Δ₂ := by
        rw [runChk_append, hrun]
      rw [key]
      exact h2.2 _ fs rfl
  · intro fr fs hd
    have key : runChk ctx (fr :: fs) (Δ₁ ++ Δ₂) =
        runChk ctx (fr :: fs) Δ₂ := by
      rw [runChk_append, h1.2 fr fs hd]
    rw [key]
    exact h2.2 fr fs hd

theorem Xform_frame {ctx : CheckCtx} {Δ : List Instr} {a b : List VT}
    (x : List VT) (h : Xform ctx Δ a b) : Xform ctx Δ (x ++ a) (x ++ b) := by
  constructor
  · intro fr fs σ hd hst
    rw [← List.append_assoc] at hst
    rcases h.1 fr fs (σ ++ x) hd hst with hrun | hrun
    · left
      rw [hrun, List.append_assoc]
    · right
      exact hrun
  · exact h.2

theorem step_straight (ctx : CheckCtx) (ins : Instr) (pops pushes : List VT)
    (hty : stepTy ctx ins = some (pops, pushes)) (fr : CFrame) (fs : List CFrame)
    (hd : fr.dead = false) (σ : List VT) (hst : fr.stack = σ ++ pops) :
    step ctx (fr :: fs) ins = some ({ fr with stack := σ ++ pushes } :: fs) := by
  simp only [step, hty]
  rw [if_neg (by simp [hd])]
  rw [if_pos (by rw [hst, List.isSuffixOf_iff_suffix]; exact List.suffix_append σ pops)]
  simp only [Option.some.injEq, List.cons.injEq, and_true]
  rw [hst, List.length_append, Nat.add_sub_cancel, List.take_left]

theorem step_dead (ctx : CheckCtx) (ins : Instr) (pops pushes : List VT)
    (hty : stepTy ctx ins = some (pops, pushes)) (fr : CFrame) (fs : List CFrame)
    (hd : fr.dead = true) : step ctx (fr :: fs) ins = some (fr :: fs) := by
  simp only [step, hty]
  rw [if_pos hd]

theorem Xform_straight {ctx : CheckCtx} {ins : Instr} {pops pushes : List VT}
    (hty : stepTy ctx ins = some (pops, pushes)) :
    Xform ctx [ins] pops pushes := by
  constructor
  · intro fr fs σ hd hst
    left
    simp only [runChk]
    rw [step_straight ctx ins pops pushes hty fr fs hd σ hst]
  · intro fr fs hd
    simp only [runChk]
    rw [step_dead ctx ins pops pushes hty fr fs hd]

theorem runChk_cons (ctx : CheckCtx) (st : List CFrame) (ins : Instr)
    (rest : List Instr) (st' : List CFrame) (h : step ctx st ins = some st') :
    runChk ctx st (ins :: rest) = runChk ctx st' rest := by
  simp only [runChk, h]

theorem runChk_append_ok (ctx : CheckCtx) (a b : List Instr) (st st' : List CFrame)
    (h : runChk ctx st a = some st') :
    runChk ctx st (a ++ b) = runChk ctx st' b := by
  rw [runChk_append, h]

theorem Pushes_live {ctx : CheckCtx} {Δ : List Instr} {ts : List VT}
    (h : Pushes ctx Δ ts) (fr : CFrame) (fs : List CFrame) (hd : fr.dead = false) :
    runChk ctx (fr :: fs) Δ = some ({ fr with stack := fr.stack ++ ts } :: fs) ∨
    runChk ctx (fr :: fs) Δ = some ({ fr with stack := [], dead := true } :: fs) :=
  h.1 fr fs fr.stack hd (by simp)

theorem Pushes_intro {ctx : CheckCtx} {Δ : List Instr} {ts : List VT}
    (hlive : ∀ (fr : CFrame) (fs : List CFrame), fr.dead = false →
      runChk ctx (fr :: fs) Δ = some ({ fr with stack := fr.stack ++ ts } :: fs) ∨
      runChk ctx (fr :: fs) Δ = some ({ fr with stack := [], dead := true } :: fs))
    (hdead : ∀ (fr : CFrame) (fs : List CFrame), fr.dead = true →
      runChk ctx (fr :: fs) Δ = some (fr :: fs)) : Pushes ctx Δ ts := by
  constructor
  · intro fr fs σ hd hst
    have hσ : σ = fr.stack := by rw [hst]; simp
    rw [hσ]
    exact hlive fr fs hd
  · exact hdead

theorem step_LOOP (ctx : CheckCtx) (fr : CFrame) (fs : List CFrame) (bt : DataType) :
    step ctx (fr :: fs) (.LOOP bt) =
      some (⟨[toVT bt], [], fr.dead, fr.dead⟩ :: fr :: fs) := by
  simp [step, stepTy]

theorem step_IF_live (ctx : CheckCtx) (fr : CFrame) (fs : List CFrame) (bt : DataType)
    (σ : List VT) (hd : fr.dead = false) (hst : fr.stack = σ ++ [.i32]) :
    step ctx (fr :: fs) (.IF bt) =
      some (⟨[toVT bt], [], false, false⟩ :: { fr with stack := σ } :: fs) := by
  simp only [step, stepTy]
  rw [if_neg (by simp [hd])]
  rw [if_pos (by rw [hst, List.isSuffixOf_iff_suffix]; exact List.suffix_append σ _)]
  rw [hst]
  simp

theorem step_IF_dead (ctx : CheckCtx) (fr : CFrame) (fs : List CFrame) (bt : DataType)
    (hd : fr.dead = true) :
    step ctx (fr :: fs) (.IF bt) = some (⟨[toVT bt], [], true, true⟩ :: fr :: fs) := by
  simp only [step, stepTy]
  rw [if_pos hd]

theorem step_ELSE (ctx : CheckCtx) (fr : CFrame) (fs : List CFrame)
    (h : fr.dead = true ∨ fr.stack = fr.result) :
    step ctx (fr :: fs) .ELSE =
      some ({ fr with stack := [], dead := fr.bornDead } :: fs) := by
  simp only [step, stepTy]
  rw [if_pos (by rcases h with h | h; exacts [Or.inl h, Or.inr h])]

theorem step_END (ctx : CheckCtx) (fr parent : CFrame) (fs' : List CFrame)
    (h : fr.dead = true ∨ fr.stack = fr.result) :
    step ctx (fr :: parent :: fs') .END =
      some ((if parent.dead then parent
        else { parent with stack := parent.stack ++ fr.result }) :: fs') := by
  simp only [step, stepTy]
  rw [if_pos (by rcases h with h | h; exacts [Or.inl h, Or.inr h])]

theorem step_BR_live (ctx : CheckCtx) (fr : CFrame) (fs : List CFrame) (n : ℕ)
    (hd : fr.dead = false) :
    step ctx (fr :: fs) (.BR n) =
      some ({ fr with stack := [], dead := true } :: fs) := by
  simp only [step, stepTy]
  rw [if_neg (by simp [hd])]

theorem step_BR_dead (ctx : CheckCtx) (fr : CFrame) (fs : List CFrame) (n : ℕ)
    (hd : fr.dead = true) : step ctx (fr :: fs) (.BR n) = some (fr :: fs) := by
  simp only [step, stepTy]
  rw [if_pos hd]

theorem step_DROP_live (ctx : CheckCtx) (fr : CFrame) (fs : List CFrame)
    (σ : List VT) (t : VT) (hd : fr.dead = false) (hst : fr.stack = σ ++ [t]) :
    step ctx (fr :: fs) .DROP = some ({ fr with stack := σ } :: fs) := by
  simp only [step, stepTy]
  rw [if_neg (by simp [hd])]
  rw [if_neg (by simp [hst])]
  rw [hst]
  simp

theorem step_DROP_dead (ctx : CheckCtx) (fr : CFrame) (fs : List CFrame)
    (hd : fr.dead = true) : step ctx (fr :: fs) .DROP = some (fr :: fs) := by
  simp only [step, stepTy]
  rw [if_pos hd]

/-- `DROP` removes the top value, of any type. -/
theorem Xform_drop (ctx : CheckCtx) (t : VT) : Xform ctx [.DROP] [t] [] := by
  constructor
  · intro fr fs σ hd hst
    left
    rw [runChk_cons ctx _ _ _ _ (step_DROP_live ctx fr fs σ t hd hst)]
    simp [runChk]
  · intro fr fs hd
    rw [runChk_cons ctx _ _ _ _ (step_DROP_dead ctx fr fs hd)]
    rfl

/-- A branch ends the live code of the frame, so a `BR` admits any typed
effect (the dead-frame disjunct always holds). -/
theorem Xform_br (ctx : CheckCtx) (n : ℕ) (pops pushes : List VT) :
    Xform ctx [.BR n] pops pushes := by
  constructor
  · intro fr fs σ hd hst
    right
    rw [runChk_cons ctx _ _ _ _ (step_BR_live ctx fr fs n hd)]
    rfl
  · intro fr fs hd
    rw [runChk_cons ctx _ _ _ _ (step_BR_dead ctx fr fs n hd)]
    rfl

/-- A `LOOP f64 … END` block around a body that yields one f64 pushes one
f64 (the body's own branches stay inside the block). -/
theorem loop_block {ctx : CheckCtx} {Δbody : List Instr}
    (hb : Pushes ctx Δbody [.f64]) :
    Pushes ctx (.LOOP .F64 :: (Δbody ++ [.END])) [.f64] := by
  apply Pushes_intro
  · intro fr fs hd
    left
    rw [runChk_cons ctx _ _ _ _ (step_LOOP ctx fr fs .F64)]
    have hinner : (⟨[toVT .F64], [], fr.dead, fr.dead⟩ : CFrame) =
        ⟨[.f64], [], false, false⟩ := by rw [hd]; rfl
    rw [hinner]
    rcases Pushes_live hb ⟨[.f64], [], false, false⟩ (fr :: fs) rfl with hr | hr
    · rw [runChk_append_ok ctx _ _ _ _ hr]
      rw [runChk_cons ctx _ _ _ _ (step_END ctx _ fr fs (Or.inr (by simp)))]
      rw [if_neg (by simp [hd])]
      rfl
    · rw [runChk_append_ok ctx _ _ _ _ hr]
      rw [runChk_cons ctx _ _ _ _ (step_END ctx _ fr fs (Or.inl rfl))]
      rw [if_neg (by simp [hd])]
      rfl
  · intro fr fs hd
    rw [runChk_cons ctx _ _ _ _ (step_LOOP ctx fr fs .F64)]
    have hinner : (⟨[toVT .F64], [], fr.dead, fr.dead⟩ : CFrame) =
        ⟨[.f64], [], true, true⟩ := by rw [hd]; rfl
    rw [hinner]
    rw [runChk_append_ok ctx _ _ _ _ (hb.2 ⟨[.f64], [], true, true⟩ (fr :: fs) rfl)]
    rw [runChk_cons ctx _ _ _ _ (step_END ctx _ fr fs (Or.inl rfl))]
    rw [if_pos hd]
    rfl

/-- An `IF f64 … ELSE … END` block around two branch bodies that yield one
f64 each consumes the i32 condition and pushes one f64. -/
theorem if_block {ctx : CheckCtx} {Δt Δf : List Instr}
    (ht : Pushes ctx Δt [.f64]) (hf : Pushes ctx Δf [.f64]) :
    Xform ctx (.IF .F64 :: (Δt ++ .ELSE :: (Δf ++ [.END]))) [.i32] [.f64] := by
  constructor
  · intro fr fs σ hd hst
    left
    rw [runChk_cons ctx _ _ _ _ (step_IF_live ctx fr fs .F64 σ hd hst)]
    rcases Pushes_live ht ⟨[toVT .F64], [], false, false⟩
        ({ fr with stack := σ } :: fs) rfl with hr | hr
    · rw [runChk_append_ok ctx _ _ _ _ hr]
      rw [runChk_cons ctx _ _ _ _ (step_ELSE ctx _ _ (Or.inr (by simp [toVT])))]
      rcases Pushes_live hf ⟨[toVT .F64], [], false, false⟩
          ({ fr with stack := σ } :: fs) rfl with hr2 | hr2
      · rw [runChk_append_ok ctx _ _ _ _ hr2]
        rw [runChk_cons ctx _ _ _ _ (step_END ctx _ _ fs (Or.inr (by simp [toVT])))]
        rw [if_neg (by simp [hd])]
        simp [runChk, toVT]
      · rw [runChk_append_ok ctx _ _ _ _ hr2]
        rw [runChk_cons ctx _ _ _ _ (step_END ctx _ _ fs (Or.inl rfl))]
        rw [if_neg (by simp [hd])]
        simp [runChk, toVT]
    · rw [runChk_append_ok ctx _ _ _ _ hr]
      rw [runChk_cons ctx _ _ _ _ (step_ELSE ctx _ _ (Or.inl rfl))]
      rcases Pushes_live hf ⟨[toVT .F64], [], false, false⟩
          ({ fr with stack := σ } :: fs) rfl with hr2 | hr2
      · rw [runChk_append_ok ctx _ _ _ _ hr2]
        rw [runChk_cons ctx _ _ _ _ (step_END ctx _ _ fs (Or.inr (by simp [toVT])))]
        rw [if_neg (by simp [hd])]
        simp [runChk, toVT]
      · rw [runChk_append_ok ctx _ _ _ _ hr2]
        rw [runChk_cons ctx _ _ _ _ (step_END ctx _ _ fs (Or.inl rfl))]
        rw [if_neg (by simp [hd])]
        simp [runChk, toVT]
  · intro fr fs hd
    rw [runChk_cons ctx _ _ _ _ (step_IF_dead ctx fr fs .F64 hd)]
    rw [runChk_append_ok ctx _ _ _ _ (ht.2 ⟨[toVT .F64], [], true, true⟩ (fr :: fs) rfl)]
    rw [runChk_cons ctx _ _ _ _ (step_ELSE ctx _ _ (Or.inl rfl))]
    rw [runChk_append_ok ctx _ _ _ _ (hf.2 ⟨[toVT .F64], [], true, true⟩ (fr :: fs) rfl)]
    rw [runChk_cons ctx _ _ _ _ (step_END ctx _ _ fs (Or.inl rfl))]
    rw [if_pos hd]
    rfl

/-- Result type of one lowered expression: f64 except the one-argument
`mem_heap_end` setter (i32) and a `call` whose signature declares a
non-f64 output. -/
def tyOf : Expression → VT
  | .FunctionCall fname params =>
      if fname = "call" then
        match params with
        | .FnSig _ (some dt) :: _ => toVT dt
        | _ => .f64
      else if fname = "mem_heap_end" then
        match params with
        | [_] => .i32
        | _ => .f64
      else .f64
  | _ => .f64

/-- The names the dispatch chain of the `FunctionCall` arm treats as
intrinsic clauses (in source order). -/
def isIntrinsic (fname : String) : Bool :=
  fname == "assert" || fname == "call" || fname == "mem_byte" ||
  fname == "mem_heap_start" || fname == "mem_heap_end" || fname == "mem" ||
  fname == "==" || fname == "!=" || fname == "<=" || fname == ">=" ||
  fname == "<" || fname == ">" || fname == "&" || fname == "|" ||
  fname == "^" || fname == "<<" || fname == ">>" || fname == "+" ||
  fname == "-" || fname == "*" || fname == "/" || fname == "%" ||
  fname == "!" || fname == "~" || fname == "and" || fname == "or"

mutual

/-- Well-typed usage: every value position that the emitted code consumes
as an f64 holds an f64-typed expression, conditional branches are
nonempty and end in f64, indirect-call signatures are all-f64 with
matching argument count, and `%` is used with exactly two operands (its
fold emits an ill-typed chain for more). -/
def WT : Expression → Bool
  | .SymbolLiteral _ => true
  | .FnSig _ _ => true
  | .Loop b =>
      WTall b &&
        (match b.getLast? with
        | some l => tyOf l == .f64
        | none => true)
  | .Recur => true
  | .IfStatement c t f =>
      WT c && (tyOf c == .f64) &&
      (WTall t &&
        (match t.getLast? with
        | some l => tyOf l == .f64
        | none => false)) &&
      (match f with
        | some l =>
            WTall l &&
              (match l.getLast? with
              | some x => tyOf x == .f64
              | none => false)
        | none => true)
  | .Assignment _ v => WT v && (tyOf v == .f64)
  | .FunctionCall fname params =>
      (if fname = "call" then
        match params with
        | .FnSig inputs _ :: _ :: rest =>
            inputs.all (fun d => d == DataType.F64) &&
            (inputs.length == rest.length)
        | _ => true
      else if fname = "%" then params.length == 2
      else true) &&
      WTall params && params.all (fun p => tyOf p == VT.f64)
  | .TextLiteral _ => true
  | .Identifier _ => true
  | .Number _ => true

/-- `WT` for every member of a list. -/
def WTall : List Expression → Bool
  | [] => true
  | e :: rest => WT e && WTall rest

end

mutual

/-- The function names reaching the generic-call fallthrough anywhere in
an expression. -/
def callNames : Expression → List String
  | .SymbolLiteral _ => []
  | .FnSig _ _ => []
  | .Loop b => callNamesList b
  | .Recur => []
  | .IfStatement c t f =>
      callNames c ++ callNamesList t ++
        (match f with
        | some l => callNamesList l
        | none => [])
  | .Assignment _ v => callNames v
  | .FunctionCall fname params =>
      (if isIntrinsic fname then [] else [fname]) ++ callNamesList params
  | .TextLiteral _ => []
  | .Identifier _ => []
  | .Number _ => []

/-- `callNames` over a list. -/
def callNamesList : List Expression → List String
  | [] => []
  | e :: rest => callNames e ++ callNamesList rest

end

mutual

/-- Every generic call site names a declared function (not a built-in
constant) whose arity in `ctx` is the argument count passed there. -/
def CallsOk (ctx : CheckCtx) (fns : List String) : Expression → Bool
  | .SymbolLiteral _ => true
  | .FnSig _ _ => true
  | .Loop b => CallsOkList ctx fns b
  | .Recur => true
  | .IfStatement c t f =>
      CallsOk ctx fns c && CallsOkList ctx fns t &&
        (match f with
        | some l => CallsOkList ctx fns l
        | none => true)
  | .Assignment _ v => CallsOk ctx fns v
  | .FunctionCall fname params =>
      (if isIntrinsic fname then true
       else
        (fname != "nil") && (fname != "size_num") &&
        (match position (fun r => r == fname) fns with
          | some k =>
              ctx.funcArity[(asI32 ((k : ℕ) : ℚ)).toNat]? == some params.length
          | none => false)) &&
      CallsOkList ctx fns params
  | .TextLiteral _ => true
  | .Identifier _ => true
  | .Number _ => true

/-- `CallsOk` over a list. -/
def CallsOkList (ctx : CheckCtx) (fns : List String) : List Expression → Bool
  | [] => true
  | e :: rest => CallsOk ctx fns e && CallsOkList ctx fns rest

end

theorem getElem_of_isPref {α : Type} {l₁ l₂ : List α} (h : l₁ <+: l₂) {k : ℕ}
    (hk : k < l₁.length) : l₂[k]? = l₁[k]? := by
  obtain ⟨t, rfl⟩ := h
  rw [List.getElem?_append, if_pos hk]

/-- When a name is none of the two built-ins, is not a local, and occurs
in the function table, resolution finds exactly its first table
position. -/
theorem resolve_function_of {s : Compiler} {fname : String} {k : ℕ}
    (h1 : fname ≠ "nil") (h2 : fname ≠ "size_num")
    (hloc : fname ∉ s.local_names)
    (hfn : position (fun r => r == fname) s.function_names = some k) :
    s.resolve_identifier fname = .ok (some (((k : ℕ) : ℚ), .Function)) := by
  unfold Compiler.resolve_identifier resolveCore
  rw [if_neg h1, if_neg h2]
  rw [(position_beq_eq_none_iff _ _).2 (by rw [List.mem_reverse]; exact hloc)]
  rw [hfn]

theorem implInstrs_congr {s s' : Compiler} (i : ℕ)
    (h : s'.function_implementations = s.function_implementations) :
    s'.implInstrs i = s.implInstrs i := by
  simp [Compiler.implInstrs, h]

theorem get_symbol_value_impls (s : Compiler) (t : String) :
    ((s.get_symbol_value t).2).function_implementations =
      s.function_implementations := by
  cases h : position (fun x => x == t) s.symbols <;>
    simp [Compiler.get_symbol_value, h]

theorem text_data_impls (s : Compiler) (x : List ℕ) :
    ((s.get_or_create_text_data x).2).function_implementations =
      s.function_implementations := rfl

theorem map_toVT_replicate {inputs : List DataType}
    (h : ∀ d ∈ inputs, d = DataType.F64) :
    inputs.map toVT = List.replicate inputs.length VT.f64 := by
  induction inputs with
  | nil => rfl
  | cons d rest ih =>
      rw [List.map_cons, List.length_cons, List.replicate_succ,
        h d (List.mem_cons_self d rest), ih (fun x hx => h x (List.mem_cons_of_mem d hx))]
      rfl

/-- The typed-effect property carried by the sized induction: a successful
lowering appends a sequence whose checked effect is pushing one value of
type `tyOf e`, under the well-typedness and call-arity hypotheses. -/
abbrev TyE (ctx : CheckCtx) (e : Expression) : Prop :=
  ∀ (s : Compiler) (i : ℕ) (s' : Compiler),
    s.process_expression i e = .ok s' →
    WT e = true →
    CallsOk ctx s.function_names e = true →
    (∀ x ∈ callNames e, x ∉ s.local_names) →
    (∀ x ∈ callNames e, x ∉ assignedIds e) →
    i < s.function_implementations.length →
    s'.wasm.types <+: ctx.typeTab →
    ∃ Δ, s'.implInstrs i = s.implInstrs i ++ Δ ∧ Pushes ctx Δ [tyOf e]

theorem WTall_cons {e : Expression} {rest : List Expression} :
    WTall (e :: rest) = (WT e && WTall rest) := rfl

theorem CallsOkList_cons {ctx : CheckCtx} {fns : List String} {e : Expression}
    {rest : List Expression} :
    CallsOkList ctx fns (e :: rest) = (CallsOk ctx fns e && CallsOkList ctx fns rest) := rfl

theorem callNamesList_cons {e : Expression} {rest : List Expression} :
    callNamesList (e :: rest) = callNames e ++ callNamesList rest := rfl

/-- Lowering a plain argument list appends code pushing one f64 per
argument. -/
theorem processPlainList_Ty (ctx : CheckCtx) (i : ℕ) (xs : List Expression)
    (hm : ∀ p ∈ xs, TyE ctx p) :
    ∀ (s s' : Compiler), s.processPlainList i xs = .ok s' →
      WTall xs = true → (xs.all fun p => tyOf p == VT.f64) = true →
      CallsOkList ctx s.function_names xs = true →
      (∀ x ∈ callNamesList xs, x ∉ s.local_names) →
      (∀ x ∈ callNamesList xs, x ∉ assignedIdsList xs) →
      i < s.function_implementations.length →
      s'.wasm.types <+: ctx.typeTab →
      ∃ Δ, s'.implInstrs i = s.implInstrs i ++ Δ ∧
        Pushes ctx Δ (List.replicate xs.length VT.f64) := by
  induction xs with
  | nil =>
      intro s s' h _ _ _ _ _ _ _
      rw [processPlainList_nil] at h
      cases h
      exact ⟨[], by simp, by exact Xform_nil ctx⟩
  | cons p rest ih =>
      intro s s' h hwt hf64 hco hsh hca hi htab
      rw [processPlainList_cons, bind_ok_iff] at h
      obtain ⟨s₁, h1, h2⟩ := h
      have hS1 := SFE_all p s i s₁ h1
      have hSrest := processPlainList_SFB i rest
        (fun q hq => SFE_all q) s₁ s' h2
      rw [WTall_cons, Bool.and_eq_true] at hwt
      rw [CallsOkList_cons, Bool.and_eq_true] at hco
      simp only [List.all_cons, Bool.and_eq_true] at hf64
      obtain ⟨Δ₁, hi1, hp1⟩ := hm p (List.mem_cons_self p rest) s i s₁ h1 hwt.1 hco.1
        (fun x hx => hsh x (by rw [callNamesList_cons]; exact List.mem_append_left _ hx))
        (fun x hx => fun hax =>
          hca x (by rw [callNamesList_cons]; exact List.mem_append_left _ hx)
            (by rw [assignedIdsList_cons]; exact List.mem_append_left _ hax))
        hi (hSrest.2.2.2.2.1.trans htab)
      obtain ⟨Δ₂, hi2, hp2⟩ := ih (fun q hq => hm q (List.mem_cons_of_mem p hq)) s₁ s' h2
        hwt.2 hf64.2 (by rw [hS1.1]; exact hco.2)
        (fun x hx hmem => by
          rcases (hS1.2.2.2.2.2 x).1 hmem with hmem | hmem
          · exact hsh x (by rw [callNamesList_cons]; exact List.mem_append_right _ hx) hmem
          · exact hca x (by rw [callNamesList_cons]; exact List.mem_append_right _ hx)
              (by rw [assignedIdsList_cons]; exact List.mem_append_left _ hmem))
        (fun x hx hmem =>
          hca x (by rw [callNamesList_cons]; exact List.mem_append_right _ hx)
            (by rw [assignedIdsList_cons]; exact List.mem_append_right _ hmem))
        (by rw [hS1.2.2.2.1]; exact hi) htab
      refine ⟨Δ₁ ++ Δ₂, by rw [hi2, hi1, List.append_assoc], ?_⟩
      have hty : tyOf p = VT.f64 := by
        have := hf64.1
        rwa [beq_iff_eq] at this
      rw [List.length_cons, List.replicate_succ,
        show (VT.f64 :: List.replicate rest.length VT.f64) =
          [tyOf p] ++ List.replicate rest.length VT.f64 from by rw [hty]; rfl]
      exact Xform_comp hp1 (Xform_frame [tyOf p] hp2)

/-- Lowering a statement body (`DROP` after every element but the last)
appends code pushing exactly the last element's value. -/
theorem processSeq_Ty (ctx : CheckCtx) (i : ℕ) (xs : List Expression)
    (hm : ∀ p ∈ xs, TyE ctx p) :
    ∀ (s s' : Compiler), s.processSeq i xs = .ok s' →
      WTall xs = true →
      (match xs.getLast? with
        | some l => tyOf l == VT.f64
        | none => false) = true →
      CallsOkList ctx s.function_names xs = true →
      (∀ x ∈ callNamesList xs, x ∉ s.local_names) →
      (∀ x ∈ callNamesList xs, x ∉ assignedIdsList xs) →
      i < s.function_implementations.length →
      s'.wasm.types <+: ctx.typeTab →
      ∃ Δ, s'.implInstrs i = s.implInstrs i ++ Δ ∧ Pushes ctx Δ [VT.f64] := by
  induction xs with
  | nil =>
      intro s s' h _ hlast
      simp at hlast
  | cons p rest ih =>
      cases rest with
      | nil =>
          intro s s' h hwt hlast hco hsh hca hi htab
          rw [processSeq_single] at h
          rw [WTall_cons, Bool.and_eq_true] at hwt
          rw [CallsOkList_cons, Bool.and_eq_true] at hco
          simp only [List.getLast?_singleton] at hlast
          obtain ⟨Δ, hi1, hp⟩ := hm p (List.mem_cons_self p []) s i s' h hwt.1 hco.1
            (fun x hx => hsh x (by rw [callNamesList_cons]; exact List.mem_append_left _ hx))
            (fun x hx hax =>
              hca x (by rw [callNamesList_cons]; exact List.mem_append_left _ hx)
                (by rw [assignedIdsList_cons]; exact List.mem_append_left _ hax))
            hi htab
          refine ⟨Δ, hi1, ?_⟩
          rwa [show tyOf p = VT.f64 from by rwa [beq_iff_eq] at hlast] at hp
      | cons q rest' =>
          intro s s' h hwt hlast hco hsh hca hi htab
          rw [processSeq_cons₂, bind_ok_iff] at h
          obtain ⟨s₁, h1, h2⟩ := h
          have hS1 := SFE_all p s i s₁ h1
          have hSrest := processSeq_SFB i (q :: rest') (fun r hr => SFE_all r)
            (s₁.emitAt i [.DROP]) s' h2
          rw [WTall_cons, Bool.and_eq_true] at hwt
          rw [CallsOkList_cons, Bool.and_eq_true] at hco
          have hi1' : i < s₁.function_implementations.length := by
            rw [hS1.2.2.2.1]; exact hi
          obtain ⟨Δ₁, hie1, hp1⟩ := hm p (List.mem_cons_self p _) s i s₁ h1 hwt.1 hco.1
            (fun x hx => hsh x (by rw [callNamesList_cons]; exact List.mem_append_left _ hx))
            (fun x hx hax =>
              hca x (by rw [callNamesList_cons]; exact List.mem_append_left _ hx)
                (by rw [assignedIdsList_cons]; exact List.mem_append_left _ hax))
            hi (by
              refine List.IsPrefix.trans ?_ htab
              refine List.IsPrefix.trans
                (show s₁.wasm.types <+: (s₁.emitAt i [.DROP]).wasm.types from
                  List.prefix_refl _) hSrest.2.2.2.2.1)
          obtain ⟨Δ₂, hie2, hp2⟩ := ih (fun r hr => hm r (List.mem_cons_of_mem p hr))
            (s₁.emitAt i [.DROP]) s' h2 hwt.2
            (by
              simp only [List.getLast?_cons_cons] at hlast ⊢
              exact hlast)
            (by
              have : (s₁.emitAt i [.DROP]).function_names = s.function_names := by
                rw [show (s₁.emitAt i [.DROP]).function_names = s₁.function_names from rfl,
                  hS1.1]
              rw [this]; exact hco.2)
            (fun x hx hmem => by
              rw [show (s₁.emitAt i [.DROP]).local_names = s₁.local_names from rfl] at hmem
              rcases (hS1.2.2.2.2.2 x).1 hmem with hmem | hmem
              · exact hsh x (by rw [callNamesList_cons]; exact List.mem_append_right _ hx) hmem
              · exact hca x (by rw [callNamesList_cons]; exact List.mem_append_right _ hx)
                  (by rw [assignedIdsList_cons]; exact List.mem_append_left _ hmem))
            (fun x hx hmem =>
              hca x (by rw [callNamesList_cons]; exact List.mem_append_right _ hx)
                (by rw [assignedIdsList_cons]; exact List.mem_append_right _ hmem))
            (by rw [emitAt_length]; exact hi1') htab
          refine ⟨Δ₁ ++ [.DROP] ++ Δ₂, ?_, ?_⟩
          · rw [hie2, emitAt_implInstrs s₁ i [.DROP] hi1', hie1]
            simp [List.append_assoc]
          · exact Xform_comp (Xform_comp hp1 (Xform_drop ctx (tyOf p))) hp2

theorem Xf_f64const (ctx : CheckCtx) (v : ℚ) :
    Xform ctx [.F64_CONST v] [] [.f64] := Xform_straight rfl

theorem Xf_i32const (ctx : CheckCtx) (v : ℤ) :
    Xform ctx [.I32_CONST v] [] [.i32] := Xform_straight rfl

theorem Xf_i64const (ctx : CheckCtx) (v : ℤ) :
    Xform ctx [.I64_CONST v] [] [.i64] := Xform_straight rfl

theorem Xf_f64eq (ctx : CheckCtx) : Xform ctx [.F64_EQ] [.f64, .f64] [.i32] :=
  Xform_straight rfl

theorem Xf_i32eq (ctx : CheckCtx) : Xform ctx [.I32_EQ] [.i32, .i32] [.i32] :=
  Xform_straight rfl

theorem Xf_i32and (ctx : CheckCtx) : Xform ctx [.I32_AND] [.i32, .i32] [.i32] :=
  Xform_straight rfl

theorem Xf_i64ne (ctx : CheckCtx) : Xform ctx [.I64_NE] [.i64, .i64] [.i32] :=
  Xform_straight rfl

theorem Xf_trunc32 (ctx : CheckCtx) : Xform ctx [.I32_TRUNC_S_F64] [.f64] [.i32] :=
  Xform_straight rfl

theorem Xf_trunc64 (ctx : CheckCtx) : Xform ctx [.I64_TRUNC_S_F64] [.f64] [.i64] :=
  Xform_straight rfl

theorem Xf_conv32 (ctx : CheckCtx) : Xform ctx [.F64_CONVERT_S_I32] [.i32] [.f64] :=
  Xform_straight rfl

theorem Xf_conv64 (ctx : CheckCtx) : Xform ctx [.F64_CONVERT_S_I64] [.i64] [.f64] :=
  Xform_straight rfl

theorem Xf_i64xor (ctx : CheckCtx) : Xform ctx [.I64_XOR] [.i64, .i64] [.i64] :=
  Xform_straight rfl

theorem Xf_i64or (ctx : CheckCtx) : Xform ctx [.I64_OR] [.i64, .i64] [.i64] :=
  Xform_straight rfl

theorem Xf_i64and (ctx : CheckCtx) : Xform ctx [.I64_AND] [.i64, .i64] [.i64] :=
  Xform_straight rfl

theorem Xf_i64rem (ctx : CheckCtx) : Xform ctx [.I64_REM_S] [.i64, .i64] [.i64] :=
  Xform_straight rfl

theorem Xf_localget (ctx : CheckCtx) (z : ℤ) :
    Xform ctx [.LOCAL_GET z] [] [.f64] := Xform_straight rfl

theorem Xf_localset (ctx : CheckCtx) (z : ℤ) :
    Xform ctx [.LOCAL_SET z] [.f64] [] := Xform_straight rfl

theorem Xf_globalget (ctx : CheckCtx) (n : ℕ) :
    Xform ctx [.GLOBAL_GET n] [] [.i32] := Xform_straight rfl

theorem Xf_globalset (ctx : CheckCtx) (n : ℕ) :
    Xform ctx [.GLOBAL_SET n] [.i32] [] := Xform_straight rfl

theorem Xf_load8 (ctx : CheckCtx) (a o : ℤ) :
    Xform ctx [.I32_LOAD8_U a o] [.i32] [.i32] := Xform_straight rfl

theorem Xf_store8 (ctx : CheckCtx) (a o : ℤ) :
    Xform ctx [.I32_STORE8 a o] [.i32, .i32] [] := Xform_straight rfl

theorem Xf_f64load (ctx : CheckCtx) (a o : ℤ) :
    Xform ctx [.F64_LOAD a o] [.i32] [.f64] := Xform_straight rfl

theorem Xf_f64store (ctx : CheckCtx) (a o : ℤ) :
    Xform ctx [.F64_STORE a o] [.i32, .f64] [] := Xform_straight rfl

theorem Xf_call (ctx : CheckCtx) (z : ℤ) (a : ℕ)
    (h : ctx.funcArity[z.toNat]? = some a) :
    Xform ctx [.CALL z] (List.replicate a .f64) [.f64] :=
  Xform_straight (by simp [stepTy, h])

theorem Xf_call_indirect (ctx : CheckCtx) (t tb : ℕ) (ft : FunctionType)
    (h : ctx.typeTab[t]? = some ft) :
    Xform ctx [.CALL_INDIRECT t tb] (ft.inputs.map toVT ++ [.i32])
      ((ft.output.map toVT).toList) :=
  Xform_straight (by simp [stepTy, h])

theorem cmpOpInstr_ty (ctx : CheckCtx) (fname : String) (f : List Instr)
    (h : cmpOpInstr fname = .ok f) :
    ∃ op, f = [op] ∧ stepTy ctx op = some ([.f64, .f64], [.i32]) := by
  unfold cmpOpInstr at h
  split_ifs at h
  all_goals first
    | (cases h; exact ⟨_, rfl, rfl⟩)
    | exact Except.noConfusion h

theorem bitOpInstr_ty (ctx : CheckCtx) (fname : String) (f : List Instr)
    (h : bitOpInstr fname = .ok f) :
    ∃ op, f = [op] ∧ stepTy ctx op = some ([.i64, .i64], [.i64]) := by
  unfold bitOpInstr at h
  split_ifs at h
  all_goals first
    | (cases h; exact ⟨_, rfl, rfl⟩)
    | exact Except.noConfusion h

theorem arithOpInstr_ty (ctx : CheckCtx) (fname : String) (f : List Instr)
    (hnm : fname ≠ "%") (h : arithOpInstr fname = .ok f) :
    ∃ op, f = [op] ∧ stepTy ctx op = some ([.f64, .f64], [.f64]) := by
  unfold arithOpInstr at h
  split_ifs at h
  all_goals first
    | exact absurd (by assumption) hnm
    | (cases h; exact ⟨_, rfl, rfl⟩)
    | exact Except.noConfusion h

theorem processArithRest_Ty (ctx : CheckCtx) (i : ℕ) (fname : String)
    (hnm : fname ≠ "%") (xs : List Expression)
    (hm : ∀ p ∈ xs, TyE ctx p) :
    ∀ (s s' : Compiler), s.processArithRest i fname xs = .ok s' →
      WTall xs = true → (xs.all fun p => tyOf p == VT.f64) = true →
      CallsOkList ctx s.function_names xs = true →
      (∀ x ∈ callNamesList xs, x ∉ s.local_names) →
      (∀ x ∈ callNamesList xs, x ∉ assignedIdsList xs) →
      i < s.function_implementations.length →
      s'.wasm.types <+: ctx.typeTab →
      ∃ Δ, s'.implInstrs i = s.implInstrs i ++ Δ ∧ Xform ctx Δ [.f64] [.f64] := by
  induction xs with
  | nil =>
      intro s s' h _ _ _ _ _ _ _
      rw [processArithRest_nil] at h
      cases h
      exact ⟨[], by simp, Xform_frame [.f64] (Xform_nil ctx)⟩
  | cons p rest ih =>
      intro s s' h hwt hf64 hco hsh hca hi htab
      rw [processArithRest_cons, bind_ok_iff] at h
      obtain ⟨s₁, h1, h2⟩ := h
      cases hfop : arithOpInstr fname with
      | error m =>
          rw [hfop] at h2
          simp only [bind, Except.bind] at h2
          exact Except.noConfusion h2
      | ok f =>
          rw [hfop] at h2
          simp only [bind, Except.bind] at h2
          rw [if_neg hnm] at h2
          obtain ⟨op, hfeq, hopty⟩ := arithOpInstr_ty ctx fname f hnm hfop
          subst hfeq
          have hS1 := SFE_all p s i s₁ h1
          have hSrest := processArithRest_SFB i fname rest (fun q hq => SFE_all q)
            (s₁.emitAt i [op]) s' h2
          rw [WTall_cons, Bool.and_eq_true] at hwt
          rw [CallsOkList_cons, Bool.and_eq_true] at hco
          simp only [List.all_cons, Bool.and_eq_true] at hf64
          have hi1 : i < s₁.function_implementations.length := by
            rw [hS1.2.2.2.1]; exact hi
          obtain ⟨Δ₁, hie1, hp1⟩ := hm p (List.mem_cons_self p rest) s i s₁ h1 hwt.1 hco.1
            (fun x hx => hsh x (by rw [callNamesList_cons]; exact List.mem_append_left _ hx))
            (fun x hx hax =>
              hca x (by rw [callNamesList_cons]; exact List.mem_append_left _ hx)
                (by rw [assignedIdsList_cons]; exact List.mem_append_left _ hax))
            hi (hSrest.2.2.2.2.1.trans htab)
          obtain ⟨Δ₂, hie2, hp2⟩ := ih (fun q hq => hm q (List.mem_cons_of_mem p hq))
            (s₁.emitAt i [op]) s' h2 hwt.2 hf64.2
            (by rw [show (s₁.emitAt i [op]).function_names = s₁.function_names from rfl,
                hS1.1]; exact hco.2)
            (fun x hx hmem => by
              rw [show (s₁.emitAt i [op]).local_names = s₁.local_names from rfl] at hmem
              rcases (hS1.2.2.2.2.2 x).1 hmem with hmem | hmem
              · exact hsh x (by rw [callNamesList_cons]; exact List.mem_append_right _ hx) hmem
              · exact hca x (by rw [callNamesList_cons]; exact List.mem_append_right _ hx)
                  (by rw [assignedIdsList_cons]; exact List.mem_append_left _ hmem))
            (fun x hx hmem =>
              hca x (by rw [callNamesList_cons]; exact List.mem_append_right _ hx)
                (by rw [assignedIdsList_cons]; exact List.mem_append_right _ hmem))
            (by rw [emitAt_length]; exact hi1) htab
          refine ⟨Δ₁ ++ [op] ++ Δ₂, ?_, ?_⟩
          · rw [hie2, emitAt_implInstrs s₁ i [op] hi1, hie1]
            simp [List.append_assoc]
          · have hty : tyOf p = VT.f64 := by
              have := hf64.1
              rwa [beq_iff_eq] at this
            have hp1' : Xform ctx Δ₁ [.f64] [.f64, .f64] := by
              have := Xform_frame [VT.f64] hp1
              rwa [hty] at this
            exact Xform_comp (Xform_comp hp1' (Xform_straight hopty)) hp2

theorem processNotOp_Ty (ctx : CheckCtx) (i : ℕ) (params : List Expression)
    (hm : ∀ p ∈ params, TyE ctx p) :
    ∀ (s s' : Compiler), Compiler.processNotOp s i params = .ok s' →
      WTall params = true → (params.all fun p => tyOf p == VT.f64) = true →
      CallsOkList ctx s.function_names params = true →
      (∀ x ∈ callNamesList params, x ∉ s.local_names) →
      (∀ x ∈ callNamesList params, x ∉ assignedIdsList params) →
      i < s.function_implementations.length →
      s'.wasm.types <+: ctx.typeTab →
      ∃ Δ, s'.implInstrs i = s.implInstrs i ++ Δ ∧ Pushes ctx Δ [VT.f64] := by
  intro s s' h hwt hf64 hco hsh hca hi htab
  rcases params with _ | ⟨p0, _ | ⟨p1, rest⟩⟩
  · exact Except.noConfusion h
  · simp only [processNotOp_eq1, bind_ok_iff, Except.ok.injEq] at h
    obtain ⟨s₁, h1, h4⟩ := h
    subst h4
    have hS1 := SFE_all p0 s i s₁ h1
    rw [WTall_cons, Bool.and_eq_true] at hwt
    rw [CallsOkList_cons, Bool.and_eq_true] at hco
    simp only [List.all_cons, Bool.and_eq_true] at hf64
    obtain ⟨Δ₁, hie, hp⟩ := hm p0 (by simp) s i s₁ h1 hwt.1 hco.1
      (fun x hx => hsh x (by simp [callNamesList_cons, hx]))
      (fun x hx hax =>
        hca x (by simp [callNamesList_cons, hx]) (by simp [assignedIdsList_cons, hax]))
      hi htab
    refine ⟨Δ₁ ++ [.F64_CONST 0, .F64_EQ, .F64_CONVERT_S_I32], ?_, ?_⟩
    · rw [emitAt_implInstrs s₁ i _ (by rw [hS1.2.2.2.1]; exact hi), hie]
      simp [List.append_assoc]
    · have hp' : Pushes ctx Δ₁ [VT.f64] := by
        rwa [show tyOf p0 = VT.f64 from by have := hf64.1; rwa [beq_iff_eq] at this] at hp
      exact Xform_comp hp'
        (Xform_comp (Xform_frame [VT.f64] (Xf_f64const ctx 0))
          (Xform_comp (Xf_f64eq ctx) (Xf_conv32 ctx)))
  · exact Except.noConfusion h

theorem processComplementOp_Ty (ctx : CheckCtx) (i : ℕ) (params : List Expression)
    (hm : ∀ p ∈ params, TyE ctx p) :
    ∀ (s s' : Compiler), Compiler.processComplementOp s i params = .ok s' →
      WTall params = true → (params.all fun p => tyOf p == VT.f64) = true →
      CallsOkList ctx s.function_names params = true →
      (∀ x ∈ callNamesList params, x ∉ s.local_names) →
      (∀ x ∈ callNamesList params, x ∉ assignedIdsList params) →
      i < s.function_implementations.length →
      s'.wasm.types <+: ctx.typeTab →
      ∃ Δ, s'.implInstrs i = s.implInstrs i ++ Δ ∧ Pushes ctx Δ [VT.f64] := by
  intro s s' h hwt hf64 hco hsh hca hi htab
  rcases params with _ | ⟨p0, _ | ⟨p1, rest⟩⟩
  · exact Except.noConfusion h
  · simp only [processComplementOp_eq1, bind_ok_iff, Except.ok.injEq] at h
    obtain ⟨s₁, h1, h4⟩ := h
    subst h4
    have hS1 := SFE_all p0 s i s₁ h1
    rw [WTall_cons, Bool.and_eq_true] at hwt
    rw [CallsOkList_cons, Bool.and_eq_true] at hco
    simp only [List.all_cons, Bool.and_eq_true] at hf64
    obtain ⟨Δ₁, hie, hp⟩ := hm p0 (by simp) s i s₁ h1 hwt.1 hco.1
      (fun x hx => hsh x (by simp [callNamesList_cons, hx]))
      (fun x hx hax =>
        hca x (by simp [callNamesList_cons, hx]) (by simp [assignedIdsList_cons, hax]))
      hi htab
    refine ⟨Δ₁ ++ [.I64_TRUNC_S_F64, .I64_CONST (-1), .I64_XOR, .F64_CONVERT_S_I64],
      ?_, ?_⟩
    · rw [emitAt_implInstrs s₁ i _ (by rw [hS1.2.2.2.1]; exact hi), hie]
      simp [List.append_assoc]
    · have hp' : Pushes ctx Δ₁ [VT.f64] := by
        rwa [show tyOf p0 = VT.f64 from by have := hf64.1; rwa [beq_iff_eq] at this] at hp
      exact Xform_comp hp'
        (Xform_comp (Xf_trunc64 ctx)
          (Xform_comp (Xform_frame [VT.i64] (Xf_i64const ctx (-1)))
            (Xform_comp (Xf_i64xor ctx) (Xf_conv64 ctx))))
  · exact Except.noConfusion h

theorem processMemHeapEnd_Ty (ctx : CheckCtx) (i : ℕ) (params : List Expression)
    (hm : ∀ p ∈ params, TyE ctx p) :
    ∀ (s s' : Compiler), Compiler.processMemHeapEnd s i params = .ok s' →
      WTall params = true → (params.all fun p => tyOf p == VT.f64) = true →
      CallsOkList ctx s.function_names params = true →
      (∀ x ∈ callNamesList params, x ∉ s.local_names) →
      (∀ x ∈ callNamesList params, x ∉ assignedIdsList params) →
      i < s.function_implementations.length →
      s'.wasm.types <+: ctx.typeTab →
      ∃ Δ, s'.implInstrs i = s.implInstrs i ++ Δ ∧
        Pushes ctx Δ [tyOf (.FunctionCall "mem_heap_end" params)] := by
  intro s s' h hwt hf64 hco hsh hca hi htab
  rcases params with _ | ⟨p0, _ | ⟨p1, rest⟩⟩
  · simp only [processMemHeapEnd_eq0, Except.ok.injEq] at h
    subst h
    refine ⟨[.GLOBAL_GET 1, .F64_CONVERT_S_I32], ?_, ?_⟩
    · rw [emitAt_implInstrs s i _ hi]
    · exact Xform_comp (Xf_globalget ctx 1) (Xf_conv32 ctx)
  · simp only [processMemHeapEnd_eq1, bind_ok_iff, Except.ok.injEq] at h
    obtain ⟨s₁, h1, h4⟩ := h
    subst h4
    have hS1 := SFE_all p0 s i s₁ h1
    rw [WTall_cons, Bool.and_eq_true] at hwt
    rw [CallsOkList_cons, Bool.and_eq_true] at hco
    simp only [List.all_cons, Bool.and_eq_true] at hf64
    have hi1 : i < s₁.function_implementations.length := by
      rw [hS1.2.2.2.1]; exact hi
    obtain ⟨Δ₁, hie, hp⟩ := hm p0 (by simp) s i s₁ h1 hwt.1 hco.1
      (fun x hx => hsh x (by simp [callNamesList_cons, hx]))
      (fun x hx hax =>
        hca x (by simp [callNamesList_cons, hx]) (by simp [assignedIdsList_cons, hax]))
      hi htab
    refine ⟨Δ₁ ++ ([.I32_TRUNC_S_F64] ++ [.GLOBAL_SET 1, .I32_CONST 0]), ?_, ?_⟩
    · rw [emitAt_implInstrs (s₁.emitAt i [.I32_TRUNC_S_F64]) i _
          (by rw [emitAt_length]; exact hi1),
        emitAt_implInstrs s₁ i _ hi1, hie]
      simp [List.append_assoc]
    · have hp' : Pushes ctx Δ₁ [VT.f64] := by
        rwa [show tyOf p0 = VT.f64 from by have := hf64.1; rwa [beq_iff_eq] at this] at hp
      rw [show tyOf (.FunctionCall "mem_heap_end" [p0]) = VT.i32 from rfl]
      exact Xform_comp hp'
        (Xform_comp (Xf_trunc32 ctx)
          (Xform_comp (Xf_globalset ctx 1) (Xf_i32const ctx 0)))
  · exact Except.noConfusion h

theorem processMem_Ty (ctx : CheckCtx) (i : ℕ) (params : List Expression)
    (hm : ∀ p ∈ params, TyE ctx p) :
    ∀ (s s' : Compiler), Compiler.processMem s i params = .ok s' →
      WTall params = true → (params.all fun p => tyOf p == VT.f64) = true →
      CallsOkList ctx s.function_names params = true →
      (∀ x ∈ callNamesList params, x ∉ s.local_names) →
      (∀ x ∈ callNamesList params, x ∉ assignedIdsList params) →
      i < s.function_implementations.length →
      s'.wasm.types <+: ctx.typeTab →
      ∃ Δ, s'.implInstrs i = s.implInstrs i ++ Δ ∧ Pushes ctx Δ [VT.f64] := by
  intro s s' h hwt hf64 hco hsh hca hi htab
  rcases params with _ | ⟨p0, _ | ⟨p1, _ | ⟨p2, rest⟩⟩⟩
  · exact Except.noConfusion h
  · simp only [processMem_eq1, bind_ok_iff, Except.ok.injEq] at h
    obtain ⟨s₁, h1, h4⟩ := h
    subst h4
    have hS1 := SFE_all p0 s i s₁ h1
    rw [WTall_cons, Bool.and_eq_true] at hwt
    rw [CallsOkList_cons, Bool.and_eq_true] at hco
    simp only [List.all_cons, Bool.and_eq_true] at hf64
    obtain ⟨Δ₁, hie, hp⟩ := hm p0 (by simp) s i s₁ h1 hwt.1 hco.1
      (fun x hx => hsh x (by simp [callNamesList_cons, hx]))
      (fun x hx hax =>
        hca x (by simp [callNamesList_cons, hx]) (by simp [assignedIdsList_cons, hax]))
      hi htab
    refine ⟨Δ₁ ++ [.I32_TRUNC_S_F64, .F64_LOAD 0 0], ?_, ?_⟩
    · rw [emitAt_implInstrs s₁ i _ (by rw [hS1.2.2.2.1]; exact hi), hie]
      simp [List.append_assoc]
    · have hp' : Pushes ctx Δ₁ [VT.f64] := by
        rwa [show tyOf p0 = VT.f64 from by have := hf64.1; rwa [beq_iff_eq] at this] at hp
      exact Xform_comp hp' (Xform_comp (Xf_trunc32 ctx) (Xf_f64load ctx 0 0))
  · simp only [processMem_eq2, bind_ok_iff, Except.ok.injEq] at h
    obtain ⟨s₁, h1, s₃, h3, h4⟩ := h
    subst h4
    have hS1 := SFE_all p0 s i s₁ h1
    have hS3 := SFE_all p1 (s₁.emitAt i [.I32_TRUNC_S_F64]) i s₃ h3
    rw [WTall_cons, Bool.and_eq_true] at hwt
    obtain ⟨hwt0, hwt⟩ := hwt
    rw [WTall_cons, Bool.and_eq_true] at hwt
    rw [CallsOkList_cons, Bool.and_eq_true] at hco
    obtain ⟨hco0, hco⟩ := hco
    rw [CallsOkList_cons, Bool.and_eq_true] at hco
    simp only [List.all_cons, Bool.and_eq_true] at hf64
    have hi1 : i < s₁.function_implementations.length := by
      rw [hS1.2.2.2.1]; exact hi
    obtain ⟨Δ₁, hie1, hp1⟩ := hm p0 (by simp) s i s₁ h1 hwt0 hco0
      (fun x hx => hsh x (by simp [callNamesList_cons, hx]))
      (fun x hx hax =>
        hca x (by simp [callNamesList_cons, hx]) (by simp [assignedIdsList_cons, hax]))
      hi (hS3.2.2.2.2.1.trans htab)
    obtain ⟨Δ₂, hie2, hp2⟩ := hm p1 (by simp) (s₁.emitAt i [.I32_TRUNC_S_F64]) i s₃ h3
      hwt.1 (by rw [show (s₁.emitAt i [.I32_TRUNC_S_F64]).function_names =
          s₁.function_names from rfl, hS1.1]; exact hco.1)
      (fun x hx hmem => by
        rw [show (s₁.emitAt i [.I32_TRUNC_S_F64]).local_names = s₁.local_names from rfl]
          at hmem
        rcases (hS1.2.2.2.2.2 x).1 hmem with hmem | hmem
        · exact hsh x (by simp [callNamesList_cons, hx]) hmem
        · exact hca x (by simp [callNamesList_cons, hx])
            (by simp [assignedIdsList_cons, hmem]))
      (fun x hx hmem =>
        hca x (by simp [callNamesList_cons, hx]) (by simp [assignedIdsList_cons, hmem]))
      (by rw [emitAt_length]; exact hi1) htab
    refine ⟨Δ₁ ++ ([.I32_TRUNC_S_F64] ++ (Δ₂ ++ ([.F64_STORE 0 0] ++ [.F64_CONST 0]))),
      ?_, ?_⟩
    · rw [emitAt_implInstrs (s₃.emitAt i [.F64_STORE 0 0]) i _ (by
          rw [emitAt_length, hS3.2.2.2.1, emitAt_length]; exact hi1),
        emitAt_implInstrs s₃ i _ (by rw [hS3.2.2.2.1, emitAt_length]; exact hi1),
        hie2, emitAt_implInstrs s₁ i _ hi1, hie1]
      simp [List.append_assoc]
    · have hp1' : Pushes ctx Δ₁ [VT.f64] := by
        rwa [show tyOf p0 = VT.f64 from by have := hf64.1; rwa [beq_iff_eq] at this] at hp1
      have hp2' : Pushes ctx Δ₂ [VT.f64] := by
        rwa [show tyOf p1 = VT.f64 from by have := hf64.2.1; rwa [beq_iff_eq] at this] at hp2
      exact Xform_comp hp1'
        (Xform_comp (Xf_trunc32 ctx)
          (Xform_comp (Xform_frame [VT.i32] hp2')
            (Xform_comp (Xf_f64store ctx 0 0) (Xf_f64const ctx 0))))
  · exact Except.noConfusion h

theorem processMemByte_Ty (ctx : CheckCtx) (i : ℕ) (params : List Expression)
    (hm : ∀ p ∈ params, TyE ctx p) :
    ∀ (s s' : Compiler), Compiler.processMemByte s i params = .ok s' →
      WTall params = true → (params.all fun p => tyOf p == VT.f64) = true →
      CallsOkList ctx s.function_names params = true →
      (∀ x ∈ callNamesList params, x ∉ s.local_names) →
      (∀ x ∈ callNamesList params, x ∉ assignedIdsList params) →
      i < s.function_implementations.length →
      s'.wasm.types <+: ctx.typeTab →
      ∃ Δ, s'.implInstrs i = s.implInstrs i ++ Δ ∧ Pushes ctx Δ [VT.f64] := by
  intro s s' h hwt hf64 hco hsh hca hi htab
  rcases params with _ | ⟨p0, _ | ⟨p1, _ | ⟨p2, rest⟩⟩⟩
  · exact Except.noConfusion h
  · simp only [processMemByte_eq1, bind_ok_iff, Except.ok.injEq] at h
    obtain ⟨s₁, h1, h4⟩ := h
    subst h4
    have hS1 := SFE_all p0 s i s₁ h1
    rw [WTall_cons, Bool.and_eq_true] at hwt
    rw [CallsOkList_cons, Bool.and_eq_true] at hco
    simp only [List.all_cons, Bool.and_eq_true] at hf64
    have hi1 : i < s₁.function_implementations.length := by
      rw [hS1.2.2.2.1]; exact hi
    obtain ⟨Δ₁, hie, hp⟩ := hm p0 (by simp) s i s₁ h1 hwt.1 hco.1
      (fun x hx => hsh x (by simp [callNamesList_cons, hx]))
      (fun x hx hax =>
        hca x (by simp [callNamesList_cons, hx]) (by simp [assignedIdsList_cons, hax]))
      hi htab
    refine ⟨Δ₁ ++ ([.I32_TRUNC_S_F64] ++ [.I32_LOAD8_U 0 0, .F64_CONVERT_S_I32]),
      ?_, ?_⟩
    · rw [emitAt_implInstrs (s₁.emitAt i [.I32_TRUNC_S_F64]) i _
          (by rw [emitAt_length]; exact hi1),
        emitAt_implInstrs s₁ i _ hi1, hie]
      simp [List.append_assoc]
    · have hp' : Pushes ctx Δ₁ [VT.f64] := by
        rwa [show tyOf p0 = VT.f64 from by have := hf64.1; rwa [beq_iff_eq] at this] at hp
      exact Xform_comp hp'
        (Xform_comp (Xf_trunc32 ctx) (Xform_comp (Xf_load8 ctx 0 0) (Xf_conv32 ctx)))
  · simp only [processMemByte_eq2, bind_ok_iff, Except.ok.injEq] at h
    obtain ⟨s₁, h1, s₃, h3, h4⟩ := h
    subst h4
    have hS1 := SFE_all p0 s i s₁ h1
    have hS3 := SFE_all p1 (s₁.emitAt i [.I32_TRUNC_S_F64]) i s₃ h3
    rw [WTall_cons, Bool.and_eq_true] at hwt
    obtain ⟨hwt0, hwt⟩ := hwt
    rw [WTall_cons, Bool.and_eq_true] at hwt
    rw [CallsOkList_cons, Bool.and_eq_true] at hco
    obtain ⟨hco0, hco⟩ := hco
    rw [CallsOkList_cons, Bool.and_eq_true] at hco
    simp only [List.all_cons, Bool.and_eq_true] at hf64
    have hi1 : i < s₁.function_implementations.length := by
      rw [hS1.2.2.2.1]; exact hi
    have hi3 : i < s₃.function_implementations.length := by
      rw [hS3.2.2.2.1, emitAt_length]; exact hi1
    obtain ⟨Δ₁, hie1, hp1⟩ := hm p0 (by simp) s i s₁ h1 hwt0 hco0
      (fun x hx => hsh x (by simp [callNamesList_cons, hx]))
      (fun x hx hax =>
        hca x (by simp [callNamesList_cons, hx]) (by simp [assignedIdsList_cons, hax]))
      hi (hS3.2.2.2.2.1.trans htab)
    obtain ⟨Δ₂, hie2, hp2⟩ := hm p1 (by simp) (s₁.emitAt i [.I32_TRUNC_S_F64]) i s₃ h3
      hwt.1 (by rw [show (s₁.emitAt i [.I32_TRUNC_S_F64]).function_names =
          s₁.function_names from rfl, hS1.1]; exact hco.1)
      (fun x hx hmem => by
        rw [show (s₁.emitAt i [.I32_TRUNC_S_F64]).local_names = s₁.local_names from rfl]
          at hmem
        rcases (hS1.2.2.2.2.2 x).1 hmem with hmem | hmem
        · exact hsh x (by simp [callNamesList_cons, hx]) hmem
        · exact hca x (by simp [callNamesList_cons, hx])
            (by simp [assignedIdsList_cons, hmem]))
      (fun x hx hmem =>
        hca x (by simp [callNamesList_cons, hx]) (by simp [assignedIdsList_cons, hmem]))
      (by rw [emitAt_length]; exact hi1) htab
    refine ⟨Δ₁ ++ ([.I32_TRUNC_S_F64] ++ (Δ₂ ++ ([.I32_TRUNC_S_F64] ++
      ([.I32_STORE8 0 0] ++ [.F64_CONST 0])))), ?_, ?_⟩
    · rw [emitAt_implInstrs ((s₃.emitAt i [.I32_TRUNC_S_F64]).emitAt i [.I32_STORE8 0 0])
          i _ (by rw [emitAt_length, emitAt_length]; exact hi3),
        emitAt_implInstrs (s₃.emitAt i [.I32_TRUNC_S_F64]) i _
          (by rw [emitAt_length]; exact hi3),
        emitAt_implInstrs s₃ i _ hi3, hie2, emitAt_implInstrs s₁ i _ hi1, hie1]
      simp [List.append_assoc]
    · have hp1' : Pushes ctx Δ₁ [VT.f64] := by
        rwa [show tyOf p0 = VT.f64 from by have := hf64.1; rwa [beq_iff_eq] at this] at hp1
      have hp2' : Pushes ctx Δ₂ [VT.f64] := by
        rwa [show tyOf p1 = VT.f64 from by have := hf64.2.1; rwa [beq_iff_eq] at this] at hp2
      exact Xform_comp hp1'
        (Xform_comp (Xf_trunc32 ctx)
          (Xform_comp (Xform_frame [VT.i32] hp2')
            (Xform_comp (Xform_frame [VT.i32] (Xf_trunc32 ctx))
              (Xform_comp (Xf_store8 ctx 0 0) (Xf_f64const ctx 0)))))
  · exact Except.noConfusion h

theorem processCmpOp_Ty (ctx : CheckCtx) (i : ℕ) (fname : String)
    (params : List Expression) (hm : ∀ p ∈ params, TyE ctx p) :
    ∀ (s s' : Compiler), Compiler.processCmpOp s i fname params = .ok s' →
      WTall params = true → (params.all fun p => tyOf p == VT.f64) = true →
      CallsOkList ctx s.function_names params = true →
      (∀ x ∈ callNamesList params, x ∉ s.local_names) →
      (∀ x ∈ callNamesList params, x ∉ assignedIdsList params) →
      i < s.function_implementations.length →
      s'.wasm.types <+: ctx.typeTab →
      ∃ Δ, s'.implInstrs i = s.implInstrs i ++ Δ ∧ Pushes ctx Δ [VT.f64] := by
  intro s s' h hwt hf64 hco hsh hca hi htab
  rcases params with _ | ⟨p0, _ | ⟨p1, _ | ⟨p2, rest⟩⟩⟩
  · exact Except.noConfusion h
  · exact Except.noConfusion h
  · simp only [processCmpOp_eq2, bind_ok_iff, Except.ok.injEq] at h
    obtain ⟨s₁, h1, s₂, h2, f, hf, h4⟩ := h
    subst h4
    obtain ⟨op, hfe, hopty⟩ := cmpOpInstr_ty ctx fname f hf
    subst hfe
    have hS1 := SFE_all p0 s i s₁ h1
    have hS2 := SFE_all p1 s₁ i s₂ h2
    rw [WTall_cons, Bool.and_eq_true] at hwt
    obtain ⟨hwt0, hwt⟩ := hwt
    rw [WTall_cons, Bool.and_eq_true] at hwt
    rw [CallsOkList_cons, Bool.and_eq_true] at hco
    obtain ⟨hco0, hco⟩ := hco
    rw [CallsOkList_cons, Bool.and_eq_true] at hco
    simp only [List.all_cons, Bool.and_eq_true] at hf64
    have hi1 : i < s₁.function_implementations.length := by
      rw [hS1.2.2.2.1]; exact hi
    obtain ⟨Δ₁, hie1, hp1⟩ := hm p0 (by simp) s i s₁ h1 hwt0 hco0
      (fun x hx => hsh x (by simp [callNamesList_cons, hx]))
      (fun x hx hax =>
        hca x (by simp [callNamesList_cons, hx]) (by simp [assignedIdsList_cons, hax]))
      hi (hS2.2.2.2.2.1.trans htab)
    obtain ⟨Δ₂, hie2, hp2⟩ := hm p1 (by simp) s₁ i s₂ h2
      hwt.1 (by rw [hS1.1]; exact hco.1)
      (fun x hx hmem => by
        rcases (hS1.2.2.2.2.2 x).1 hmem with hmem | hmem
        · exact hsh x (by simp [callNamesList_cons, hx]) hmem
        · exact hca x (by simp [callNamesList_cons, hx])
            (by simp [assignedIdsList_cons, hmem]))
      (fun x hx hmem =>
        hca x (by simp [callNamesList_cons, hx]) (by simp [assignedIdsList_cons, hmem]))
      hi1 htab
    refine ⟨Δ₁ ++ (Δ₂ ++ ([op] ++ [.F64_CONVERT_S_I32])), ?_, ?_⟩
    · rw [emitAt_implInstrs s₂ i _ (by rw [hS2.2.2.2.1]; exact hi1), hie2, hie1]
      simp [List.append_assoc]
    · have hp1' : Pushes ctx Δ₁ [VT.f64] := by
        rwa [show tyOf p0 = VT.f64 from by have := hf64.1; rwa [beq_iff_eq] at this] at hp1
      have hp2' : Pushes ctx Δ₂ [VT.f64] := by
        rwa [show tyOf p1 = VT.f64 from by have := hf64.2.1; rwa [beq_iff_eq] at this] at hp2
      exact Xform_comp hp1'
        (Xform_comp (Xform_frame [VT.f64] hp2')
          (Xform_comp (Xform_straight hopty) (Xf_conv32 ctx)))
  · exact Except.noConfusion h

theorem processBitOp_Ty (ctx : CheckCtx) (i : ℕ) (fname : String)
    (params : List Expression) (hm : ∀ p ∈ params, TyE ctx p) :
    ∀ (s s' : Compiler), Compiler.processBitOp s i fname params = .ok s' →
      WTall params = true → (params.all fun p => tyOf p == VT.f64) = true →
      CallsOkList ctx s.function_names params = true →
      (∀ x ∈ callNamesList params, x ∉ s.local_names) →
      (∀ x ∈ callNamesList params, x ∉ assignedIdsList params) →
      i < s.function_implementations.length →
      s'.wasm.types <+: ctx.typeTab →
      ∃ Δ, s'.implInstrs i = s.implInstrs i ++ Δ ∧ Pushes ctx Δ [VT.f64] := by
  intro s s' h hwt hf64 hco hsh hca hi htab
  rcases params with _ | ⟨p0, _ | ⟨p1, _ | ⟨p2, rest⟩⟩⟩
  · exact Except.noConfusion h
  · exact Except.noConfusion h
  · simp only [processBitOp_eq2, bind_ok_iff, Except.ok.injEq] at h
    obtain ⟨s₁, h1, s₃, h3, f, hf, h4⟩ := h
    subst h4
    obtain ⟨op, hfe, hopty⟩ := bitOpInstr_ty ctx fname f hf
    subst hfe
    have hS1 := SFE_all p0 s i s₁ h1
    have hS3 := SFE_all p1 (s₁.emitAt i [.I64_TRUNC_S_F64]) i s₃ h3
    rw [WTall_cons, Bool.and_eq_true] at hwt
    obtain ⟨hwt0, hwt⟩ := hwt
    rw [WTall_cons, Bool.and_eq_true] at hwt
    rw [CallsOkList_cons, Bool.and_eq_true] at hco
    obtain ⟨hco0, hco⟩ := hco
    rw [CallsOkList_cons, Bool.and_eq_true] at hco
    simp only [List.all_cons, Bool.and_eq_true] at hf64
    have hi1 : i < s₁.function_implementations.length := by
      rw [hS1.2.2.2.1]; exact hi
    have hi3 : i < s₃.function_implementations.length := by
      rw [hS3.2.2.2.1, emitAt_length]; exact hi1
    obtain ⟨Δ₁, hie1, hp1⟩ := hm p0 (by simp) s i s₁ h1 hwt0 hco0
      (fun x hx => hsh x (by simp [callNamesList_cons, hx]))
      (fun x hx hax =>
        hca x (by simp [callNamesList_cons, hx]) (by simp [assignedIdsList_cons, hax]))
      hi (hS3.2.2.2.2.1.trans htab)
    obtain ⟨Δ₂, hie2, hp2⟩ := hm p1 (by simp) (s₁.emitAt i [.I64_TRUNC_S_F64]) i s₃ h3
      hwt.1 (by rw [show (s₁.emitAt i [.I64_TRUNC_S_F64]).function_names =
          s₁.function_names from rfl, hS1.1]; exact hco.1)
      (fun x hx hmem => by
        rw [show (s₁.emitAt i [.I64_TRUNC_S_F64]).local_names = s₁.local_names from rfl]
          at hmem
        rcases (hS1.2.2.2.2.2 x).1 hmem with hmem | hmem
        · exact hsh x (by simp [callNamesList_cons, hx]) hmem
        · exact hca x (by simp [callNamesList_cons, hx])
            (by simp [assignedIdsList_cons, hmem]))
      (fun x hx hmem =>
        hca x (by simp [callNamesList_cons, hx]) (by simp [assignedIdsList_cons, hmem]))
      (by rw [emitAt_length]; exact hi1) htab
    refine ⟨Δ₁ ++ ([.I64_TRUNC_S_F64] ++ (Δ₂ ++ ([.I64_TRUNC_S_F64] ++
      ([op] ++ [.F64_CONVERT_S_I64])))), ?_, ?_⟩
    · rw [emitAt_implInstrs (s₃.emitAt i [.I64_TRUNC_S_F64]) i _
          (by rw [emitAt_length]; exact hi3),
        emitAt_implInstrs s₃ i _ hi3, hie2, emitAt_implInstrs s₁ i _ hi1, hie1]
      simp [List.append_assoc]
    · have hp1' : Pushes ctx Δ₁ [VT.f64] := by
        rwa [show tyOf p0 = VT.f64 from by have := hf64.1; rwa [beq_iff_eq] at this] at hp1
      have hp2' : Pushes ctx Δ₂ [VT.f64] := by
        rwa [show tyOf p1 = VT.f64 from by have := hf64.2.1; rwa [beq_iff_eq] at this] at hp2
      exact Xform_comp hp1'
        (Xform_comp (Xf_trunc64 ctx)
          (Xform_comp (Xform_frame [VT.i64] hp2')
            (Xform_comp (Xform_frame [VT.i64] (Xf_trunc64 ctx))
              (Xform_comp (Xform_straight hopty) (Xf_conv64 ctx)))))
  · exact Except.noConfusion h

theorem processAndOp_Ty (ctx : CheckCtx) (i : ℕ) (params : List Expression)
    (hm : ∀ p ∈ params, TyE ctx p) :
    ∀ (s s' : Compiler), Compiler.processAndOp s i params = .ok s' →
      WTall params = true → (params.all fun p => tyOf p == VT.f64) = true →
      CallsOkList ctx s.function_names params = true →
      (∀ x ∈ callNamesList params, x ∉ s.local_names) →
      (∀ x ∈ callNamesList params, x ∉ assignedIdsList params) →
      i < s.function_implementations.length →
      s'.wasm.types <+: ctx.typeTab →
      ∃ Δ, s'.implInstrs i = s.implInstrs i ++ Δ ∧ Pushes ctx Δ [VT.f64] := by
  intro s s' h hwt hf64 hco hsh hca hi htab
  rcases params with _ | ⟨p0, _ | ⟨p1, _ | ⟨p2, rest⟩⟩⟩
  · exact Except.noConfusion h
  · exact Except.noConfusion h
  · simp only [processAndOp_eq2, bind_ok_iff, Except.ok.injEq] at h
    obtain ⟨s₁, h1, s₃, h3, h4⟩ := h
    subst h4
    have hS1 := SFE_all p0 s i s₁ h1
    have hS3 := SFE_all p1 (s₁.emitAt i [.I64_TRUNC_S_F64, .I64_CONST 0, .I64_NE]) i s₃ h3
    rw [WTall_cons, Bool.and_eq_true] at hwt
    obtain ⟨hwt0, hwt⟩ := hwt
    rw [WTall_cons, Bool.and_eq_true] at hwt
    rw [CallsOkList_cons, Bool.and_eq_true] at hco
    obtain ⟨hco0, hco⟩ := hco
    rw [CallsOkList_cons, Bool.and_eq_true] at hco
    simp only [List.all_cons, Bool.and_eq_true] at hf64
    have hi1 : i < s₁.function_implementations.length := by
      rw [hS1.2.2.2.1]; exact hi
    have hi3 : i < s₃.function_implementations.length := by
      rw [hS3.2.2.2.1, emitAt_length]; exact hi1
    obtain ⟨Δ₁, hie1, hp1⟩ := hm p0 (by simp) s i s₁ h1 hwt0 hco0
      (fun x hx => hsh x (by simp [callNamesList_cons, hx]))
      (fun x hx hax =>
        hca x (by simp [callNamesList_cons, hx]) (by simp [assignedIdsList_cons, hax]))
      hi (hS3.2.2.2.2.1.trans htab)
    obtain ⟨Δ₂, hie2, hp2⟩ := hm p1 (by simp)
      (s₁.emitAt i [.I64_TRUNC_S_F64, .I64_CONST 0, .I64_NE]) i s₃ h3
      hwt.1 (by rw [show (s₁.emitAt i [.I64_TRUNC_S_F64, .I64_CONST 0, .I64_NE]).function_names =
          s₁.function_names from rfl, hS1.1]; exact hco.1)
      (fun x hx hmem => by
        rw [show (s₁.emitAt i [.I64_TRUNC_S_F64, .I64_CONST 0, .I64_NE]).local_names =
          s₁.local_names from rfl] at hmem
        rcases (hS1.2.2.2.2.2 x).1 hmem with hmem | hmem
        · exact hsh x (by simp [callNamesList_cons, hx]) hmem
        · exact hca x (by simp [callNamesList_cons, hx])
            (by simp [assignedIdsList_cons, hmem]))
      (fun x hx hmem =>
        hca x (by simp [callNamesList_cons, hx]) (by simp [assignedIdsList_cons, hmem]))
      (by rw [emitAt_length]; exact hi1) htab
    refine ⟨Δ₁ ++ (([.I64_TRUNC_S_F64] ++ ([.I64_CONST 0] ++ [.I64_NE])) ++
      (Δ₂ ++ ([.I64_TRUNC_S_F64] ++ ([.I64_CONST 0] ++ ([.I64_NE] ++
        ([.I32_AND] ++ [.F64_CONVERT_S_I32])))))), ?_, ?_⟩
    · rw [emitAt_implInstrs s₃ i _ hi3, hie2, emitAt_implInstrs s₁ i _ hi1, hie1]
      simp [List.append_assoc]
    · have hp1' : Pushes ctx Δ₁ [VT.f64] := by
        rwa [show tyOf p0 = VT.f64 from by have := hf64.1; rwa [beq_iff_eq] at this] at hp1
      have hp2' : Pushes ctx Δ₂ [VT.f64] := by
        rwa [show tyOf p1 = VT.f64 from by have := hf64.2.1; rwa [beq_iff_eq] at this] at hp2
      exact Xform_comp hp1'
        (Xform_comp
          (Xform_comp (Xf_trunc64 ctx)
            (Xform_comp (Xform_frame [VT.i64] (Xf_i64const ctx 0)) (Xf_i64ne ctx)))
          (Xform_comp (Xform_frame [VT.i32] hp2')
            (Xform_comp (Xform_frame [VT.i32] (Xf_trunc64 ctx))
              (Xform_comp (Xform_frame [VT.i32, VT.i64] (Xf_i64const ctx 0))
                (Xform_comp (Xform_frame [VT.i32] (Xf_i64ne ctx))
                  (Xform_comp (Xf_i32and ctx) (Xf_conv32 ctx)))))))
  · exact Except.noConfusion h

theorem processOrOp_Ty (ctx : CheckCtx) (i : ℕ) (params : List Expression)
    (hm : ∀ p ∈ params, TyE ctx p) :
    ∀ (s s' : Compiler), Compiler.processOrOp s i params = .ok s' →
      WTall params = true → (params.all fun p => tyOf p == VT.f64) = true →
      CallsOkList ctx s.function_names params = true →
      (∀ x ∈ callNamesList params, x ∉ s.local_names) →
      (∀ x ∈ callNamesList params, x ∉ assignedIdsList params) →
      i < s.function_implementations.length →
      s'.wasm.types <+: ctx.typeTab →
      ∃ Δ, s'.implInstrs i = s.implInstrs i ++ Δ ∧ Pushes ctx Δ [VT.f64] := by
  intro s s' h hwt hf64 hco hsh hca hi htab
  rcases params with _ | ⟨p0, _ | ⟨p1, _ | ⟨p2, rest⟩⟩⟩
  · exact Except.noConfusion h
  · exact Except.noConfusion h
  · simp only [processOrOp_eq2, bind_ok_iff, Except.ok.injEq] at h
    obtain ⟨s₁, h1, s₃, h3, h4⟩ := h
    subst h4
    have hS1 := SFE_all p0 s i s₁ h1
    have hS3 := SFE_all p1 (s₁.emitAt i [.I64_TRUNC_S_F64]) i s₃ h3
    rw [WTall_cons, Bool.and_eq_true] at hwt
    obtain ⟨hwt0, hwt⟩ := hwt
    rw [WTall_cons, Bool.and_eq_true] at hwt
    rw [CallsOkList_cons, Bool.and_eq_true] at hco
    obtain ⟨hco0, hco⟩ := hco
    rw [CallsOkList_cons, Bool.and_eq_true] at hco
    simp only [List.all_cons, Bool.and_eq_true] at hf64
    have hi1 : i < s₁.function_implementations.length := by
      rw [hS1.2.2.2.1]; exact hi
    have hi3 : i < s₃.function_implementations.length := by
      rw [hS3.2.2.2.1, emitAt_length]; exact hi1
    obtain ⟨Δ₁, hie1, hp1⟩ := hm p0 (by simp) s i s₁ h1 hwt0 hco0
      (fun x hx => hsh x (by simp [callNamesList_cons, hx]))
      (fun x hx hax =>
        hca x (by simp [callNamesList_cons, hx]) (by simp [assignedIdsList_cons, hax]))
      hi (hS3.2.2.2.2.1.trans htab)
    obtain ⟨Δ₂, hie2, hp2⟩ := hm p1 (by simp) (s₁.emitAt i [.I64_TRUNC_S_F64]) i s₃ h3
      hwt.1 (by rw [show (s₁.emitAt i [.I64_TRUNC_S_F64]).function_names =
          s₁.function_names from rfl, hS1.1]; exact hco.1)
      (fun x hx hmem => by
        rw [show (s₁.emitAt i [.I64_TRUNC_S_F64]).local_names = s₁.local_names from rfl]
          at hmem
        rcases (hS1.2.2.2.2.2 x).1 hmem with hmem | hmem
        · exact hsh x (by simp [callNamesList_cons, hx]) hmem
        · exact hca x (by simp [callNamesList_cons, hx])
            (by simp [assignedIdsList_cons, hmem]))
      (fun x hx hmem =>
        hca x (by simp [callNamesList_cons, hx]) (by simp [assignedIdsList_cons, hmem]))
      (by rw [emitAt_length]; exact hi1) htab
    refine ⟨Δ₁ ++ ([.I64_TRUNC_S_F64] ++ (Δ₂ ++ ([.I64_TRUNC_S_F64] ++
      ([.I64_OR] ++ ([.I64_CONST 0] ++ ([.I64_NE] ++ [.F64_CONVERT_S_I32])))))), ?_, ?_⟩
    · rw [emitAt_implInstrs s₃ i _ hi3, hie2, emitAt_implInstrs s₁ i _ hi1, hie1]
      simp [List.append_assoc]
    · have hp1' : Pushes ctx Δ₁ [VT.f64] := by
        rwa [show tyOf p0 = VT.f64 from by have := hf64.1; rwa [beq_iff_eq] at this] at hp1
      have hp2' : Pushes ctx Δ₂ [VT.f64] := by
        rwa [show tyOf p1 = VT.f64 from by have := hf64.2.1; rwa [beq_iff_eq] at this] at hp2
      exact Xform_comp hp1'
        (Xform_comp (Xf_trunc64 ctx)
          (Xform_comp (Xform_frame [VT.i64] hp2')
            (Xform_comp (Xform_frame [VT.i64] (Xf_trunc64 ctx))
              (Xform_comp (Xf_i64or ctx)
                (Xform_comp (Xform_frame [VT.i64] (Xf_i64const ctx 0))
                  (Xform_comp (Xf_i64ne ctx) (Xf_conv32 ctx)))))))
  · exact Except.noConfusion h

theorem processUserCall_Ty (ctx : CheckCtx) (i : ℕ) (fh : ℚ)
    (params : List Expression) (hm : ∀ p ∈ params, TyE ctx p)
    (harity : ctx.funcArity[(asI32 fh).toNat]? = some params.length) :
    ∀ (s s' : Compiler), Compiler.processUserCall s i fh params = .ok s' →
      WTall params = true → (params.all fun p => tyOf p == VT.f64) = true →
      CallsOkList ctx s.function_names params = true →
      (∀ x ∈ callNamesList params, x ∉ s.local_names) →
      (∀ x ∈ callNamesList params, x ∉ assignedIdsList params) →
      i < s.function_implementations.length →
      s'.wasm.types <+: ctx.typeTab →
      ∃ Δ, s'.implInstrs i = s.implInstrs i ++ Δ ∧ Pushes ctx Δ [VT.f64] := by
  intro s s' h hwt hf64 hco hsh hca hi htab
  rw [processUserCall_loop_eq] at h
  simp only [bind_ok_iff, Except.ok.injEq] at h
  obtain ⟨s₁, h1, h4⟩ := h
  subst h4
  have hS1 := processPlainList_SFB i params (fun q hq => SFE_all q) s s₁ h1
  obtain ⟨ΔR, hieR, hpR⟩ := processPlainList_Ty ctx i params hm s s₁ h1
    hwt hf64 hco hsh hca hi htab
  refine ⟨ΔR ++ [.CALL (asI32 fh)], ?_, ?_⟩
  · rw [emitAt_implInstrs s₁ i _ (by rw [hS1.2.2.2.1]; exact hi), hieR]
    simp [List.append_assoc]
  · exact Xform_comp hpR (Xf_call ctx (asI32 fh) params.length harity)

theorem processArithOp_Ty (ctx : CheckCtx) (i : ℕ) (fname : String)
    (params : List Expression) (hm : ∀ p ∈ params, TyE ctx p)
    (hari : fname = "%" → params.length = 2) :
    ∀ (s s' : Compiler), Compiler.processArithOp s i fname params = .ok s' →
      WTall params = true → (params.all fun p => tyOf p == VT.f64) = true →
      CallsOkList ctx s.function_names params = true →
      (∀ x ∈ callNamesList params, x ∉ s.local_names) →
      (∀ x ∈ callNamesList params, x ∉ assignedIdsList params) →
      i < s.function_implementations.length →
      s'.wasm.types <+: ctx.typeTab →
      ∃ Δ, s'.implInstrs i = s.implInstrs i ++ Δ ∧ Pushes ctx Δ [VT.f64] := by
  intro s s' h hwt hf64 hco hsh hca hi htab
  rcases params with _ | ⟨p0, _ | ⟨p1, rest⟩⟩
  · exact Except.noConfusion h
  · exact Except.noConfusion h
  by_cases hnm : fname = "%"
  · subst hnm
    rcases rest with _ | ⟨p2, rest2⟩
    · simp only [processArithOp_eq, bind_ok_iff] at h
      obtain ⟨s₁, h1, h2⟩ := h
      rw [if_pos trivial] at h2
      rw [processArithRest_cons, bind_ok_iff] at h2
      obtain ⟨sA, hA, h3⟩ := h2
      have hfop : arithOpInstr "%" = .ok [.I64_REM_S, .F64_CONVERT_S_I64] := rfl
      rw [hfop] at h3
      simp only [bind, Except.bind] at h3
      rw [if_pos trivial] at h3
      rw [processArithRest_nil] at h3
      rw [Except.ok.injEq] at h3
      subst h3
      have hS1 := SFE_all p0 s i s₁ h1
      have hSA := SFE_all p1 (s₁.emitAt i [.I64_TRUNC_S_F64]) i sA hA
      rw [WTall_cons, Bool.and_eq_true] at hwt
      obtain ⟨hwt0, hwt⟩ := hwt
      rw [WTall_cons, Bool.and_eq_true] at hwt
      rw [CallsOkList_cons, Bool.and_eq_true] at hco
      obtain ⟨hco0, hco⟩ := hco
      rw [CallsOkList_cons, Bool.and_eq_true] at hco
      simp only [List.all_cons, Bool.and_eq_true] at hf64
      have hi1 : i < s₁.function_implementations.length := by
        rw [hS1.2.2.2.1]; exact hi
      obtain ⟨Δ₁, hie1, hp1⟩ := hm p0 (by simp) s i s₁ h1 hwt0 hco0
        (fun x hx => hsh x (by simp [callNamesList_cons, hx]))
        (fun x hx hax =>
          hca x (by simp [callNamesList_cons, hx]) (by simp [assignedIdsList_cons, hax]))
        hi (hSA.2.2.2.2.1.trans htab)
      obtain ⟨Δ₂, hie2, hp2⟩ := hm p1 (by simp) (s₁.emitAt i [.I64_TRUNC_S_F64]) i sA hA
        hwt.1 (by rw [show (s₁.emitAt i [.I64_TRUNC_S_F64]).function_names =
            s₁.function_names from rfl, hS1.1]; exact hco.1)
        (fun x hx hmem => by
          rw [show (s₁.emitAt i [.I64_TRUNC_S_F64]).local_names = s₁.local_names from rfl]
            at hmem
          rcases (hS1.2.2.2.2.2 x).1 hmem with hmem | hmem
          · exact hsh x (by simp [callNamesList_cons, hx]) hmem
          · exact hca x (by simp [callNamesList_cons, hx])
              (by simp [assignedIdsList_cons, hmem]))
        (fun x hx hmem =>
          hca x (by simp [callNamesList_cons, hx]) (by simp [assignedIdsList_cons, hmem]))
        (by rw [emitAt_length]; exact hi1) htab
      refine ⟨Δ₁ ++ ([.I64_TRUNC_S_F64] ++ (Δ₂ ++ ([.I64_TRUNC_S_F64] ++
        ([.I64_REM_S] ++ [.F64_CONVERT_S_I64])))), ?_, ?_⟩
      · rw [emitAt_implInstrs (sA.emitAt i [.I64_TRUNC_S_F64]) i _
            (by rw [emitAt_length, hSA.2.2.2.1, emitAt_length]; exact hi1),
          emitAt_implInstrs sA i _ (by rw [hSA.2.2.2.1, emitAt_length]; exact hi1),
          hie2, emitAt_implInstrs s₁ i _ hi1, hie1]
        simp [List.append_assoc]
      · have hp1' : Pushes ctx Δ₁ [VT.f64] := by
          rwa [show tyOf p0 = VT.f64 from by have := hf64.1; rwa [beq_iff_eq] at this]
            at hp1
        have hp2' : Pushes ctx Δ₂ [VT.f64] := by
          rwa [show tyOf p1 = VT.f64 from by have := hf64.2.1; rwa [beq_iff_eq] at this]
            at hp2
        exact Xform_comp hp1'
          (Xform_comp (Xf_trunc64 ctx)
            (Xform_comp (Xform_frame [VT.i64] hp2')
              (Xform_comp (Xform_frame [VT.i64] (Xf_trunc64 ctx))
                (Xform_comp (Xf_i64rem ctx) (Xf_conv64 ctx)))))
    · exact absurd (hari rfl) (by intro hx; simp only [List.length_cons] at hx; omega)
  · simp only [processArithOp_eq, bind_ok_iff] at h
    obtain ⟨s₁, h1, h2⟩ := h
    rw [if_neg hnm] at h2
    have hS1 := SFE_all p0 s i s₁ h1
    have hSrest := processArithRest_SFB i fname (p1 :: rest) (fun q hq => SFE_all q)
      s₁ s' h2
    rw [WTall_cons, Bool.and_eq_true] at hwt
    rw [CallsOkList_cons, Bool.and_eq_true] at hco
    simp only [List.all_cons, Bool.and_eq_true] at hf64
    have hi1 : i < s₁.function_implementations.length := by
      rw [hS1.2.2.2.1]; exact hi
    obtain ⟨Δ₁, hie1, hp1⟩ := hm p0 (by simp) s i s₁ h1 hwt.1 hco.1
      (fun x hx => hsh x (by simp [callNamesList_cons, hx]))
      (fun x hx hax =>
        hca x (by simp [callNamesList_cons, hx]) (by simp [assignedIdsList_cons, hax]))
      hi (hSrest.2.2.2.2.1.trans htab)
    obtain ⟨Δ₂, hie2, hp2⟩ := processArithRest_Ty ctx i fname hnm (p1 :: rest)
      (fun q hq => hm q (List.mem_cons_of_mem p0 hq)) s₁ s' h2 hwt.2
      (by simpa using hf64.2) (by rw [hS1.1]; exact hco.2)
      (fun x hx hmem => by
        rcases (hS1.2.2.2.2.2 x).1 hmem with hmem | hmem
        · exact hsh x
            (by simp only [callNamesList_cons, List.mem_append] at hx ⊢ <;> tauto) hmem
        · exact hca x
            (by simp only [callNamesList_cons, List.mem_append] at hx ⊢ <;> tauto)
            (by simp only [assignedIdsList_cons, List.mem_append] <;> tauto))
      (fun x hx hmem => by
        exact hca x
          (by simp only [callNamesList_cons, List.mem_append] at hx ⊢ <;> tauto)
          (by simp only [assignedIdsList_cons, List.mem_append] at hmem ⊢ <;> tauto))
      hi1 htab
    refine ⟨Δ₁ ++ Δ₂, ?_, ?_⟩
    · rw [hie2, hie1]
      simp [List.append_assoc]
    · have hp1' : Pushes ctx Δ₁ [VT.f64] := by
        rwa [show tyOf p0 = VT.f64 from by have := hf64.1; rwa [beq_iff_eq] at this] at hp1
      exact Xform_comp hp1' hp2

theorem processAssert_Ty (ctx : CheckCtx) (i : ℕ) (params : List Expression)
    (hm : ∀ p ∈ params, TyE ctx p) :
    ∀ (s s' : Compiler), Compiler.processAssert s i params = .ok s' →
      WTall params = true → (params.all fun p => tyOf p == VT.f64) = true →
      CallsOkList ctx s.function_names params = true →
      (∀ x ∈ callNamesList params, x ∉ s.local_names) →
      (∀ x ∈ callNamesList params, x ∉ assignedIdsList params) →
      i < s.function_implementations.length →
      s'.wasm.types <+: ctx.typeTab →
      ∃ Δ, s'.implInstrs i = s.implInstrs i ++ Δ ∧ Pushes ctx Δ [VT.f64] := by
  intro s s' h hwt hf64 hco hsh hca hi htab
  rcases params with _ | ⟨p0, _ | ⟨p1, _ | ⟨p2, _ | ⟨p3, rest⟩⟩⟩⟩
  · exact Except.noConfusion h
  · exact Except.noConfusion h
  · exact Except.noConfusion h
  · simp only [processAssert_eq3, bind_ok_iff, Except.ok.injEq] at h
    obtain ⟨s₁, h1, s₂, h2, s₇, h7, h4⟩ := h
    subst h4
    have hS1 := SFE_all p0 s i s₁ h1
    have hS2 := SFE_all p1 s₁ i s₂ h2
    have hS7 := SFE_all p2 ((((s₂.emitAt i [.F64_EQ]).emitAt i [.IF .F64]).emitAt i
      [.F64_CONST 0]).emitAt i [.ELSE]) i s₇ h7
    rw [WTall_cons, Bool.and_eq_true] at hwt
    obtain ⟨hwt0, hwt⟩ := hwt
    rw [WTall_cons, Bool.and_eq_true] at hwt
    obtain ⟨hwt1, hwt⟩ := hwt
    rw [WTall_cons, Bool.and_eq_true] at hwt
    rw [CallsOkList_cons, Bool.and_eq_true] at hco
    obtain ⟨hco0, hco⟩ := hco
    rw [CallsOkList_cons, Bool.and_eq_true] at hco
    obtain ⟨hco1, hco⟩ := hco
    rw [CallsOkList_cons, Bool.and_eq_true] at hco
    simp only [List.all_cons, Bool.and_eq_true] at hf64
    have hi1 : i < s₁.function_implementations.length := by
      rw [hS1.2.2.2.1]; exact hi
    have hi2 : i < s₂.function_implementations.length := by
      rw [hS2.2.2.2.1]; exact hi1
    obtain ⟨Δ₁, hie1, hp1⟩ := hm p0 (by simp) s i s₁ h1 hwt0 hco0
      (fun x hx => hsh x (by simp [callNamesList_cons, hx]))
      (fun x hx hax =>
        hca x (by simp [callNamesList_cons, hx]) (by simp [assignedIdsList_cons, hax]))
      hi (hS2.2.2.2.2.1.trans (hS7.2.2.2.2.1.trans htab))
    obtain ⟨Δ₂, hie2, hp2⟩ := hm p1 (by simp) s₁ i s₂ h2
      hwt1 (by rw [hS1.1]; exact hco1)
      (fun x hx hmem => by
        rcases (hS1.2.2.2.2.2 x).1 hmem with hmem | hmem
        · exact hsh x (by simp [callNamesList_cons, hx]) hmem
        · exact hca x (by simp [callNamesList_cons, hx])
            (by simp [assignedIdsList_cons, hmem]))
      (fun x hx hmem =>
        hca x (by simp [callNamesList_cons, hx]) (by simp [assignedIdsList_cons, hmem]))
      hi1 (hS7.2.2.2.2.1.trans htab)
    obtain ⟨Δ₃, hie3, hp3⟩ := hm p2 (by simp) ((((s₂.emitAt i [.F64_EQ]).emitAt i
      [.IF .F64]).emitAt i [.F64_CONST 0]).emitAt i [.ELSE]) i s₇ h7
      hwt.1 (by
        show CallsOk ctx s₂.function_names p2 = true
        rw [hS2.1, hS1.1]; exact hco.1)
      (fun x hx hmem => by
        rw [show ((((s₂.emitAt i [.F64_EQ]).emitAt i [.IF .F64]).emitAt i
          [.F64_CONST 0]).emitAt i [.ELSE]).local_names = s₂.local_names from rfl] at hmem
        rcases (hS2.2.2.2.2.2 x).1 hmem with hmem | hmem
        · rcases (hS1.2.2.2.2.2 x).1 hmem with hmem | hmem
          · exact hsh x (by simp [callNamesList_cons, hx]) hmem
          · exact hca x (by simp [callNamesList_cons, hx])
              (by simp [assignedIdsList_cons, hmem])
        · exact hca x (by simp [callNamesList_cons, hx])
            (by simp [assignedIdsList_cons, hmem]))
      (fun x hx hmem =>
        hca x (by simp [callNamesList_cons, hx]) (by simp [assignedIdsList_cons, hmem]))
      (by rw [emitAt_length, emitAt_length, emitAt_length, emitAt_length]; exact hi2)
      htab
    refine ⟨Δ₁ ++ (Δ₂ ++ ([.F64_EQ] ++ (.IF .F64 :: ([.F64_CONST 0] ++ .ELSE ::
      ((Δ₃ ++ [.BR s₇.return_depth]) ++ [.END]))))), ?_, ?_⟩
    · rw [emitAt_implInstrs s₇ i _ (by
          rw [hS7.2.2.2.1, emitAt_length, emitAt_length, emitAt_length, emitAt_length]
          exact hi2), hie3,
        emitAt_implInstrs (((s₂.emitAt i [.F64_EQ]).emitAt i [.IF .F64]).emitAt i
          [.F64_CONST 0]) i _ (by
          rw [emitAt_length, emitAt_length, emitAt_length]; exact hi2),
        emitAt_implInstrs ((s₂.emitAt i [.F64_EQ]).emitAt i [.IF .F64]) i _ (by
          rw [emitAt_length, emitAt_length]; exact hi2),
        emitAt_implInstrs (s₂.emitAt i [.F64_EQ]) i _ (by
          rw [emitAt_length]; exact hi2),
        emitAt_implInstrs s₂ i _ hi2, hie2, hie1]
      simp [List.append_assoc]
    · have hp1' : Pushes ctx Δ₁ [VT.f64] := by
        rwa [show tyOf p0 = VT.f64 from by have := hf64.1; rwa [beq_iff_eq] at this] at hp1
      have hp2' : Pushes ctx Δ₂ [VT.f64] := by
        rwa [show tyOf p1 = VT.f64 from by have := hf64.2.1; rwa [beq_iff_eq] at this] at hp2
      have hp3' : Pushes ctx Δ₃ [VT.f64] := by
        rwa [show tyOf p2 = VT.f64 from by have := hf64.2.2.1; rwa [beq_iff_eq] at this]
          at hp3
      exact Xform_comp hp1'
        (Xform_comp (Xform_frame [VT.f64] hp2')
          (Xform_comp (Xf_f64eq ctx)
            (if_block (Xf_f64const ctx 0)
              (Xform_comp hp3' (Xform_br ctx s₇.return_depth [VT.f64] [VT.f64])))))
  · exact Except.noConfusion h

theorem emitAt_wasm (s : Compiler) (i : ℕ) (l : List Instr) :
    (s.emitAt i l).wasm = s.wasm := rfl

theorem implInstrs_set_wasm (s : Compiler) (w : WasmApp) (i : ℕ) :
    ({ s with wasm := w } : Compiler).implInstrs i = s.implInstrs i := rfl

theorem processCallSig_Ty (ctx : CheckCtx) (i : ℕ) (params : List Expression)
    (hsig : (match params with
      | .FnSig inputs _ :: _ :: rest =>
          inputs.all (fun d => d == DataType.F64) && (inputs.length == rest.length)
      | _ => true) = true)
    (hm : ∀ p ∈ params, TyE ctx p) :
    ∀ (s s' : Compiler), Compiler.processCallSig s i params = .ok s' →
      WTall params = true → (params.all fun p => tyOf p == VT.f64) = true →
      CallsOkList ctx s.function_names params = true →
      (∀ x ∈ callNamesList params, x ∉ s.local_names) →
      (∀ x ∈ callNamesList params, x ∉ assignedIdsList params) →
      i < s.function_implementations.length →
      s'.wasm.types <+: ctx.typeTab →
      ∃ Δ, s'.implInstrs i = s.implInstrs i ++ Δ ∧
        Pushes ctx Δ [tyOf (.FunctionCall "call" params)] := by
  intro s s' h hwt hf64 hco hsh hca hi htab
  rcases params with _ | ⟨q0, _ | ⟨idxE, rest⟩⟩
  · exact Except.noConfusion h
  · cases q0 <;> exact Except.noConfusion h
  cases q0 with
  | SymbolLiteral a => exact Except.noConfusion h
  | Loop a => exact Except.noConfusion h
  | Recur => exact Except.noConfusion h
  | IfStatement a b c => exact Except.noConfusion h
  | Assignment a b => exact Except.noConfusion h
  | FunctionCall a b => exact Except.noConfusion h
  | TextLiteral a => exact Except.noConfusion h
  | Identifier a => exact Except.noConfusion h
  | Number a => exact Except.noConfusion h
  | FnSig inputs output =>
    have hsig' : (inputs.all (fun d => d == DataType.F64) &&
        (inputs.length == rest.length)) = true := hsig
    rw [Bool.and_eq_true] at hsig'
    have hinF : ∀ d ∈ inputs, d = DataType.F64 := fun d hd => by
      have := List.all_eq_true.1 hsig'.1 d hd
      rwa [beq_iff_eq] at this
    have hlen : inputs.length = rest.length := by
      have := hsig'.2
      rwa [beq_iff_eq] at this
    rw [WTall_cons, Bool.and_eq_true] at hwt
    obtain ⟨hwtsig, hwt⟩ := hwt
    rw [WTall_cons, Bool.and_eq_true] at hwt
    rw [CallsOkList_cons, Bool.and_eq_true] at hco
    obtain ⟨hcosig, hco⟩ := hco
    rw [CallsOkList_cons, Bool.and_eq_true] at hco
    simp only [List.all_cons, Bool.and_eq_true] at hf64
    cases output with
    | none =>
      simp only [processCallSig_eq, bind_ok_iff, Except.ok.injEq, reduceIte] at h
      obtain ⟨s₁, h1, s₂, h2, h4⟩ := h
      subst h4
      have hS1 := processPlainList_SFB i rest (fun q hq => SFE_all q) s s₁ h1
      have hS2 := SFE_all idxE s₁ i s₂ h2
      have hi1 : i < s₁.function_implementations.length := by
        rw [hS1.2.2.2.1]; exact hi
      have hi2 : i < s₂.function_implementations.length := by
        rw [hS2.2.2.2.1]; exact hi1
      have htabA : s₂.wasm.types ++ [(⟨inputs, none⟩ : FunctionType)] <+: ctx.typeTab :=
        htab
      have htabB : s₂.wasm.types <+: ctx.typeTab :=
        (List.prefix_append _ _).trans htabA
      obtain ⟨ΔR, hieR, hpR⟩ := processPlainList_Ty ctx i rest
        (fun q hq => hm q (by simp [hq])) s s₁ h1 hwt.2 hf64.2.2 hco.2
        (fun x hx => hsh x (by simp only [callNamesList_cons, List.mem_append] <;> tauto))
        (fun x hx hax => hca x
          (by simp only [callNamesList_cons, List.mem_append] <;> tauto)
          (by simp only [assignedIdsList_cons, List.mem_append] <;> tauto))
        hi ((hS2.2.2.2.2.1).trans htabB)
      obtain ⟨ΔI, hieI, hpI⟩ := hm idxE (by simp) s₁ i s₂ h2 hwt.1
        (by rw [hS1.1]; exact hco.1)
        (fun x hx hmem => by
          rcases (hS1.2.2.2.2.2 x).1 hmem with hmem | hmem
          · exact hsh x
              (by simp only [callNamesList_cons, List.mem_append] <;> tauto) hmem
          · exact hca x (by simp only [callNamesList_cons, List.mem_append] <;> tauto)
              (by simp only [assignedIdsList_cons, List.mem_append] <;> tauto))
        (fun x hx hmem => hca x
          (by simp only [callNamesList_cons, List.mem_append] <;> tauto)
          (by simp only [assignedIdsList_cons, List.mem_append] <;> tauto))
        hi1 htabB
      have hlook : ctx.typeTab[s₂.wasm.types.length]? =
          some (⟨inputs, none⟩ : FunctionType) := by
        rw [getElem_of_isPref htabA (by simp)]
        simp
      refine ⟨ΔR ++ (ΔI ++ ([.I32_TRUNC_S_F64] ++
        ([.CALL_INDIRECT s₂.wasm.types.length 0] ++ [.F64_CONST 0]))), ?_, ?_⟩
      · rw [emitAt_implInstrs _ i _ (by
            rw [emitAt_length]
            show i < (s₂.emitAt i [.I32_TRUNC_S_F64]).function_implementations.length
            rw [emitAt_length]; exact hi2),
          emitAt_implInstrs _ i _ (by
            show i < (s₂.emitAt i [.I32_TRUNC_S_F64]).function_implementations.length
            rw [emitAt_length]; exact hi2),
          implInstrs_set_wasm, emitAt_implInstrs s₂ i _ hi2, hieI, hieR]
        simp [WasmApp.add_type, emitAt_wasm, List.append_assoc]
      · have hpI' : Pushes ctx ΔI [VT.f64] := by
          rwa [show tyOf idxE = VT.f64 from by
            have := hf64.2.1; rwa [beq_iff_eq] at this] at hpI
        have hfr := Xform_frame (List.replicate rest.length VT.f64) hpI'
        rw [List.append_nil] at hfr
        have hfr2 := Xform_frame (List.replicate rest.length VT.f64) (Xf_trunc32 ctx)
        have hci : Xform ctx [.CALL_INDIRECT s₂.wasm.types.length 0]
            (List.replicate rest.length VT.f64 ++ [VT.i32]) [] := by
          have hx := Xf_call_indirect ctx s₂.wasm.types.length 0 ⟨inputs, none⟩ hlook
          rw [map_toVT_replicate hinF, hlen] at hx
          exact hx
        rw [show tyOf (Expression.FunctionCall "call"
            (Expression.FnSig inputs none :: idxE :: rest)) = VT.f64 from rfl]
        exact Xform_comp hpR
          (Xform_comp hfr (Xform_comp hfr2 (Xform_comp hci (Xf_f64const ctx 0))))
    | some dt =>
      simp only [processCallSig_eq, bind_ok_iff, Except.ok.injEq, reduceIte] at h
      obtain ⟨s₁, h1, s₂, h2, h4⟩ := h
      rw [if_neg (Option.some_ne_none dt)] at h4
      subst h4
      have hS1 := processPlainList_SFB i rest (fun q hq => SFE_all q) s s₁ h1
      have hS2 := SFE_all idxE s₁ i s₂ h2
      have hi1 : i < s₁.function_implementations.length := by
        rw [hS1.2.2.2.1]; exact hi
      have hi2 : i < s₂.function_implementations.length := by
        rw [hS2.2.2.2.1]; exact hi1
      have htabA : s₂.wasm.types ++ [(⟨inputs, some dt⟩ : FunctionType)] <+:
          ctx.typeTab := htab
      have htabB : s₂.wasm.types <+: ctx.typeTab :=
        (List.prefix_append _ _).trans htabA
      obtain ⟨ΔR, hieR, hpR⟩ := processPlainList_Ty ctx i rest
        (fun q hq => hm q (by simp [hq])) s s₁ h1 hwt.2 hf64.2.2 hco.2
        (fun x hx => hsh x (by simp only [callNamesList_cons, List.mem_append] <;> tauto))
        (fun x hx hax => hca x
          (by simp only [callNamesList_cons, List.mem_append] <;> tauto)
          (by simp only [assignedIdsList_cons, List.mem_append] <;> tauto))
        hi ((hS2.2.2.2.2.1).trans htabB)
      obtain ⟨ΔI, hieI, hpI⟩ := hm idxE (by simp) s₁ i s₂ h2 hwt.1
        (by rw [hS1.1]; exact hco.1)
        (fun x hx hmem => by
          rcases (hS1.2.2.2.2.2 x).1 hmem with hmem | hmem
          · exact hsh x
              (by simp only [callNamesList_cons, List.mem_append] <;> tauto) hmem
          · exact hca x (by simp only [callNamesList_cons, List.mem_append] <;> tauto)
              (by simp only [assignedIdsList_cons, List.mem_append] <;> tauto))
        (fun x hx hmem => hca x
          (by simp only [callNamesList_cons, List.mem_append] <;> tauto)
          (by simp only [assignedIdsList_cons, List.mem_append] <;> tauto))
        hi1 htabB
      have hlook : ctx.typeTab[s₂.wasm.types.length]? =
          some (⟨inputs, some dt⟩ : FunctionType) := by
        rw [getElem_of_isPref htabA (by simp)]
        simp
      refine ⟨ΔR ++ (ΔI ++ ([.I32_TRUNC_S_F64] ++
        [.CALL_INDIRECT s₂.wasm.types.length 0])), ?_, ?_⟩
      · rw [emitAt_implInstrs _ i _ (by
            show i < (s₂.emitAt i [.I32_TRUNC_S_F64]).function_implementations.length
            rw [emitAt_length]; exact hi2),
          implInstrs_set_wasm, emitAt_implInstrs s₂ i _ hi2, hieI, hieR]
        simp [WasmApp.add_type, emitAt_wasm, List.append_assoc]
      · have hpI' : Pushes ctx ΔI [VT.f64] := by
          rwa [show tyOf idxE = VT.f64 from by
            have := hf64.2.1; rwa [beq_iff_eq] at this] at hpI
        have hfr := Xform_frame (List.replicate rest.length VT.f64) hpI'
        rw [List.append_nil] at hfr
        have hfr2 := Xform_frame (List.replicate rest.length VT.f64) (Xf_trunc32 ctx)
        have hci : Xform ctx [.CALL_INDIRECT s₂.wasm.types.length 0]
            (List.replicate rest.length VT.f64 ++ [VT.i32]) [toVT dt] := by
          have hx := Xf_call_indirect ctx s₂.wasm.types.length 0 ⟨inputs, some dt⟩ hlook
          rw [map_toVT_replicate hinF, hlen] at hx
          exact hx
        rw [show tyOf (Expression.FunctionCall "call"
            (Expression.FnSig inputs (some dt) :: idxE :: rest)) = toVT dt from rfl]
        exact Xform_comp hpR (Xform_comp hfr (Xform_comp hfr2 hci))

theorem implInstrs_append_name (s : Compiler) (i : ℕ) (id : String) :
    ({ s with local_names := s.local_names ++ [id] } : Compiler).implInstrs i =
      s.implInstrs i := rfl

theorem process_assignment_Ty (ctx : CheckCtx) (i : ℕ) (id : String) (v : Expression)
    (hv : TyE ctx v) :
    ∀ (s s' : Compiler), s.process_expression i (.Assignment id v) = .ok s' →
      WT v = true → (tyOf v == VT.f64) = true →
      CallsOk ctx s.function_names v = true →
      (∀ x ∈ callNames v, x ∉ s.local_names) →
      (∀ x ∈ callNames v, x ∉ assignedIds v) →
      i < s.function_implementations.length →
      s'.wasm.types <+: ctx.typeTab →
      ∃ Δ, s'.implInstrs i = s.implInstrs i ++ Δ ∧ Pushes ctx Δ [VT.f64] := by
  intro s s' h hwt hf64 hco hsh hca hi htab
  rw [process_assignment_eq] at h
  cases hv0 : s.process_expression i v with
  | error e =>
      rw [hv0] at h
      exact Except.noConfusion h
  | ok s₁ =>
      rw [hv0] at h
      simp only [Except.bind] at h
      have hS1 := SFE_all v s i s₁ hv0
      have hi1 : i < s₁.function_implementations.length := by
        rw [hS1.2.2.2.1]; exact hi
      split at h
      · exact Except.noConfusion h
      · rename_i p heq
        rw [Except.ok.injEq] at h
        subst h
        rcases p with _ | ⟨w, k⟩
        · show ∃ Δ, (({ s₁.addLocalAt i DataType.F64 with
              local_names := (s₁.addLocalAt i DataType.F64).local_names ++ [id] } :
              Compiler).emitAt i
              [.LOCAL_SET (((s₁.addLocalAt i DataType.F64).local_names.length : ℕ) : ℤ),
               .LOCAL_GET (((s₁.addLocalAt i
                 DataType.F64).local_names.length : ℕ) : ℤ)]).implInstrs i =
              s.implInstrs i ++ Δ ∧ Pushes ctx Δ [VT.f64]
          obtain ⟨Δv, hiev, hpv⟩ := hv s i s₁ hv0 hwt hco hsh hca hi htab
          have hpv' : Pushes ctx Δv [VT.f64] := by
            rwa [show tyOf v = VT.f64 from by rwa [beq_iff_eq] at hf64] at hpv
          refine ⟨Δv ++ ([.LOCAL_SET (((s₁.addLocalAt i
              DataType.F64).local_names.length : ℕ) : ℤ)] ++
              [.LOCAL_GET (((s₁.addLocalAt i
              DataType.F64).local_names.length : ℕ) : ℤ)]), ?_, ?_⟩
          · rw [emitAt_implInstrs _ i _ (by
                show i < (s₁.addLocalAt i DataType.F64).function_implementations.length
                rw [addLocalAt_length]; exact hi1),
              implInstrs_append_name, addLocalAt_implInstrs, hiev]
            simp [List.append_assoc]
          · exact Xform_comp hpv' (Xform_comp (Xf_localset ctx _) (Xf_localget ctx _))
        · cases k with
          | Local =>
              show ∃ Δ, ((s₁.addLocalAt i DataType.F64).emitAt i
                  [.LOCAL_SET ((asU32 w : ℕ) : ℤ),
                   .LOCAL_GET ((asU32 w : ℕ) : ℤ)]).implInstrs i =
                  s.implInstrs i ++ Δ ∧ Pushes ctx Δ [VT.f64]
              obtain ⟨Δv, hiev, hpv⟩ := hv s i s₁ hv0 hwt hco hsh hca hi htab
              have hpv' : Pushes ctx Δv [VT.f64] := by
                rwa [show tyOf v = VT.f64 from by rwa [beq_iff_eq] at hf64] at hpv
              refine ⟨Δv ++ ([.LOCAL_SET ((asU32 w : ℕ) : ℤ)] ++
                [.LOCAL_GET ((asU32 w : ℕ) : ℤ)]), ?_, ?_⟩
              · rw [emitAt_implInstrs _ i _ (by
                    show i <
                      (s₁.addLocalAt i DataType.F64).function_implementations.length
                    rw [addLocalAt_length]; exact hi1),
                  addLocalAt_implInstrs, hiev]
                simp [List.append_assoc]
              · exact Xform_comp hpv'
                  (Xform_comp (Xf_localset ctx _) (Xf_localget ctx _))
          | Global =>
              show ∃ Δ, (({ s₁.addLocalAt i DataType.F64 with
                  local_names := (s₁.addLocalAt i DataType.F64).local_names ++ [id] } :
                  Compiler).emitAt i
                  [.LOCAL_SET (((s₁.addLocalAt i
                     DataType.F64).local_names.length : ℕ) : ℤ),
                   .LOCAL_GET (((s₁.addLocalAt i
                     DataType.F64).local_names.length : ℕ) : ℤ)]).implInstrs i =
                  s.implInstrs i ++ Δ ∧ Pushes ctx Δ [VT.f64]
              obtain ⟨Δv, hiev, hpv⟩ := hv s i s₁ hv0 hwt hco hsh hca hi htab
              have hpv' : Pushes ctx Δv [VT.f64] := by
                rwa [show tyOf v = VT.f64 from by rwa [beq_iff_eq] at hf64] at hpv
              refine ⟨Δv ++ ([.LOCAL_SET (((s₁.addLocalAt i
                  DataType.F64).local_names.length : ℕ) : ℤ)] ++
                  [.LOCAL_GET (((s₁.addLocalAt i
                  DataType.F64).local_names.length : ℕ) : ℤ)]), ?_, ?_⟩
              · rw [emitAt_implInstrs _ i _ (by
                    show i <
                      (s₁.addLocalAt i DataType.F64).function_implementations.length
                    rw [addLocalAt_length]; exact hi1),
                  implInstrs_append_name, addLocalAt_implInstrs, hiev]
                simp [List.append_assoc]
              · exact Xform_comp hpv'
                  (Xform_comp (Xf_localset ctx _) (Xf_localget ctx _))
          | Function =>
              show ∃ Δ, (({ s₁.addLocalAt i DataType.F64 with
                  local_names := (s₁.addLocalAt i DataType.F64).local_names ++ [id] } :
                  Compiler).emitAt i
                  [.LOCAL_SET (((s₁.addLocalAt i
                     DataType.F64).local_names.length : ℕ) : ℤ),
                   .LOCAL_GET (((s₁.addLocalAt i
                     DataType.F64).local_names.length : ℕ) : ℤ)]).implInstrs i =
                  s.implInstrs i ++ Δ ∧ Pushes ctx Δ [VT.f64]
              obtain ⟨Δv, hiev, hpv⟩ := hv s i s₁ hv0 hwt hco hsh hca hi htab
              have hpv' : Pushes ctx Δv [VT.f64] := by
                rwa [show tyOf v = VT.f64 from by rwa [beq_iff_eq] at hf64] at hpv
              refine ⟨Δv ++ ([.LOCAL_SET (((s₁.addLocalAt i
                  DataType.F64).local_names.length : ℕ) : ℤ)] ++
                  [.LOCAL_GET (((s₁.addLocalAt i
                  DataType.F64).local_names.length : ℕ) : ℤ)]), ?_, ?_⟩
              · rw [emitAt_implInstrs _ i _ (by
                    show i <
                      (s₁.addLocalAt i DataType.F64).function_implementations.length
                    rw [addLocalAt_length]; exact hi1),
                  implInstrs_append_name, addLocalAt_implInstrs, hiev]
                simp [List.append_assoc]
              · exact Xform_comp hpv'
                  (Xform_comp (Xf_localset ctx _) (Xf_localget ctx _))

theorem implInstrs_set_recur (s : Compiler) (n : ℕ) (i : ℕ) :
    ({ s with recur_depth := n } : Compiler).implInstrs i = s.implInstrs i := rfl

theorem callNames_fc (fname : String) (params : List Expression) :
    callNames (.FunctionCall fname params) =
      (if isIntrinsic fname then [] else [fname]) ++ callNamesList params := rfl

theorem callNames_if_some (c : Expression) (t fb : List Expression) :
    callNames (.IfStatement c t (some fb)) =
      callNames c ++ callNamesList t ++ callNamesList fb := rfl

theorem callNames_if_none (c : Expression) (t : List Expression) :
    callNames (.IfStatement c t none) =
      callNames c ++ callNamesList t ++ [] := rfl

theorem assignedIds_if_some (c : Expression) (t fb : List Expression) :
    assignedIds (.IfStatement c t (some fb)) =
      assignedIds c ++ assignedIdsList t ++ assignedIdsList fb := rfl

theorem assignedIds_if_none (c : Expression) (t : List Expression) :
    assignedIds (.IfStatement c t none) =
      assignedIds c ++ assignedIdsList t ++ [] := rfl

theorem WT_fc (fname : String) (params : List Expression) :
    WT (.FunctionCall fname params) =
      ((if fname = "call" then
        match params with
        | .FnSig inputs _ :: _ :: rest =>
            inputs.all (fun d => d == DataType.F64) && (inputs.length == rest.length)
        | _ => true
      else if fname = "%" then params.length == 2
      else true) && WTall params && params.all (fun p => tyOf p == VT.f64)) := rfl

theorem CallsOk_fc (ctx : CheckCtx) (fns : List String) (fname : String)
    (params : List Expression) :
    CallsOk ctx fns (.FunctionCall fname params) =
      ((if isIntrinsic fname then true
        else (fname != "nil") && (fname != "size_num") &&
          (match position (fun r => r == fname) fns with
            | some k =>
                ctx.funcArity[(asI32 ((k : ℕ) : ℚ)).toNat]? == some params.length
            | none => false)) && CallsOkList ctx fns params) := rfl

theorem tyOf_fc (fname : String) (params : List Expression) :
    tyOf (.FunctionCall fname params) =
      (if fname = "call" then
        match params with
        | .FnSig _ (some dt) :: _ => toVT dt
        | _ => .f64
      else if fname = "mem_heap_end" then
        match params with
        | [_] => .i32
        | _ => .f64
      else .f64) := rfl

/-- The sized induction carrying the typed-effect property through every
arm of `process_expression`. -/
theorem TyE_sized (ctx : CheckCtx) :
    ∀ (n : ℕ) (e : Expression), sizeOf e < n → TyE ctx e := by
  intro n
  induction n with
  | zero => intro e he; exact absurd he (Nat.not_lt_zero _)
  | succ n ih =>
      intro e he s i s' h hwt hco hsh hca hi htab
      cases e with
      | Number x =>
          rw [process_number_eq] at h
          cases h
          exact ⟨[.F64_CONST x], emitAt_implInstrs s i _ hi, Xf_f64const ctx x⟩
      | SymbolLiteral x =>
          rw [process_symbol_eq] at h
          cases h
          refine ⟨[.F64_CONST (s.get_symbol_value x).1], ?_, ?_⟩
          · rw [emitAt_implInstrs _ i _ (by rw [get_symbol_value_impls]; exact hi),
              implInstrs_congr i (get_symbol_value_impls s x)]
          · exact Xf_f64const ctx _
      | TextLiteral x =>
          rw [process_text_eq] at h
          cases h
          refine ⟨[.F64_CONST (s.get_or_create_text_data x).1], ?_, ?_⟩
          · rw [emitAt_implInstrs _ i _ (by rw [text_data_impls]; exact hi),
              implInstrs_congr i (text_data_impls s x)]
          · exact Xf_f64const ctx _
      | FnSig inputs output =>
          rw [process_fnsig_eq] at h
          cases h
          refine ⟨[.F64_CONST (((s.wasm.add_type ⟨inputs, output⟩).1 : ℕ) : ℚ)], ?_, ?_⟩
          · rw [emitAt_implInstrs _ i _ (by
                show i < s.function_implementations.length
                exact hi), implInstrs_set_wasm]
          · exact Xf_f64const ctx _
      | Recur =>
          rw [process_recur_eq] at h
          cases h
          refine ⟨[.F64_CONST 0] ++ [.BR s.recur_depth], ?_, ?_⟩
          · rw [emitAt_implInstrs s i _ hi]
            rfl
          · exact Xform_comp (Xf_f64const ctx 0)
              (Xform_br ctx s.recur_depth [VT.f64] [VT.f64])
      | Loop b =>
          cases b with
          | nil => exact Except.noConfusion h
          | cons e0 rest =>
              rw [process_loop_cons_eq] at h
              simp only [bind_ok_iff, Except.ok.injEq] at h
              obtain ⟨s₁, h1, h2⟩ := h
              subst h2
              have hm : ∀ p ∈ e0 :: rest, TyE ctx p := fun p hp => ih p (by
                have hlt := List.sizeOf_lt_of_mem hp
                simp only [Expression.Loop.sizeOf_spec] at he
                omega)
              have hwt' : (WTall (e0 :: rest) &&
                  (match (e0 :: rest).getLast? with
                    | some l => tyOf l == VT.f64
                    | none => true)) = true := hwt
              rw [Bool.and_eq_true] at hwt'
              cases hgl : (e0 :: rest).getLast? with
              | none => exact absurd hgl (by simp)
              | some l =>
                  have hlast := hwt'.2
                  rw [hgl] at hlast
                  have hSb := processSeq_SFB i (e0 :: rest) (fun p hp => SFE_all p)
                    (({ s with recur_depth := 0 }).emitAt i [.LOOP .F64]) s₁ h1
                  obtain ⟨Δb, hieb, hpb⟩ := processSeq_Ty ctx i (e0 :: rest) hm
                    (({ s with recur_depth := 0 }).emitAt i [.LOOP .F64]) s₁ h1
                    hwt'.1 (by rw [hgl]; exact hlast) (by exact hco) (by exact hsh)
                    (by exact hca) (by rw [emitAt_length]; exact hi) (by exact htab)
                  refine ⟨.LOOP .F64 :: (Δb ++ [.END]), ?_, ?_⟩
                  · rw [emitAt_implInstrs s₁ i _ (by
                        rw [hSb.2.2.2.1, emitAt_length]; exact hi), hieb,
                      emitAt_implInstrs _ i _ (by
                        show i < s.function_implementations.length
                        exact hi),
                      implInstrs_set_recur]
                    simp [List.append_assoc]
                  · exact loop_block hpb
      | Assignment id v =>
          have hwt' : (WT v && (tyOf v == VT.f64)) = true := hwt
          rw [Bool.and_eq_true] at hwt'
          exact process_assignment_Ty ctx i id v
            (ih v (by simp only [Expression.Assignment.sizeOf_spec] at he; omega))
            s s' h hwt'.1 hwt'.2 hco hsh
            (fun x hx hax => hca x hx (List.mem_cons_of_mem id hax)) hi htab
      | IfStatement cond tbr fbr =>
          have hmc : TyE ctx cond := ih cond (by
            simp only [Expression.IfStatement.sizeOf_spec] at he
            omega)
          have hmt : ∀ p ∈ tbr, TyE ctx p := fun p hp => ih p (by
            have hlt := List.sizeOf_lt_of_mem hp
            simp only [Expression.IfStatement.sizeOf_spec] at he
            omega)
          cases fbr with
          | some fb =>
              have hmf : ∀ p ∈ fb, TyE ctx p := fun p hp => ih p (by
                have hlt := List.sizeOf_lt_of_mem hp
                simp only [Expression.IfStatement.sizeOf_spec,
                  Option.some.sizeOf_spec] at he
                omega)
              have hwt' : (WT cond && (tyOf cond == VT.f64) &&
                  (WTall tbr && (match tbr.getLast? with
                    | some l => tyOf l == VT.f64
                    | none => false)) &&
                  (WTall fb && (match fb.getLast? with
                    | some x => tyOf x == VT.f64
                    | none => false))) = true := hwt
              simp only [Bool.and_eq_true] at hwt'
              obtain ⟨⟨⟨hwc, htyc⟩, hwtt, hwgt⟩, hwtf, hwgf⟩ := hwt'
              have hco' : (CallsOk ctx s.function_names cond &&
                  CallsOkList ctx s.function_names tbr &&
                  CallsOkList ctx s.function_names fb) = true := hco
              simp only [Bool.and_eq_true] at hco'
              obtain ⟨⟨hcoc, hcot⟩, hcof⟩ := hco'
              rw [process_if_some_eq] at h
              simp only [bind_ok_iff, Except.ok.injEq] at h
              obtain ⟨s₁, h1, s₄, h4, s₆, h6, hfin⟩ := h
              subst hfin
              have hS1 := SFE_all cond { s with recur_depth := s.recur_depth + 1 }
                i s₁ h1
              have hS4 := processSeq_SFB i tbr (fun p hp => SFE_all p)
                ((s₁.emitAt i [.F64_CONST 0, .F64_EQ, .I32_CONST 0,
                  .I32_EQ]).emitAt i [.IF .F64]) s₄ h4
              have hS6 := processSeq_SFB i fb (fun p hp => SFE_all p)
                (s₄.emitAt i [.ELSE]) s₆ h6
              have hi1 : i < s₁.function_implementations.length := by
                rw [hS1.2.2.2.1]; exact hi
              have hi4 : i < s₄.function_implementations.length := by
                rw [hS4.2.2.2.1, emitAt_length, emitAt_length]; exact hi1
              have hi6 : i < s₆.function_implementations.length := by
                rw [hS6.2.2.2.1, emitAt_length]; exact hi4
              obtain ⟨Δc, hiec, hpc⟩ := hmc { s with recur_depth := s.recur_depth + 1 }
                i s₁ h1 hwc (by exact hcoc)
                (fun x hx hmem => hsh x (by
                  rw [callNames_if_some]
                  simp only [List.mem_append] <;> tauto) hmem)
                (fun x hx hax => hca x (by
                    rw [callNames_if_some]
                    simp only [List.mem_append] <;> tauto)
                  (by rw [assignedIds_if_some]
                      simp only [List.mem_append] <;> tauto))
                hi ((hS4.2.2.2.2.1).trans ((hS6.2.2.2.2.1).trans htab))
              obtain ⟨Δt, hiet, hpt⟩ := processSeq_Ty ctx i tbr hmt
                ((s₁.emitAt i [.F64_CONST 0, .F64_EQ, .I32_CONST 0,
                  .I32_EQ]).emitAt i [.IF .F64]) s₄ h4 hwtt hwgt
                (by show CallsOkList ctx s₁.function_names tbr = true
                    rw [hS1.1]; exact hcot)
                (fun x hx hmem => by
                  have hmem' : x ∈ s₁.local_names := hmem
                  rcases (hS1.2.2.2.2.2 x).1 hmem' with hmem2 | hmem2
                  · exact hsh x (by
                      rw [callNames_if_some]
                      simp only [List.mem_append] <;> tauto) hmem2
                  · exact hca x (by
                        rw [callNames_if_some]
                        simp only [List.mem_append] <;> tauto)
                      (by rw [assignedIds_if_some]
                          simp only [List.mem_append] <;> tauto))
                (fun x hx hmem => hca x (by
                    rw [callNames_if_some]
                    simp only [List.mem_append] <;> tauto)
                  (by rw [assignedIds_if_some]
                      simp only [List.mem_append] <;> tauto))
                (by rw [emitAt_length, emitAt_length]; exact hi1)
                ((hS6.2.2.2.2.1).trans htab)
              obtain ⟨Δf, hief, hpf⟩ := processSeq_Ty ctx i fb hmf
                (s₄.emitAt i [.ELSE]) s₆ h6 hwtf hwgf
                (by show CallsOkList ctx s₄.function_names fb = true
                    have e4 : s₄.function_names = s.function_names := by
                      rw [hS4.1]
                      show s₁.function_names = s.function_names
                      rw [hS1.1]
                    rw [e4]; exact hcof)
                (fun x hx hmem => by
                  have hmem' : x ∈ s₄.local_names := hmem
                  rcases (hS4.2.2.2.2.2 x).1 hmem' with hmem2 | hmem2
                  · have hmem3 : x ∈ s₁.local_names := hmem2
                    rcases (hS1.2.2.2.2.2 x).1 hmem3 with hmem4 | hmem4
                    · exact hsh x (by
                        rw [callNames_if_some]
                        simp only [List.mem_append] <;> tauto) hmem4
                    · exact hca x (by
                          rw [callNames_if_some]
                          simp only [List.mem_append] <;> tauto)
                        (by rw [assignedIds_if_some]
                            simp only [List.mem_append] <;> tauto)
                  · exact hca x (by
                        rw [callNames_if_some]
                        simp only [List.mem_append] <;> tauto)
                      (by rw [assignedIds_if_some]
                          simp only [List.mem_append] <;> tauto))
                (fun x hx hmem => hca x (by
                    rw [callNames_if_some]
                    simp only [List.mem_append] <;> tauto)
                  (by rw [assignedIds_if_some]
                      simp only [List.mem_append] <;> tauto))
                (by rw [emitAt_length]; exact hi4) htab
              refine ⟨Δc ++ ([.F64_CONST 0] ++ ([.F64_EQ] ++ ([.I32_CONST 0] ++
                ([.I32_EQ] ++ (.IF .F64 :: (Δt ++ .ELSE ::
                  (Δf ++ [.END]))))))), ?_, ?_⟩
              · rw [emitAt_implInstrs s₆ i _ hi6, hief,
                  emitAt_implInstrs s₄ i _ hi4, hiet,
                  emitAt_implInstrs _ i _ (by rw [emitAt_length]; exact hi1),
                  emitAt_implInstrs s₁ i _ hi1, hiec, implInstrs_set_recur]
                simp [List.append_assoc]
              · have hpc' : Pushes ctx Δc [VT.f64] := by
                  rwa [show tyOf cond = VT.f64 from by rwa [beq_iff_eq] at htyc] at hpc
                exact Xform_comp hpc'
                  (Xform_comp (Xform_frame [VT.f64] (Xf_f64const ctx 0))
                    (Xform_comp (Xf_f64eq ctx)
                      (Xform_comp (Xform_frame [VT.i32] (Xf_i32const ctx 0))
                        (Xform_comp (Xf_i32eq ctx) (if_block hpt hpf)))))
          | none =>
              have hwt' : (WT cond && (tyOf cond == VT.f64) &&
                  (WTall tbr && (match tbr.getLast? with
                    | some l => tyOf l == VT.f64
                    | none => false)) && true) = true := hwt
              simp only [Bool.and_eq_true] at hwt'
              obtain ⟨⟨⟨hwc, htyc⟩, hwtt, hwgt⟩, -⟩ := hwt'
              have hco' : (CallsOk ctx s.function_names cond &&
                  CallsOkList ctx s.function_names tbr && true) = true := hco
              simp only [Bool.and_eq_true] at hco'
              obtain ⟨⟨hcoc, hcot⟩, -⟩ := hco'
              rw [process_if_none_eq] at h
              simp only [bind_ok_iff, Except.ok.injEq] at h
              obtain ⟨s₁, h1, s₄, h4, hfin⟩ := h
              subst hfin
              have hS1 := SFE_all cond { s with recur_depth := s.recur_depth + 1 }
                i s₁ h1
              have hS4 := processSeq_SFB i tbr (fun p hp => SFE_all p)
                ((s₁.emitAt i [.F64_CONST 0, .F64_EQ, .I32_CONST 0,
                  .I32_EQ]).emitAt i [.IF .F64]) s₄ h4
              have hi1 : i < s₁.function_implementations.length := by
                rw [hS1.2.2.2.1]; exact hi
              have hi4 : i < s₄.function_implementations.length := by
                rw [hS4.2.2.2.1, emitAt_length, emitAt_length]; exact hi1
              obtain ⟨Δc, hiec, hpc⟩ := hmc { s with recur_depth := s.recur_depth + 1 }
                i s₁ h1 hwc (by exact hcoc)
                (fun x hx hmem => hsh x (by
                  rw [callNames_if_none]
                  simp only [List.mem_append] <;> tauto) hmem)
                (fun x hx hax => hca x (by
                    rw [callNames_if_none]
                    simp only [List.mem_append] <;> tauto)
                  (by rw [assignedIds_if_none]
                      simp only [List.mem_append] <;> tauto))
                hi ((hS4.2.2.2.2.1).trans htab)
              obtain ⟨Δt, hiet, hpt⟩ := processSeq_Ty ctx i tbr hmt
                ((s₁.emitAt i [.F64_CONST 0, .F64_EQ, .I32_CONST 0,
                  .I32_EQ]).emitAt i [.IF .F64]) s₄ h4 hwtt hwgt
                (by show CallsOkList ctx s₁.function_names tbr = true
                    rw [hS1.1]; exact hcot)
                (fun x hx hmem => by
                  have hmem' : x ∈ s₁.local_names := hmem
                  rcases (hS1.2.2.2.2.2 x).1 hmem' with hmem2 | hmem2
                  · exact hsh x (by
                      rw [callNames_if_none]
                      simp only [List.mem_append] <;> tauto) hmem2
                  · exact hca x (by
                        rw [callNames_if_none]
                        simp only [List.mem_append] <;> tauto)
                      (by rw [assignedIds_if_none]
                          simp only [List.mem_append] <;> tauto))
                (fun x hx hmem => hca x (by
                    rw [callNames_if_none]
                    simp only [List.mem_append] <;> tauto)
                  (by rw [assignedIds_if_none]
                      simp only [List.mem_append] <;> tauto))
                (by rw [emitAt_length, emitAt_length]; exact hi1) htab
              refine ⟨Δc ++ ([.F64_CONST 0] ++ ([.F64_EQ] ++ ([.I32_CONST 0] ++
                ([.I32_EQ] ++ (.IF .F64 :: (Δt ++ .ELSE ::
                  ([.F64_CONST 0] ++ [.END]))))))), ?_, ?_⟩
              · rw [emitAt_implInstrs _ i _ (by
                    rw [emitAt_length, emitAt_length, hS4.2.2.2.1, emitAt_length,
                      emitAt_length]
                    exact hi1),
                  emitAt_implInstrs _ i _ (by
                    rw [emitAt_length, hS4.2.2.2.1, emitAt_length, emitAt_length]
                    exact hi1),
                  emitAt_implInstrs s₄ i _ hi4, hiet,
                  emitAt_implInstrs _ i _ (by rw [emitAt_length]; exact hi1),
                  emitAt_implInstrs s₁ i _ hi1, hiec, implInstrs_set_recur]
                simp [List.append_assoc]
              · have hpc' : Pushes ctx Δc [VT.f64] := by
                  rwa [show tyOf cond = VT.f64 from by rwa [beq_iff_eq] at htyc] at hpc
                exact Xform_comp hpc'
                  (Xform_comp (Xform_frame [VT.f64] (Xf_f64const ctx 0))
                    (Xform_comp (Xf_f64eq ctx)
                      (Xform_comp (Xform_frame [VT.i32] (Xf_i32const ctx 0))
                        (Xform_comp (Xf_i32eq ctx)
                          (if_block hpt (Xf_f64const ctx 0))))))
      | Identifier x =>
          rw [process_identifier_eq] at h
          split at h
          · exact Except.noConfusion h
          · exact Except.noConfusion h
          · split at h
            · cases h
              exact ⟨_, emitAt_implInstrs s i _ hi, Xf_f64const ctx _⟩
            · cases h
              exact ⟨_, emitAt_implInstrs s i _ hi, Xf_localget ctx _⟩
            · cases h
              exact ⟨_, emitAt_implInstrs s i _ hi, Xf_f64const ctx _⟩
      | FunctionCall fname params =>
          have hm : ∀ p ∈ params, TyE ctx p := fun p hp => ih p (by
            have hlt := List.sizeOf_lt_of_mem hp
            simp only [Expression.FunctionCall.sizeOf_spec] at he
            omega)
          rw [WT_fc] at hwt
          simp only [Bool.and_eq_true] at hwt
          obtain ⟨⟨hwif, hwtall⟩, hwall⟩ := hwt
          rw [CallsOk_fc] at hco
          simp only [Bool.and_eq_true] at hco
          obtain ⟨hcog, hcol⟩ := hco
          rw [process_functionCall_eq] at h
          by_cases hb1 : fname = "assert"
          · rw [if_pos hb1] at h
            subst hb1
            exact processAssert_Ty ctx i params hm s s' h hwtall hwall hcol
              (fun x hx => hsh x (by
                rw [callNames_fc]; exact List.mem_append_right _ hx))
              (fun x hx hax => hca x (by
                rw [callNames_fc]; exact List.mem_append_right _ hx) hax)
              hi htab
          · rw [if_neg hb1] at h
            by_cases hb2 : fname = "call"
            · rw [if_pos hb2] at h
              subst hb2
              have hsig := hwif
              rw [if_pos rfl] at hsig
              exact processCallSig_Ty ctx i params hsig hm s s' h hwtall hwall hcol
                (fun x hx => hsh x (by
                  rw [callNames_fc]; exact List.mem_append_right _ hx))
                (fun x hx hax => hca x (by
                  rw [callNames_fc]; exact List.mem_append_right _ hx) hax)
                hi htab
            · rw [if_neg hb2] at h
              by_cases hb3 : fname = "mem_byte"
              · rw [if_pos hb3] at h
                subst hb3
                exact processMemByte_Ty ctx i params hm s s' h hwtall hwall hcol
                  (fun x hx => hsh x (by
                    rw [callNames_fc]; exact List.mem_append_right _ hx))
                  (fun x hx hax => hca x (by
                    rw [callNames_fc]; exact List.mem_append_right _ hx) hax)
                  hi htab
              · rw [if_neg hb3] at h
                by_cases hb4 : fname = "mem_heap_start"
                · rw [if_pos hb4] at h
                  subst hb4
                  rcases params with _ | ⟨q, qs⟩
                  · cases h
                    refine ⟨[.GLOBAL_GET 0] ++ [.F64_CONVERT_S_I32], ?_, ?_⟩
                    · rw [emitAt_implInstrs s i _ hi]
                      rfl
                    · exact Xform_comp (Xf_globalget ctx 0) (Xf_conv32 ctx)
                  · exact Except.noConfusion h
                · rw [if_neg hb4] at h
                  by_cases hb5 : fname = "mem_heap_end"
                  · rw [if_pos hb5] at h
                    subst hb5
                    exact processMemHeapEnd_Ty ctx i params hm s s' h hwtall hwall
                      hcol
                      (fun x hx => hsh x (by
                        rw [callNames_fc]; exact List.mem_append_right _ hx))
                      (fun x hx hax => hca x (by
                        rw [callNames_fc]; exact List.mem_append_right _ hx) hax)
                      hi htab
                  · rw [if_neg hb5] at h
                    by_cases hb6 : fname = "mem"
                    · rw [if_pos hb6] at h
                      subst hb6
                      exact processMem_Ty ctx i params hm s s' h hwtall hwall hcol
                        (fun x hx => hsh x (by
                          rw [callNames_fc]; exact List.mem_append_right _ hx))
                        (fun x hx hax => hca x (by
                          rw [callNames_fc]; exact List.mem_append_right _ hx) hax)
                        hi htab
                    · rw [if_neg hb6] at h
                      have hty : tyOf (.FunctionCall fname params) = VT.f64 := by
                        rw [tyOf_fc, if_neg hb2, if_neg hb5]
                      by_cases hb7 : fname = "==" ∨ fname = "!=" ∨ fname = "<=" ∨
                          fname = ">=" ∨ fname = "<" ∨ fname = ">"
                      · rw [if_pos hb7] at h
                        rw [hty]
                        exact processCmpOp_Ty ctx i fname params hm s s' h hwtall
                          hwall hcol
                          (fun x hx => hsh x (by
                            rw [callNames_fc]; exact List.mem_append_right _ hx))
                          (fun x hx hax => hca x (by
                            rw [callNames_fc]; exact List.mem_append_right _ hx) hax)
                          hi htab
                      · rw [if_neg hb7] at h
                        by_cases hb8 : fname = "&" ∨ fname = "|" ∨ fname = "^" ∨
                            fname = "<<" ∨ fname = ">>"
                        · rw [if_pos hb8] at h
                          rw [hty]
                          exact processBitOp_Ty ctx i fname params hm s s' h hwtall
                            hwall hcol
                            (fun x hx => hsh x (by
                              rw [callNames_fc]; exact List.mem_append_right _ hx))
                            (fun x hx hax => hca x (by
                              rw [callNames_fc]
                              exact List.mem_append_right _ hx) hax)
                            hi htab
                        · rw [if_neg hb8] at h
                          by_cases hb9 : fname = "+" ∨ fname = "-" ∨ fname = "*" ∨
                              fname = "/" ∨ fname = "%"
                          · rw [if_pos hb9] at h
                            rw [hty]
                            have hari : fname = "%" → params.length = 2 := by
                              intro hpc
                              have hx := hwif
                              rw [hpc] at hx
                              rw [if_neg (by decide), if_pos rfl] at hx
                              rwa [beq_iff_eq] at hx
                            exact processArithOp_Ty ctx i fname params hm hari s s' h
                              hwtall hwall hcol
                              (fun x hx => hsh x (by
                                rw [callNames_fc]; exact List.mem_append_right _ hx))
                              (fun x hx hax => hca x (by
                                rw [callNames_fc]
                                exact List.mem_append_right _ hx) hax)
                              hi htab
                          · rw [if_neg hb9] at h
                            by_cases hb10 : fname = "!"
                            · rw [if_pos hb10] at h
                              subst hb10
                              exact processNotOp_Ty ctx i params hm s s' h hwtall
                                hwall hcol
                                (fun x hx => hsh x (by
                                  rw [callNames_fc]
                                  exact List.mem_append_right _ hx))
                                (fun x hx hax => hca x (by
                                  rw [callNames_fc]
                                  exact List.mem_append_right _ hx) hax)
                                hi htab
                            · rw [if_neg hb10] at h
                              by_cases hb11 : fname = "~"
                              · rw [if_pos hb11] at h
                                subst hb11
                                exact processComplementOp_Ty ctx i params hm s s' h
                                  hwtall hwall hcol
                                  (fun x hx => hsh x (by
                                    rw [callNames_fc]
                                    exact List.mem_append_right _ hx))
                                  (fun x hx hax => hca x (by
                                    rw [callNames_fc]
                                    exact List.mem_append_right _ hx) hax)
                                  hi htab
                              · rw [if_neg hb11] at h
                                by_cases hb12 : fname = "and"
                                · rw [if_pos hb12] at h
                                  subst hb12
                                  exact processAndOp_Ty ctx i params hm s s' h
                                    hwtall hwall hcol
                                    (fun x hx => hsh x (by
                                      rw [callNames_fc]
                                      exact List.mem_append_right _ hx))
                                    (fun x hx hax => hca x (by
                                      rw [callNames_fc]
                                      exact List.mem_append_right _ hx) hax)
                                    hi htab
                                · rw [if_neg hb12] at h
                                  by_cases hb13 : fname = "or"
                                  · rw [if_pos hb13] at h
                                    subst hb13
                                    exact processOrOp_Ty ctx i params hm s s' h
                                      hwtall hwall hcol
                                      (fun x hx => hsh x (by
                                        rw [callNames_fc]
                                        exact List.mem_append_right _ hx))
                                      (fun x hx hax => hca x (by
                                        rw [callNames_fc]
                                        exact List.mem_append_right _ hx) hax)
                                      hi htab
                                  · rw [if_neg hb13] at h
                                    have hni : isIntrinsic fname = false := by
                                      cases hit : isIntrinsic fname
                                      · rfl
                                      · exfalso
                                        simp only [isIntrinsic, Bool.or_eq_true,
                                          beq_iff_eq] at hit
                                        rcases hit with h|h|h|h|h|h|h|h|h|h|h|h|h|
                                          h|h|h|h|h|h|h|h|h|h|h|h|h
                                        all_goals first
                                          | exact hb1 h | exact hb2 h
                                          | exact hb3 h | exact hb4 h
                                          | exact hb5 h | exact hb6 h
                                          | exact hb7 (by tauto)
                                          | exact hb8 (by tauto)
                                          | exact hb9 (by tauto)
                                          | exact hb10 h | exact hb11 h
                                          | exact hb12 h | exact hb13 h
                                    have hgen := hcog
                                    rw [if_neg (by simp [hni])] at hgen
                                    simp only [Bool.and_eq_true] at hgen
                                    obtain ⟨⟨hnil', hsize'⟩, hmatch⟩ := hgen
                                    cases hpos : position (fun r => r == fname)
                                        s.function_names with
                                    | none =>
                                        rw [hpos] at hmatch
                                        exact Bool.noConfusion hmatch
                                    | some k =>
                                        rw [hpos] at hmatch
                                        have harity : ctx.funcArity[(asI32
                                            ((k : ℕ) : ℚ)).toNat]? =
                                            some params.length := by
                                          have hb : (ctx.funcArity[(asI32
                                              ((k : ℕ) : ℚ)).toNat]? ==
                                              some params.length) = true := hmatch
                                          rwa [beq_iff_eq] at hb
                                        have hnil : fname ≠ "nil" := by
                                          rwa [bne_iff_ne] at hnil'
                                        have hsize : fname ≠ "size_num" := by
                                          rwa [bne_iff_ne] at hsize'
                                        have hfl : fname ∉ s.local_names :=
                                          hsh fname (by
                                            rw [callNames_fc,
                                              if_neg (by simp [hni])]
                                            exact List.mem_append_left _ (by simp))
                                        cases hres : s.resolve_identifier fname with
                                        | error e =>
                                            rw [hres] at h
                                            exact Except.noConfusion h
                                        | ok r =>
                                            rw [hres] at h
                                            cases r with
                                            | none => exact Except.noConfusion h
                                            | some fh =>
                                                rw [resolve_function_of hnil hsize
                                                  hfl hpos] at hres
                                                rw [Except.ok.injEq,
                                                  Option.some.injEq] at hres
                                                subst hres
                                                rw [hty]
                                                exact processUserCall_Ty ctx i
                                                  (((k : ℕ) : ℚ)) params hm harity
                                                  s s' h hwtall hwall hcol
                                                  (fun x hx => hsh x (by
                                                    rw [callNames_fc]
                                                    exact List.mem_append_right _ hx))
                                                  (fun x hx hax => hca x (by
                                                    rw [callNames_fc]
                                                    exact
                                                      List.mem_append_right _ hx) hax)
                                                  hi htab

/-- Every expression satisfies the typed-effect property. -/
theorem TyE_all (ctx : CheckCtx) (e : Expression) : TyE ctx e :=
  TyE_sized ctx (sizeOf e + 1) e (Nat.lt_succ_self _)

/-! ## Claim C4 (one value pushed per expression) -/

/-- A minimal state for the C4 computations: an empty program with one
empty body builder. -/
def c4State : Compiler :=
  { Compiler.new ⟨[]⟩ with function_implementations := [WasmFunction.new] }

/-- An empty checking context (no functions, no table types). -/
def c4ctx : CheckCtx := ⟨[], []⟩

/-- The lowered result type is f64 except for the two listed shapes. -/
theorem tyOf_cases (e : Expression) :
    tyOf e = VT.f64 ∨
      (∃ p, e = .FunctionCall "mem_heap_end" [p] ∧ tyOf e = VT.i32) ∨
      (∃ inputs dt tail,
        e = .FunctionCall "call" (.FnSig inputs (some dt) :: tail) ∧
        tyOf e = toVT dt) := by
  cases e with
  | SymbolLiteral a => exact Or.inl rfl
  | FnSig a b => exact Or.inl rfl
  | Loop a => exact Or.inl rfl
  | Recur => exact Or.inl rfl
  | IfStatement a b cc => exact Or.inl rfl
  | Assignment a b => exact Or.inl rfl
  | TextLiteral a => exact Or.inl rfl
  | Identifier a => exact Or.inl rfl
  | Number a => exact Or.inl rfl
  | FunctionCall fname params =>
      by_cases hc : fname = "call"
      · subst hc
        rcases params with _ | ⟨q0, qs⟩
        · exact Or.inl rfl
        · cases q0 with
          | FnSig inputs output =>
              cases output with
              | some dt => exact Or.inr (Or.inr ⟨inputs, dt, qs, rfl, rfl⟩)
              | none => exact Or.inl rfl
          | SymbolLiteral a => exact Or.inl rfl
          | Loop a => exact Or.inl rfl
          | Recur => exact Or.inl rfl
          | IfStatement a b cc => exact Or.inl rfl
          | Assignment a b => exact Or.inl rfl
          | FunctionCall a b => exact Or.inl rfl
          | TextLiteral a => exact Or.inl rfl
          | Identifier a => exact Or.inl rfl
          | Number a => exact Or.inl rfl
      · by_cases hmh : fname = "mem_heap_end"
        · subst hmh
          rcases params with _ | ⟨p, _ | ⟨p2, ps⟩⟩
          · exact Or.inl rfl
          · exact Or.inr (Or.inl ⟨p, rfl, rfl⟩)
          · exact Or.inl rfl
        · exact Or.inl (by rw [tyOf_fc, if_neg hc, if_neg hmh])

/-- C4 counterexample: lowering the one-argument `mem_heap_end` call from
a fresh state emits `[F64_CONST 1, I32_TRUNC_S_F64, GLOBAL_SET 1,
I32_CONST 0]`, and running the stack checker over that code from an empty
frame leaves one i32 — not one f64 — on the stack: the setter clause
converts its result with no `F64_CONVERT`, so the claim's "always a
64-bit float" fails exactly there. -/
theorem C4_mem_heap_end_pushes_i32 :
    ∃ s', c4State.process_expression 0 (.FunctionCall "mem_heap_end" [.Number 1]) =
        .ok s' ∧
      s'.implInstrs 0 = [.F64_CONST 1, .I32_TRUNC_S_F64, .GLOBAL_SET 1, .I32_CONST 0] ∧
      runChk c4ctx [⟨[], [], false, false⟩] (s'.implInstrs 0) =
        some [⟨[], [VT.i32], false, false⟩] ∧
      VT.i32 ≠ VT.f64 := by
  refine ⟨_, rfl, rfl, rfl, by decide⟩

/-- C4 (amended): under the side conditions that the expression is
well-typed, every reached generic call names a declared function of the
right arity with an unshadowed name, the body index is valid, and the
final type table extends into the checking context, the instruction
sequence appended by a successful lowering checks as pushing exactly one
value of type `tyOf e`; that type is f64 for every expression except a
one-argument `mem_heap_end` call (which pushes an i32) and a `call` whose
leading signature declares a non-f64 output. -/
theorem C4_one_typed_value_pushed (ctx : CheckCtx) (e : Expression)
    (s s' : Compiler) (i : ℕ)
    (h : s.process_expression i e = .ok s')
    (hwt : WT e = true)
    (hco : CallsOk ctx s.function_names e = true)
    (hsh : ∀ x ∈ callNames e, x ∉ s.local_names)
    (hca : ∀ x ∈ callNames e, x ∉ assignedIds e)
    (hi : i < s.function_implementations.length)
    (htab : s'.wasm.types <+: ctx.typeTab) :
    ∃ Δ, s'.implInstrs i = s.implInstrs i ++ Δ ∧ Pushes ctx Δ [tyOf e] ∧
      (tyOf e = VT.f64 ∨
        (∃ p, e = .FunctionCall "mem_heap_end" [p] ∧ tyOf e = VT.i32) ∨
        (∃ inputs dt tail,
          e = .FunctionCall "call" (.FnSig inputs (some dt) :: tail) ∧
          tyOf e = toVT dt)) := by
  obtain ⟨Δ, h1, h2⟩ := TyE_all ctx e s i s' h hwt hco hsh hca hi htab
  exact ⟨Δ, h1, h2, tyOf_cases e⟩

/-- Witness for `C4_one_typed_value_pushed`: its hypotheses are
satisfiable and discharged at the literal `1` in the fresh state. -/
theorem C4_one_typed_value_pushed_witness :
    c4State.process_expression 0 (.Number 1) = .ok (c4State.emitAt 0 [.F64_CONST 1]) ∧
    (∃ Δ, (c4State.emitAt 0 [.F64_CONST 1]).implInstrs 0 =
        c4State.implInstrs 0 ++ Δ ∧ Pushes c4ctx Δ [tyOf (.Number 1)] ∧
      (tyOf (.Number 1) = VT.f64 ∨
        (∃ p, (Expression.Number 1) = .FunctionCall "mem_heap_end" [p] ∧
          tyOf (.Number 1) = VT.i32) ∨
        (∃ inputs dt tail,
          (Expression.Number 1) = .FunctionCall "call"
            (.FnSig inputs (some dt) :: tail) ∧
          tyOf (.Number 1) = toVT dt))) := by
  refine ⟨rfl, ?_⟩
  exact C4_one_typed_value_pushed c4ctx (.Number 1) c4State
    (c4State.emitAt 0 [.F64_CONST 1]) 0 rfl rfl rfl
    (fun x hx => absurd hx (List.not_mem_nil x))
    (fun x hx => absurd hx (List.not_mem_nil x))
    (by simp [c4State])
    List.nil_prefix

/-! ## Claim C3 (diagnosable problems and the error channel) -/

/-- Static resolvability of a name to a value: one of the built-ins, a
local, a function, or a global whose position has already been given a
precomputed value. -/
def wfId (locals fns gns : List String) (gvlen : ℕ) (id : String) : Bool :=
  (id == "nil") || (id == "size_num") || decide (id ∈ locals) || decide (id ∈ fns) ||
    (match position (fun r => r == id) gns with
    | some k => decide (k < gvlen)
    | none => false)

/-- Static safety of an assignment target: resolving it cannot index the
global-value table out of bounds (an unresolvable target is fine — the
assignment then binds a fresh local). -/
def wfTgt (gns : List String) (gvlen : ℕ) (id : String) : Bool :=
  match position (fun r => r == id) gns with
  | some k => decide (k < gvlen)
  | none => true

theorem resolveCore_some (locals fns gns : List String) (gvs : List ℚ) (id : String)
    (h : wfId locals fns gns gvs.length id = true) :
    ∃ r, resolveCore locals fns gns gvs id = .ok (some r) := by
  unfold resolveCore
  by_cases h1 : id = "nil"
  · rw [if_pos h1]
    exact ⟨_, rfl⟩
  rw [if_neg h1]
  by_cases h2 : id = "size_num"
  · rw [if_pos h2]
    exact ⟨_, rfl⟩
  rw [if_neg h2]
  cases hl : position (fun r => r == id) locals.reverse with
  | some p => exact ⟨_, rfl⟩
  | none =>
      cases hf : position (fun r => r == id) fns with
      | some p => exact ⟨_, rfl⟩
      | none =>
          cases hg : position (fun r => r == id) gns with
          | some k =>
              have hk : k < gvs.length := by
                unfold wfId at h
                rw [hg] at h
                simp only [Bool.or_eq_true, beq_iff_eq, decide_eq_true_eq] at h
                rcases h with (((h | h) | h) | h) | h
                · exact absurd h h1
                · exact absurd h h2
                · exact absurd h (by
                    rw [← List.mem_reverse]
                    exact (position_beq_eq_none_iff locals.reverse id).1 hl)
                · exact absurd h ((position_beq_eq_none_iff fns id).1 hf)
                · exact h
              refine ⟨(gvs[k], .Global), ?_⟩
              simp only [List.getElem?_eq_getElem hk]
          | none =>
              exfalso
              unfold wfId at h
              rw [hg] at h
              simp only [Bool.or_eq_true, beq_iff_eq, decide_eq_true_eq] at h
              rcases h with (((h | h) | h) | h) | h
              · exact h1 h
              · exact h2 h
              · exact absurd h (by
                  rw [← List.mem_reverse]
                  exact (position_beq_eq_none_iff locals.reverse id).1 hl)
              · exact absurd h ((position_beq_eq_none_iff fns id).1 hf)
              · exact Bool.false_ne_true h

theorem resolveCore_ok (locals fns gns : List String) (gvs : List ℚ) (id : String)
    (h : wfTgt gns gvs.length id = true) :
    ∃ r, resolveCore locals fns gns gvs id = .ok r := by
  unfold resolveCore
  by_cases h1 : id = "nil"
  · rw [if_pos h1]
    exact ⟨_, rfl⟩
  rw [if_neg h1]
  by_cases h2 : id = "size_num"
  · rw [if_pos h2]
    exact ⟨_, rfl⟩
  rw [if_neg h2]
  cases hl : position (fun r => r == id) locals.reverse with
  | some p => exact ⟨_, rfl⟩
  | none =>
      cases hf : position (fun r => r == id) fns with
      | some p => exact ⟨_, rfl⟩
      | none =>
          cases hg : position (fun r => r == id) gns with
          | some k =>
              have hk : k < gvs.length := by
                unfold wfTgt at h
                rw [hg] at h
                simpa using h
              refine ⟨some (gvs[k], .Global), ?_⟩
              simp only [List.getElem?_eq_getElem hk]
          | none =>
              exact ⟨_, rfl⟩

/-- Arity discipline of one call site: each intrinsic clause is used at
an arity its dispatch accepts, `call` starts with a signature and an
index, and a generic call names something resolvable. -/
def wfArity (locals fns gns : List String) (gvlen : ℕ) (fname : String)
    (params : List Expression) : Bool :=
  if fname = "assert" then params.length == 3
  else if fname = "call" then
    match params with
    | .FnSig _ _ :: _ :: _ => true
    | _ => false
  else if fname = "mem_byte" then params.length == 1 || params.length == 2
  else if fname = "mem_heap_start" then params.length == 0
  else if fname = "mem_heap_end" then params.length == 0 || params.length == 1
  else if fname = "mem" then params.length == 1 || params.length == 2
  else if fname = "==" ∨ fname = "!=" ∨ fname = "<=" ∨ fname = ">=" ∨
      fname = "<" ∨ fname = ">" then params.length == 2
  else if fname = "&" ∨ fname = "|" ∨ fname = "^" ∨ fname = "<<" ∨
      fname = ">>" then params.length == 2
  else if fname = "+" ∨ fname = "-" ∨ fname = "*" ∨ fname = "/" ∨
      fname = "%" then decide (2 ≤ params.length)
  else if fname = "!" then params.length == 1
  else if fname = "~" then params.length == 1
  else if fname = "and" then params.length == 2
  else if fname = "or" then params.length == 2
  else wfId locals fns gns gvlen fname

mutual

/-- Static well-formedness of an expression: every identifier resolves,
assignment targets cannot trip the global-value bound, every intrinsic
clause is used at an arity its dispatch accepts, `call` starts with a
signature and an index, loops are nonempty, and generic calls name
something resolvable. -/
def wfE (locals fns gns : List String) (gvlen : ℕ) : Expression → Bool
  | .Number _ => true
  | .SymbolLiteral _ => true
  | .TextLiteral _ => true
  | .FnSig _ _ => true
  | .Recur => true
  | .Identifier x => wfId locals fns gns gvlen x
  | .Loop b =>
      (match b with
        | [] => false
        | _ => true) && wfEList locals fns gns gvlen b
  | .IfStatement cond t f =>
      wfE locals fns gns gvlen cond && wfEList locals fns gns gvlen t &&
        (match f with
        | some l => wfEList locals fns gns gvlen l
        | none => true)
  | .Assignment id v => wfE locals fns gns gvlen v && wfTgt gns gvlen id
  | .FunctionCall fname params =>
      wfArity locals fns gns gvlen fname params &&
      wfEList locals fns gns gvlen params

/-- `wfE` over a list. -/
def wfEList (locals fns gns : List String) (gvlen : ℕ) : List Expression → Bool
  | [] => true
  | e :: rest => wfE locals fns gns gvlen e && wfEList locals fns gns gvlen rest

end

theorem wfEList_cons {locals fns gns : List String} {gvlen : ℕ} {e : Expression}
    {rest : List Expression} :
    wfEList locals fns gns gvlen (e :: rest) =
      (wfE locals fns gns gvlen e && wfEList locals fns gns gvlen rest) := rfl

theorem wfId_mono {locals locals' fns gns : List String} {gvlen : ℕ} {id : String}
    (hsub : ∀ x, x ∈ locals → x ∈ locals')
    (h : wfId locals fns gns gvlen id = true) :
    wfId locals' fns gns gvlen id = true := by
  unfold wfId at h ⊢
  simp only [Bool.or_eq_true, decide_eq_true_eq] at h ⊢
  rcases h with (((h | h) | h) | h) | h
  · exact Or.inl (Or.inl (Or.inl (Or.inl h)))
  · exact Or.inl (Or.inl (Or.inl (Or.inr h)))
  · exact Or.inl (Or.inl (Or.inr (hsub id h)))
  · exact Or.inl (Or.inr h)
  · exact Or.inr h

theorem wfArity_mono {locals locals' fns gns : List String} {gvlen : ℕ}
    {fname : String} {params : List Expression}
    (hsub : ∀ x, x ∈ locals → x ∈ locals')
    (h : wfArity locals fns gns gvlen fname params = true) :
    wfArity locals' fns gns gvlen fname params = true := by
  unfold wfArity at h ⊢
  by_cases h1 : fname = "assert"
  · rwa [if_pos h1] at h ⊢
  rw [if_neg h1] at h ⊢
  by_cases h2 : fname = "call"
  · rwa [if_pos h2] at h ⊢
  rw [if_neg h2] at h ⊢
  by_cases h3 : fname = "mem_byte"
  · rwa [if_pos h3] at h ⊢
  rw [if_neg h3] at h ⊢
  by_cases h4 : fname = "mem_heap_start"
  · rwa [if_pos h4] at h ⊢
  rw [if_neg h4] at h ⊢
  by_cases h5 : fname = "mem_heap_end"
  · rwa [if_pos h5] at h ⊢
  rw [if_neg h5] at h ⊢
  by_cases h6 : fname = "mem"
  · rwa [if_pos h6] at h ⊢
  rw [if_neg h6] at h ⊢
  by_cases h7 : fname = "==" ∨ fname = "!=" ∨ fname = "<=" ∨ fname = ">=" ∨
      fname = "<" ∨ fname = ">"
  · rwa [if_pos h7] at h ⊢
  rw [if_neg h7] at h ⊢
  by_cases h8 : fname = "&" ∨ fname = "|" ∨ fname = "^" ∨ fname = "<<" ∨
      fname = ">>"
  · rwa [if_pos h8] at h ⊢
  rw [if_neg h8] at h ⊢
  by_cases h9 : fname = "+" ∨ fname = "-" ∨ fname = "*" ∨ fname = "/" ∨
      fname = "%"
  · rwa [if_pos h9] at h ⊢
  rw [if_neg h9] at h ⊢
  by_cases h10 : fname = "!"
  · rwa [if_pos h10] at h ⊢
  rw [if_neg h10] at h ⊢
  by_cases h11 : fname = "~"
  · rwa [if_pos h11] at h ⊢
  rw [if_neg h11] at h ⊢
  by_cases h12 : fname = "and"
  · rwa [if_pos h12] at h ⊢
  rw [if_neg h12] at h ⊢
  by_cases h13 : fname = "or"
  · rwa [if_pos h13] at h ⊢
  rw [if_neg h13] at h ⊢
  exact wfId_mono hsub h

theorem wfE_mono_sized : ∀ (n : ℕ) (e : Expression), sizeOf e < n →
    ∀ (locals locals' fns gns : List String) (gvlen : ℕ),
      (∀ x, x ∈ locals → x ∈ locals') →
      wfE locals fns gns gvlen e = true → wfE locals' fns gns gvlen e = true := by
  intro n
  induction n with
  | zero => intro e he; exact absurd he (Nat.not_lt_zero _)
  | succ n ih =>
      intro e he locals locals' fns gns gvlen hsub h
      cases e with
      | Number x => exact rfl
      | SymbolLiteral x => exact rfl
      | TextLiteral x => exact rfl
      | FnSig a b => exact rfl
      | Recur => exact rfl
      | Identifier x => exact wfId_mono hsub h
      | Loop b =>
          cases b with
          | nil => exact Bool.noConfusion (show false = true from h)
          | cons e0 rest =>
          have h' : (true && wfEList locals fns gns gvlen (e0 :: rest)) = true := h
          rw [Bool.true_and] at h'
          show (true && wfEList locals' fns gns gvlen (e0 :: rest)) = true
          rw [Bool.true_and]
          have hlist : ∀ xs : List Expression,
              (∀ p ∈ xs, sizeOf p < n) →
              wfEList locals fns gns gvlen xs = true →
              wfEList locals' fns gns gvlen xs = true := by
            intro xs
            induction xs with
            | nil => intro _ _; rfl
            | cons q qs ihq =>
                intro hs hq
                rw [wfEList_cons, Bool.and_eq_true] at hq ⊢
                exact ⟨ih q (hs q (by simp)) locals locals' fns gns gvlen hsub hq.1,
                  ihq (fun p hp => hs p (by simp [hp])) hq.2⟩
          exact hlist (e0 :: rest) (fun p hp => by
            have hlt := List.sizeOf_lt_of_mem hp
            simp only [Expression.Loop.sizeOf_spec] at he
            omega) h'
      | Assignment id v =>
          have h' : (wfE locals fns gns gvlen v && wfTgt gns gvlen id) = true := h
          rw [Bool.and_eq_true] at h'
          show (wfE locals' fns gns gvlen v && wfTgt gns gvlen id) = true
          rw [Bool.and_eq_true]
          exact ⟨ih v (by simp only [Expression.Assignment.sizeOf_spec] at he; omega)
            locals locals' fns gns gvlen hsub h'.1, h'.2⟩
      | IfStatement cond tbr fbr =>
          have hlist : ∀ xs : List Expression,
              (∀ p ∈ xs, sizeOf p < n) →
              wfEList locals fns gns gvlen xs = true →
              wfEList locals' fns gns gvlen xs = true := by
            intro xs
            induction xs with
            | nil => intro _ _; rfl
            | cons q qs ihq =>
                intro hs hq
                rw [wfEList_cons, Bool.and_eq_true] at hq ⊢
                exact ⟨ih q (hs q (by simp)) locals locals' fns gns gvlen hsub hq.1,
                  ihq (fun p hp => hs p (by simp [hp])) hq.2⟩
          cases fbr with
          | none =>
              have h' : (wfE locals fns gns gvlen cond &&
                  wfEList locals fns gns gvlen tbr && true) = true := h
              simp only [Bool.and_eq_true] at h'
              show (wfE locals' fns gns gvlen cond &&
                  wfEList locals' fns gns gvlen tbr && true) = true
              simp only [Bool.and_eq_true]
              refine ⟨⟨ih cond (by
                  simp only [Expression.IfStatement.sizeOf_spec] at he; omega)
                locals locals' fns gns gvlen hsub h'.1.1, ?_⟩, trivial⟩
              exact hlist tbr (fun p hp => by
                have hlt := List.sizeOf_lt_of_mem hp
                simp only [Expression.IfStatement.sizeOf_spec] at he
                omega) h'.1.2
          | some fb =>
              have h' : (wfE locals fns gns gvlen cond &&
                  wfEList locals fns gns gvlen tbr &&
                  wfEList locals fns gns gvlen fb) = true := h
              simp only [Bool.and_eq_true] at h'
              show (wfE locals' fns gns gvlen cond &&
                  wfEList locals' fns gns gvlen tbr &&
                  wfEList locals' fns gns gvlen fb) = true
              simp only [Bool.and_eq_true]
              refine ⟨⟨ih cond (by
                  simp only [Expression.IfStatement.sizeOf_spec] at he; omega)
                locals locals' fns gns gvlen hsub h'.1.1, ?_⟩, ?_⟩
              · exact hlist tbr (fun p hp => by
                  have hlt := List.sizeOf_lt_of_mem hp
                  simp only [Expression.IfStatement.sizeOf_spec] at he
                  omega) h'.1.2
              · exact hlist fb (fun p hp => by
                  have hlt := List.sizeOf_lt_of_mem hp
                  simp only [Expression.IfStatement.sizeOf_spec,
                    Option.some.sizeOf_spec] at he
                  omega) h'.2
      | FunctionCall fname params =>
          have hlist : ∀ xs : List Expression,
              (∀ p ∈ xs, sizeOf p < n) →
              wfEList locals fns gns gvlen xs = true →
              wfEList locals' fns gns gvlen xs = true := by
            intro xs
            induction xs with
            | nil => intro _ _; rfl
            | cons q qs ihq =>
                intro hs hq
                rw [wfEList_cons, Bool.and_eq_true] at hq ⊢
                exact ⟨ih q (hs q (by simp)) locals locals' fns gns gvlen hsub hq.1,
                  ihq (fun p hp => hs p (by simp [hp])) hq.2⟩
          have h' : (wfArity locals fns gns gvlen fname params &&
              wfEList locals fns gns gvlen params) = true := h
          rw [Bool.and_eq_true] at h'
          show (wfArity locals' fns gns gvlen fname params &&
              wfEList locals' fns gns gvlen params) = true
          rw [Bool.and_eq_true]
          refine ⟨wfArity_mono hsub h'.1, ?_⟩
          exact hlist params (fun p hp => by
            have hlt := List.sizeOf_lt_of_mem hp
            simp only [Expression.FunctionCall.sizeOf_spec] at he
            omega) h'.2

theorem wfE_mono {locals locals' fns gns : List String} {gvlen : ℕ} {e : Expression}
    (hsub : ∀ x, x ∈ locals → x ∈ locals')
    (h : wfE locals fns gns gvlen e = true) :
    wfE locals' fns gns gvlen e = true :=
  wfE_mono_sized (sizeOf e + 1) e (Nat.lt_succ_self _) locals locals' fns gns gvlen
    hsub h

theorem wfEList_mono {locals locals' fns gns : List String} {gvlen : ℕ}
    {xs : List Expression}
    (hsub : ∀ x, x ∈ locals → x ∈ locals')
    (h : wfEList locals fns gns gvlen xs = true) :
    wfEList locals' fns gns gvlen xs = true := by
  induction xs with
  | nil => exact rfl
  | cons q qs ihq =>
      rw [wfEList_cons, Bool.and_eq_true] at h ⊢
      exact ⟨wfE_mono hsub h.1, ihq h.2⟩

/-- Transport of static well-formedness along one lowering step: the
non-local namespaces are unchanged and the locals only grow. -/
theorem wfE_state {A : List String} {s s₁ : Compiler} (hS : SFB A s s₁)
    {e : Expression}
    (h : wfE s.local_names s.function_names s.global_names
      s.global_values.length e = true) :
    wfE s₁.local_names s₁.function_names s₁.global_names
      s₁.global_values.length e = true := by
  rw [hS.1, hS.2.1, hS.2.2.1]
  exact wfE_mono (fun x hx => (hS.2.2.2.2.2 x).2 (Or.inl hx)) h

/-- Transport of list well-formedness along one lowering step. -/
theorem wfEList_state {A : List String} {s s₁ : Compiler} (hS : SFB A s s₁)
    {xs : List Expression}
    (h : wfEList s.local_names s.function_names s.global_names
      s.global_values.length xs = true) :
    wfEList s₁.local_names s₁.function_names s₁.global_names
      s₁.global_values.length xs = true := by
  rw [hS.1, hS.2.1, hS.2.2.1]
  exact wfEList_mono (fun x hx => (hS.2.2.2.2.2 x).2 (Or.inl hx)) h

/-- The namespace fields that global-value evaluation leaves unchanged. -/
def GF (s s₁ : Compiler) : Prop :=
  s₁.function_names = s.function_names ∧ s₁.global_names = s.global_names ∧
  s₁.global_values = s.global_values ∧ s₁.local_names = s.local_names ∧
  s₁.function_defs = s.function_defs ∧ s₁.ast = s.ast

theorem GF_refl (s : Compiler) : GF s s := ⟨rfl, rfl, rfl, rfl, rfl, rfl⟩

theorem GF_trans {s s₁ s₂ : Compiler} (h1 : GF s s₁) (h2 : GF s₁ s₂) : GF s s₂ :=
  ⟨h2.1.trans h1.1, h2.2.1.trans h1.2.1, h2.2.2.1.trans h1.2.2.1,
    h2.2.2.2.1.trans h1.2.2.2.1, h2.2.2.2.2.1.trans h1.2.2.2.2.1,
    h2.2.2.2.2.2.trans h1.2.2.2.2.2⟩

theorem GF_symbol (s : Compiler) (t : String) : GF s (s.get_symbol_value t).2 := by
  cases h : position (fun x => x == t) s.symbols <;>
    simp [Compiler.get_symbol_value, h, GF]

theorem GF_create_data (s : Compiler) (bytes : List MByte) :
    GF s (s.create_data bytes).2 := ⟨rfl, rfl, rfl, rfl, rfl, rfl⟩

theorem GF_text (s : Compiler) (x : List ℕ) :
    GF s (s.get_or_create_text_data x).2 := ⟨rfl, rfl, rfl, rfl, rfl, rfl⟩

theorem GF_symbolRowBytes (members : List String) :
    ∀ s : Compiler, GF s (s.symbolRowBytes members).2 := by
  induction members with
  | nil => intro s; exact GF_refl s
  | cons m rest ih =>
      intro s
      exact GF_trans (GF_symbol s m) (ih (s.get_symbol_value m).2)

mutual

/-- Static well-formedness of a global initializer: every identifier in
it is resolvable against the function table and the already-valued
globals. -/
def wfGV (fns gns : List String) (gvlen : ℕ) : GlobalValue → Bool
  | .Symbol _ => true
  | .Number _ => true
  | .Text _ => true
  | .Struct _ => true
  | .Data l => wfGVList fns gns gvlen l
  | .Identifier t => wfId [] fns gns gvlen t

/-- `wfGV` over a list. -/
def wfGVList (fns gns : List String) (gvlen : ℕ) : List GlobalValue → Bool
  | [] => true
  | v :: rest => wfGV fns gns gvlen v && wfGVList fns gns gvlen rest

end

theorem wfGVList_cons {fns gns : List String} {gvlen : ℕ} {v : GlobalValue}
    {rest : List GlobalValue} :
    wfGVList fns gns gvlen (v :: rest) =
      (wfGV fns gns gvlen v && wfGVList fns gns gvlen rest) := rfl

theorem get_global_value_identifier (s : Compiler) (t : String) :
    s.get_global_value (.Identifier t) =
      (match s.resolve_identifier t with
      | .error e => .error e
      | .ok none => .error (.msg (t ++ " is not a valid identifier"))
      | .ok (some r) => .ok (r.1, s)) := rfl

theorem get_global_value_data (s : Compiler) (l : List GlobalValue) :
    s.get_global_value (.Data l) = (do
      let (bytes, s₁) ← s.globalDataBytes l
      .ok (s₁.create_data bytes)) := rfl

theorem globalDataBytes_cons (s : Compiler) (q : GlobalValue)
    (qs : List GlobalValue) :
    s.globalDataBytes (q :: qs) = (do
      let (x, s₁) ← s.get_global_value q
      let (bs, s₂) ← s₁.globalDataBytes qs
      .ok (s₁.float_to_bytes x ++ bs, s₂)) := rfl

/-- Well-formed global initializers evaluate without unwinding, and the
evaluation does not touch the namespaces. -/
theorem get_global_value_ok :
    ∀ (n : ℕ) (v : GlobalValue), sizeOf v < n →
      ∀ s : Compiler,
        wfGV s.function_names s.global_names s.global_values.length v = true →
        ∃ x s₁, s.get_global_value v = .ok (x, s₁) ∧ GF s s₁ := by
  intro n
  induction n with
  | zero => intro v hv; exact absurd hv (Nat.not_lt_zero _)
  | succ n ih =>
      intro v hv s h
      cases v with
      | Symbol t => exact ⟨_, _, rfl, GF_symbol s t⟩
      | Number t => exact ⟨t, s, rfl, GF_refl s⟩
      | Text t => exact ⟨_, _, rfl, GF_text s t⟩
      | Struct members =>
          exact ⟨_, _, rfl, GF_trans (GF_symbolRowBytes members s)
            (GF_create_data _ _)⟩
      | Identifier t =>
          obtain ⟨r, hr⟩ := resolveCore_some s.local_names s.function_names
            s.global_names s.global_values t
            (wfId_mono (fun x hx => absurd hx (List.not_mem_nil x)) h)
          refine ⟨r.1, s, ?_, GF_refl s⟩
          rw [get_global_value_identifier,
            show s.resolve_identifier t = .ok (some r) from hr]
      | Data l =>
          have hbytes : ∀ (xs : List GlobalValue), (∀ p ∈ xs, sizeOf p < n) →
              ∀ s0 : Compiler,
              wfGVList s0.function_names s0.global_names s0.global_values.length
                xs = true →
              ∃ bs s₁, s0.globalDataBytes xs = .ok (bs, s₁) ∧ GF s0 s₁ := by
            intro xs
            induction xs with
            | nil => intro _ s0 _; exact ⟨[], s0, rfl, GF_refl s0⟩
            | cons q qs ihq =>
                intro hs s0 hq
                rw [wfGVList_cons, Bool.and_eq_true] at hq
                obtain ⟨x, s₁, hx, hgf1⟩ := ih q (hs q (by simp)) s0 hq.1
                obtain ⟨bs, s₂, hbs, hgf2⟩ := ihq (fun p hp => hs p (by simp [hp])) s₁
                  (by rw [hgf1.1, hgf1.2.1, hgf1.2.2.1]; exact hq.2)
                refine ⟨s₁.float_to_bytes x ++ bs, s₂, ?_, GF_trans hgf1 hgf2⟩
                rw [globalDataBytes_cons, hx]
                simp only [bind, Except.bind]
                rw [hbs]
          have hw : wfGVList s.function_names s.global_names
              s.global_values.length l = true := h
          obtain ⟨bs, s₁, hbs, hgf⟩ := hbytes l (fun p hp => by
            have hlt := List.sizeOf_lt_of_mem hp
            simp only [GlobalValue.Data.sizeOf_spec] at hv
            omega) s hw
          refine ⟨(s₁.create_data bs).1, (s₁.create_data bs).2, ?_,
            GF_trans hgf (GF_create_data s₁ bs)⟩
          rw [get_global_value_data, hbs]
          simp only [bind, Except.bind]

/-- Static well-formedness of the global-definition list: each
initializer may use functions and only the already-valued globals — the
name being defined is visible (pushed first) but not yet valued. -/
def wfGDefs (fns : List String) : List String → ℕ → List Global → Bool
  | _, _, [] => true
  | gns, gvlen, g :: rest =>
      wfGV fns (gns ++ [g.name]) gvlen g.value &&
      wfGDefs fns (gns ++ [g.name]) (gvlen + 1) rest

theorem processGlobalDefs_cons (s : Compiler) (g : Global) (rest : List Global) :
    s.processGlobalDefs (g :: rest) = (do
      let (v, s₂) ← ({ s with global_names := s.global_names ++ [g.name] } :
        Compiler).get_global_value g.value
      Compiler.processGlobalDefs
        { s₂ with global_values := s₂.global_values ++ [v] } rest) := rfl

theorem processGlobalDefs_ok :
    ∀ (l : List Global) (s : Compiler),
      wfGDefs s.function_names s.global_names s.global_values.length l = true →
      ∃ s', s.processGlobalDefs l = .ok s' ∧
        s'.function_names = s.function_names ∧
        s'.local_names = s.local_names ∧
        s'.function_defs = s.function_defs ∧
        s'.ast = s.ast ∧
        s'.global_names = s.global_names ++ l.map (·.name) ∧
        s'.global_values.length = s.global_values.length + l.length := by
  intro l
  induction l with
  | nil =>
      intro s _
      exact ⟨s, rfl, rfl, rfl, rfl, rfl, by simp, by simp⟩
  | cons g rest ih =>
      intro s h
      have h' : (wfGV s.function_names (s.global_names ++ [g.name])
          s.global_values.length g.value &&
        wfGDefs s.function_names (s.global_names ++ [g.name])
          (s.global_values.length + 1) rest) = true := h
      rw [Bool.and_eq_true] at h'
      obtain ⟨x, s₂, hx, hgf⟩ := get_global_value_ok (sizeOf g.value + 1) g.value
        (Nat.lt_succ_self _)
        ({ s with global_names := s.global_names ++ [g.name] }) h'.1
      have hrec := ih ({ s₂ with global_values := s₂.global_values ++ [x] })
        (by
          show wfGDefs s₂.function_names s₂.global_names
            (s₂.global_values ++ [x]).length rest = true
          rw [List.length_append, hgf.1, hgf.2.1, hgf.2.2.1]
          exact h'.2)
      obtain ⟨s', hs', p1, p2, p3, p4, p5, p6⟩ := hrec
      refine ⟨s', ?_, ?_, ?_, ?_, ?_, ?_, ?_⟩
      · rw [processGlobalDefs_cons, hx]
        simp only [bind, Except.bind]
        exact hs'
      · rw [p1, hgf.1]
      · rw [p2, hgf.2.2.2.1]
      · rw [p3, hgf.2.2.2.2.1]
      · rw [p4, hgf.2.2.2.2.2]
      · rw [p5, hgf.2.1]
        simp [List.append_assoc]
      · rw [p6]
        simp only [List.length_append, List.length_cons]
        rw [hgf.2.2.1]
        simp [List.length_append]
        omega

/-- The success property carried by the totality induction. -/
abbrev SuccP (e : Expression) : Prop :=
  ∀ (s : Compiler) (i : ℕ),
    wfE s.local_names s.function_names s.global_names
      s.global_values.length e = true →
    ∃ s', s.process_expression i e = .ok s'

theorem processSeq_ok (i : ℕ) (xs : List Expression)
    (hm : ∀ p ∈ xs, SuccP p) :
    ∀ s : Compiler,
      wfEList s.local_names s.function_names s.global_names
        s.global_values.length xs = true →
      ∃ s', s.processSeq i xs = .ok s' := by
  induction xs with
  | nil =>
      intro s _
      exact ⟨s, processSeq_nil s i⟩
  | cons e rest ih =>
      intro s h
      rw [wfEList_cons, Bool.and_eq_true] at h
      cases rest with
      | nil =>
          obtain ⟨s₁, h1⟩ := hm e (by simp) s i h.1
          exact ⟨s₁, by rw [processSeq_single, h1]⟩
      | cons f rest' =>
          obtain ⟨s₁, h1⟩ := hm e (by simp) s i h.1
          have hS1 := SFE_all e s i s₁ h1
          obtain ⟨s₂, h2⟩ := ih (fun p hp => hm p (by simp [hp]))
            (s₁.emitAt i [.DROP]) (wfEList_state hS1 h.2)
          refine ⟨s₂, ?_⟩
          rw [processSeq_cons₂, h1]
          simp only [bind, Except.bind]
          exact h2

theorem processPlainList_ok (i : ℕ) (xs : List Expression)
    (hm : ∀ p ∈ xs, SuccP p) :
    ∀ s : Compiler,
      wfEList s.local_names s.function_names s.global_names
        s.global_values.length xs = true →
      ∃ s', s.processPlainList i xs = .ok s' := by
  induction xs with
  | nil =>
      intro s _
      exact ⟨s, processPlainList_nil s i⟩
  | cons e rest ih =>
      intro s h
      rw [wfEList_cons, Bool.and_eq_true] at h
      obtain ⟨s₁, h1⟩ := hm e (by simp) s i h.1
      have hS1 := SFE_all e s i s₁ h1
      obtain ⟨s₂, h2⟩ := ih (fun p hp => hm p (by simp [hp])) s₁
        (wfEList_state hS1 h.2)
      refine ⟨s₂, ?_⟩
      rw [processPlainList_cons, h1]
      simp only [bind, Except.bind]
      exact h2

theorem processArithRest_ok (i : ℕ) (fname : String)
    (hop : ∃ f, arithOpInstr fname = .ok f) (xs : List Expression)
    (hm : ∀ p ∈ xs, SuccP p) :
    ∀ s : Compiler,
      wfEList s.local_names s.function_names s.global_names
        s.global_values.length xs = true →
      ∃ s', s.processArithRest i fname xs = .ok s' := by
  induction xs with
  | nil =>
      intro s _
      exact ⟨s, processArithRest_nil s i fname⟩
  | cons e rest ih =>
      intro s h
      rw [wfEList_cons, Bool.and_eq_true] at h
      obtain ⟨s₁, h1⟩ := hm e (by simp) s i h.1
      have hS1 := SFE_all e s i s₁ h1
      obtain ⟨f, hf⟩ := hop
      by_cases hpc : fname = "%"
      · obtain ⟨s₂, h2⟩ := ih (fun p hp => hm p (by simp [hp]))
          ((s₁.emitAt i [.I64_TRUNC_S_F64]).emitAt i f)
          (wfEList_state hS1 h.2)
        refine ⟨s₂, ?_⟩
        rw [processArithRest_cons, h1]
        simp only [bind, Except.bind]
        rw [hf]
        simp only [bind, Except.bind]
        rw [if_pos hpc]
        exact h2
      · obtain ⟨s₂, h2⟩ := ih (fun p hp => hm p (by simp [hp])) (s₁.emitAt i f)
          (wfEList_state hS1 h.2)
        refine ⟨s₂, ?_⟩
        rw [processArithRest_cons, h1]
        simp only [bind, Except.bind]
        rw [hf]
        simp only [bind, Except.bind]
        rw [if_neg hpc]
        exact h2

/-- The totality induction: a statically well-formed expression always
lowers without unwinding. -/
theorem process_ok_sized : ∀ (n : ℕ) (e : Expression), sizeOf e < n → SuccP e := by
  intro n
  induction n with
  | zero => intro e he; exact absurd he (Nat.not_lt_zero _)
  | succ n ih =>
      intro e he s i h
      cases e with
      | Number x => exact ⟨_, process_number_eq s i x⟩
      | SymbolLiteral x => exact ⟨_, process_symbol_eq s i x⟩
      | TextLiteral x => exact ⟨_, process_text_eq s i x⟩
      | FnSig a b => exact ⟨_, process_fnsig_eq s i a b⟩
      | Recur => exact ⟨_, process_recur_eq s i⟩
      | Identifier x =>
          obtain ⟨r, hr⟩ := resolveCore_some s.local_names s.function_names
            s.global_names s.global_values x h
          rcases r with ⟨v, k⟩
          have hr' : s.resolve_identifier x = .ok (some (v, k)) := hr
          cases k with
          | Global =>
              exact ⟨s.emitAt i [.F64_CONST v],
                by rw [process_identifier_eq, hr']⟩
          | Local =>
              exact ⟨s.emitAt i [.LOCAL_GET (asI32 v)],
                by rw [process_identifier_eq, hr']⟩
          | Function =>
              exact ⟨s.emitAt i [.F64_CONST v],
                by rw [process_identifier_eq, hr']⟩
      | Loop b =>
          cases b with
          | nil => exact absurd (show false = true from h) (by decide)
          | cons e0 rest =>
              have h' : (true && wfEList s.local_names s.function_names
                  s.global_names s.global_values.length (e0 :: rest)) = true := h
              rw [Bool.true_and] at h'
              obtain ⟨s₁, h1⟩ := processSeq_ok i (e0 :: rest)
                (fun p hp => ih p (by
                  have hlt := List.sizeOf_lt_of_mem hp
                  simp only [Expression.Loop.sizeOf_spec] at he
                  omega))
                (({ s with recur_depth := 0 }).emitAt i [.LOOP .F64]) h'
              exact ⟨_, by
                rw [process_loop_cons_eq, h1]
                simp only [bind, Except.bind]
                exact rfl⟩
      | Assignment id v =>
          have h' : (wfE s.local_names s.function_names s.global_names
              s.global_values.length v && wfTgt s.global_names
              s.global_values.length id) = true := h
          rw [Bool.and_eq_true] at h'
          obtain ⟨s₁, h1⟩ := ih v (by
            simp only [Expression.Assignment.sizeOf_spec] at he; omega) s i h'.1
          have hS1 := SFE_all v s i s₁ h1
          obtain ⟨r, hr⟩ := resolveCore_ok
            (s₁.addLocalAt i DataType.F64).local_names
            (s₁.addLocalAt i DataType.F64).function_names
            (s₁.addLocalAt i DataType.F64).global_names
            (s₁.addLocalAt i DataType.F64).global_values id
            (by
              show wfTgt s₁.global_names s₁.global_values.length id = true
              rw [hS1.2.1, hS1.2.2.1]
              exact h'.2)
          have hr' : (s₁.addLocalAt i DataType.F64).resolve_identifier id =
            .ok r := hr
          rcases r with _ | ⟨w, k⟩
          · exact ⟨_, by
              rw [process_assignment_eq, h1]
              simp only [Except.bind]
              rw [hr']⟩
          · cases k with
            | Local =>
                exact ⟨_, by
                  rw [process_assignment_eq, h1]
                  simp only [Except.bind]
                  rw [hr']⟩
            | Global =>
                exact ⟨_, by
                  rw [process_assignment_eq, h1]
                  simp only [Except.bind]
                  rw [hr']⟩
            | Function =>
                exact ⟨_, by
                  rw [process_assignment_eq, h1]
                  simp only [Except.bind]
                  rw [hr']⟩
      | IfStatement cond tbr fbr =>
          have hmt : ∀ p ∈ tbr, SuccP p := fun p hp => ih p (by
            have hlt := List.sizeOf_lt_of_mem hp
            simp only [Expression.IfStatement.sizeOf_spec] at he
            omega)
          cases fbr with
          | some fb =>
              have h' : (wfE s.local_names s.function_names s.global_names
                  s.global_values.length cond &&
                wfEList s.local_names s.function_names s.global_names
                  s.global_values.length tbr &&
                wfEList s.local_names s.function_names s.global_names
                  s.global_values.length fb) = true := h
              simp only [Bool.and_eq_true] at h'
              obtain ⟨s₁, h1⟩ := ih cond (by
                simp only [Expression.IfStatement.sizeOf_spec] at he; omega)
                { s with recur_depth := s.recur_depth + 1 } i h'.1.1
              have hS1 := SFE_all cond { s with recur_depth := s.recur_depth + 1 }
                i s₁ h1
              obtain ⟨s₄, h4⟩ := processSeq_ok i tbr hmt
                ((s₁.emitAt i [.F64_CONST 0, .F64_EQ, .I32_CONST 0,
                  .I32_EQ]).emitAt i [.IF .F64]) (wfEList_state hS1 h'.1.2)
              have hS4 := processSeq_SFB i tbr (fun p hp => SFE_all p)
                ((s₁.emitAt i [.F64_CONST 0, .F64_EQ, .I32_CONST 0,
                  .I32_EQ]).emitAt i [.IF .F64]) s₄ h4
              obtain ⟨s₆, h6⟩ := processSeq_ok i fb (fun p hp => ih p (by
                  have hlt := List.sizeOf_lt_of_mem hp
                  simp only [Expression.IfStatement.sizeOf_spec,
                    Option.some.sizeOf_spec] at he
                  omega))
                (s₄.emitAt i [.ELSE]) (wfEList_state hS4 (wfEList_state hS1 h'.2))
              exact ⟨_, by
                rw [process_if_some_eq, h1]
                simp only [bind, Except.bind]
                rw [h4]
                simp only [bind, Except.bind]
                rw [h6]⟩
          | none =>
              have h' : (wfE s.local_names s.function_names s.global_names
                  s.global_values.length cond &&
                wfEList s.local_names s.function_names s.global_names
                  s.global_values.length tbr && true) = true := h
              simp only [Bool.and_eq_true] at h'
              obtain ⟨s₁, h1⟩ := ih cond (by
                simp only [Expression.IfStatement.sizeOf_spec] at he; omega)
                { s with recur_depth := s.recur_depth + 1 } i h'.1.1
              have hS1 := SFE_all cond { s with recur_depth := s.recur_depth + 1 }
                i s₁ h1
              obtain ⟨s₄, h4⟩ := processSeq_ok i tbr hmt
                ((s₁.emitAt i [.F64_CONST 0, .F64_EQ, .I32_CONST 0,
                  .I32_EQ]).emitAt i [.IF .F64]) (wfEList_state hS1 h'.1.2)
              exact ⟨_, by
                rw [process_if_none_eq, h1]
                simp only [bind, Except.bind]
                rw [h4]⟩
      | FunctionCall fname params =>
          have hmem : ∀ p ∈ params, SuccP p := fun p hp => ih p (by
            have hlt := List.sizeOf_lt_of_mem hp
            simp only [Expression.FunctionCall.sizeOf_spec] at he
            omega)
          have h' : (wfArity s.local_names s.function_names s.global_names
              s.global_values.length fname params &&
            wfEList s.local_names s.function_names s.global_names
              s.global_values.length params) = true := h
          rw [Bool.and_eq_true] at h'
          obtain ⟨hA, hL⟩ := h'
          unfold wfArity at hA
          rw [process_functionCall_eq]
          by_cases hb1 : fname = "assert"
          · rw [if_pos hb1] at hA ⊢
            have hlen : params.length = 3 := by rwa [beq_iff_eq] at hA
            rcases params with _ | ⟨p0, _ | ⟨p1, _ | ⟨p2, _ | ⟨p3, ps⟩⟩⟩⟩ <;>
              first
              | (simp only [List.length_cons, List.length_nil] at hlen; omega)
              | skip
            rw [wfEList_cons, Bool.and_eq_true] at hL
            obtain ⟨hw0, hL⟩ := hL
            rw [wfEList_cons, Bool.and_eq_true] at hL
            obtain ⟨hw1, hL⟩ := hL
            rw [wfEList_cons, Bool.and_eq_true] at hL
            obtain ⟨hw2, -⟩ := hL
            obtain ⟨s₁, h1⟩ := hmem p0 (by simp) s i hw0
            have hS1 := SFE_all p0 s i s₁ h1
            obtain ⟨s₂, h2⟩ := hmem p1 (by simp) s₁ i (wfE_state hS1 hw1)
            have hS2 := SFE_all p1 s₁ i s₂ h2
            obtain ⟨s₇, h7⟩ := hmem p2 (by simp)
              ((((s₂.emitAt i [.F64_EQ]).emitAt i [.IF .F64]).emitAt i
                [.F64_CONST 0]).emitAt i [.ELSE]) i
              (wfE_state hS2 (wfE_state hS1 hw2))
            exact ⟨_, by
              rw [processAssert_eq3, h1]
              simp only [bind, Except.bind]
              rw [h2]
              simp only [bind, Except.bind]
              rw [h7]⟩
          · rw [if_neg hb1] at hA ⊢
            by_cases hb2 : fname = "call"
            · rw [if_pos hb2] at hA ⊢
              rcases params with _ | ⟨q0, _ | ⟨idxE, rest⟩⟩
              · exact Bool.noConfusion hA
              · cases q0 <;> exact Bool.noConfusion hA
              cases q0 with
              | SymbolLiteral a => exact Bool.noConfusion hA
              | Loop a => exact Bool.noConfusion hA
              | Recur => exact Bool.noConfusion hA
              | IfStatement a b cc => exact Bool.noConfusion hA
              | Assignment a b => exact Bool.noConfusion hA
              | FunctionCall a b => exact Bool.noConfusion hA
              | TextLiteral a => exact Bool.noConfusion hA
              | Identifier a => exact Bool.noConfusion hA
              | Number a => exact Bool.noConfusion hA
              | FnSig inputs output =>
                  rw [wfEList_cons, Bool.and_eq_true] at hL
                  obtain ⟨-, hL⟩ := hL
                  rw [wfEList_cons, Bool.and_eq_true] at hL
                  obtain ⟨hwidx, hwrest⟩ := hL
                  obtain ⟨s₁, h1⟩ := processPlainList_ok i rest
                    (fun p hp => hmem p (by simp [hp])) s hwrest
                  have hS1 := processPlainList_SFB i rest
                    (fun q hq => SFE_all q) s s₁ h1
                  obtain ⟨s₂, h2⟩ := hmem idxE (by simp) s₁ i
                    (wfE_state hS1 hwidx)
                  exact ⟨_, by
                    rw [processCallSig_eq, h1]
                    simp only [bind, Except.bind]
                    rw [h2]⟩
            · rw [if_neg hb2] at hA ⊢
              by_cases hb3 : fname = "mem_byte"
              · rw [if_pos hb3] at hA ⊢
                simp only [Bool.or_eq_true, beq_iff_eq] at hA
                rcases params with _ | ⟨p0, _ | ⟨p1, _ | ⟨p2, ps⟩⟩⟩
                · simp only [List.length_nil] at hA; omega
                · rw [wfEList_cons, Bool.and_eq_true] at hL
                  obtain ⟨s₁, h1⟩ := hmem p0 (by simp) s i hL.1
                  exact ⟨_, by
                    rw [processMemByte_eq1, h1]
                    simp only [bind, Except.bind]
                    exact rfl⟩
                · rw [wfEList_cons, Bool.and_eq_true] at hL
                  obtain ⟨hw0, hL⟩ := hL
                  rw [wfEList_cons, Bool.and_eq_true] at hL
                  obtain ⟨hw1, -⟩ := hL
                  obtain ⟨s₁, h1⟩ := hmem p0 (by simp) s i hw0
                  have hS1 := SFE_all p0 s i s₁ h1
                  obtain ⟨s₃, h3⟩ := hmem p1 (by simp)
                    (s₁.emitAt i [.I32_TRUNC_S_F64]) i (wfE_state hS1 hw1)
                  exact ⟨_, by
                    rw [processMemByte_eq2, h1]
                    simp only [bind, Except.bind]
                    rw [h3]⟩
                · simp only [List.length_cons] at hA; omega
              · rw [if_neg hb3] at hA ⊢
                by_cases hb4 : fname = "mem_heap_start"
                · rw [if_pos hb4] at hA ⊢
                  rcases params with _ | ⟨q, qs⟩
                  · exact ⟨_, rfl⟩
                  · simp only [List.length_cons, beq_iff_eq] at hA
                    omega
                · rw [if_neg hb4] at hA ⊢
                  by_cases hb5 : fname = "mem_heap_end"
                  · rw [if_pos hb5] at hA ⊢
                    simp only [Bool.or_eq_true, beq_iff_eq] at hA
                    rcases params with _ | ⟨p0, _ | ⟨p1, ps⟩⟩
                    · exact ⟨_, processMemHeapEnd_eq0 s i⟩
                    · rw [wfEList_cons, Bool.and_eq_true] at hL
                      obtain ⟨s₁, h1⟩ := hmem p0 (by simp) s i hL.1
                      exact ⟨_, by
                        rw [processMemHeapEnd_eq1, h1]
                        simp only [bind, Except.bind]
                        exact rfl⟩
                    · simp only [List.length_cons] at hA; omega
                  · rw [if_neg hb5] at hA ⊢
                    by_cases hb6 : fname = "mem"
                    · rw [if_pos hb6] at hA ⊢
                      simp only [Bool.or_eq_true, beq_iff_eq] at hA
                      rcases params with _ | ⟨p0, _ | ⟨p1, _ | ⟨p2, ps⟩⟩⟩
                      · simp only [List.length_nil] at hA; omega
                      · rw [wfEList_cons, Bool.and_eq_true] at hL
                        obtain ⟨s₁, h1⟩ := hmem p0 (by simp) s i hL.1
                        exact ⟨_, by
                          rw [processMem_eq1, h1]
                          simp only [bind, Except.bind]
                          exact rfl⟩
                      · rw [wfEList_cons, Bool.and_eq_true] at hL
                        obtain ⟨hw0, hL⟩ := hL
                        rw [wfEList_cons, Bool.and_eq_true] at hL
                        obtain ⟨hw1, -⟩ := hL
                        obtain ⟨s₁, h1⟩ := hmem p0 (by simp) s i hw0
                        have hS1 := SFE_all p0 s i s₁ h1
                        obtain ⟨s₃, h3⟩ := hmem p1 (by simp)
                          (s₁.emitAt i [.I32_TRUNC_S_F64]) i (wfE_state hS1 hw1)
                        exact ⟨_, by
                          rw [processMem_eq2, h1]
                          simp only [bind, Except.bind]
                          rw [h3]⟩
                      · simp only [List.length_cons] at hA; omega
                    · rw [if_neg hb6] at hA ⊢
                      by_cases hb7 : fname = "==" ∨ fname = "!=" ∨ fname = "<=" ∨
                          fname = ">=" ∨ fname = "<" ∨ fname = ">"
                      · rw [if_pos hb7] at hA ⊢
                        have hfop : ∃ f, cmpOpInstr fname = .ok f := by
                          rcases hb7 with h | h | h | h | h | h <;> subst h <;>
                            exact ⟨_, rfl⟩
                        have hlen : params.length = 2 := by rwa [beq_iff_eq] at hA
                        rcases params with _ | ⟨p0, _ | ⟨p1, _ | ⟨p2, ps⟩⟩⟩ <;>
                          first
                          | (simp only [List.length_cons, List.length_nil]
                              at hlen; omega)
                          | skip
                        rw [wfEList_cons, Bool.and_eq_true] at hL
                        obtain ⟨hw0, hL⟩ := hL
                        rw [wfEList_cons, Bool.and_eq_true] at hL
                        obtain ⟨hw1, -⟩ := hL
                        obtain ⟨s₁, h1⟩ := hmem p0 (by simp) s i hw0
                        have hS1 := SFE_all p0 s i s₁ h1
                        obtain ⟨s₂, h2⟩ := hmem p1 (by simp) s₁ i
                          (wfE_state hS1 hw1)
                        obtain ⟨f, hf⟩ := hfop
                        exact ⟨_, by
                          rw [processCmpOp_eq2, h1]
                          simp only [bind, Except.bind]
                          rw [h2]
                          simp only [bind, Except.bind]
                          rw [hf]⟩
                      · rw [if_neg hb7] at hA ⊢
                        by_cases hb8 : fname = "&" ∨ fname = "|" ∨ fname = "^" ∨
                            fname = "<<" ∨ fname = ">>"
                        · rw [if_pos hb8] at hA ⊢
                          have hfop : ∃ f, bitOpInstr fname = .ok f := by
                            rcases hb8 with h | h | h | h | h <;> subst h <;>
                              exact ⟨_, rfl⟩
                          have hlen : params.length = 2 := by
                            rwa [beq_iff_eq] at hA
                          rcases params with _ | ⟨p0, _ | ⟨p1, _ | ⟨p2, ps⟩⟩⟩ <;>
                            first
                            | (simp only [List.length_cons, List.length_nil]
                                at hlen; omega)
                            | skip
                          rw [wfEList_cons, Bool.and_eq_true] at hL
                          obtain ⟨hw0, hL⟩ := hL
                          rw [wfEList_cons, Bool.and_eq_true] at hL
                          obtain ⟨hw1, -⟩ := hL
                          obtain ⟨s₁, h1⟩ := hmem p0 (by simp) s i hw0
                          have hS1 := SFE_all p0 s i s₁ h1
                          obtain ⟨s₃, h3⟩ := hmem p1 (by simp)
                            (s₁.emitAt i [.I64_TRUNC_S_F64]) i
                            (wfE_state hS1 hw1)
                          obtain ⟨f, hf⟩ := hfop
                          exact ⟨_, by
                            rw [processBitOp_eq2, h1]
                            simp only [bind, Except.bind]
                            rw [h3]
                            simp only [bind, Except.bind]
                            rw [hf]⟩
                        · rw [if_neg hb8] at hA ⊢
                          by_cases hb9 : fname = "+" ∨ fname = "-" ∨
                              fname = "*" ∨ fname = "/" ∨ fname = "%"
                          · rw [if_pos hb9] at hA ⊢
                            have hfop : ∃ f, arithOpInstr fname = .ok f := by
                              rcases hb9 with h | h | h | h | h <;> subst h <;>
                                exact ⟨_, rfl⟩
                            have hlen : 2 ≤ params.length := by
                              simpa using hA
                            rcases params with _ | ⟨p0, _ | ⟨p1, rest⟩⟩
                            · simp only [List.length_nil] at hlen; omega
                            · simp only [List.length_cons, List.length_nil]
                                at hlen
                              omega
                            rw [wfEList_cons, Bool.and_eq_true] at hL
                            obtain ⟨hw0, hL⟩ := hL
                            obtain ⟨s₁, h1⟩ := hmem p0 (by simp) s i hw0
                            have hS1 := SFE_all p0 s i s₁ h1
                            by_cases hpc : fname = "%"
                            · obtain ⟨s₂, h2⟩ := processArithRest_ok i fname hfop
                                (p1 :: rest) (fun p hp => hmem p (by simp [hp]))
                                (s₁.emitAt i [.I64_TRUNC_S_F64])
                                (wfEList_state hS1 hL)
                              exact ⟨_, by
                                rw [processArithOp_eq, h1]
                                simp only [bind, Except.bind]
                                rw [if_pos hpc]
                                exact h2⟩
                            · obtain ⟨s₂, h2⟩ := processArithRest_ok i fname hfop
                                (p1 :: rest) (fun p hp => hmem p (by simp [hp]))
                                s₁ (wfEList_state hS1 hL)
                              exact ⟨_, by
                                rw [processArithOp_eq, h1]
                                simp only [bind, Except.bind]
                                rw [if_neg hpc]
                                exact h2⟩
                          · rw [if_neg hb9] at hA ⊢
                            by_cases hb10 : fname = "!"
                            · rw [if_pos hb10] at hA ⊢
                              have hlen : params.length = 1 := by
                                rwa [beq_iff_eq] at hA
                              rcases params with _ | ⟨p0, _ | ⟨p1, ps⟩⟩ <;>
                                first
                                | (simp only [List.length_cons, List.length_nil]
                                    at hlen; omega)
                                | skip
                              rw [wfEList_cons, Bool.and_eq_true] at hL
                              obtain ⟨s₁, h1⟩ := hmem p0 (by simp) s i hL.1
                              exact ⟨_, by
                                rw [processNotOp_eq1, h1]
                                simp only [bind, Except.bind]
                                exact rfl⟩
                            · rw [if_neg hb10] at hA ⊢
                              by_cases hb11 : fname = "~"
                              · rw [if_pos hb11] at hA ⊢
                                have hlen : params.length = 1 := by
                                  rwa [beq_iff_eq] at hA
                                rcases params with _ | ⟨p0, _ | ⟨p1, ps⟩⟩ <;>
                                  first
                                  | (simp only [List.length_cons,
                                      List.length_nil] at hlen; omega)
                                  | skip
                                rw [wfEList_cons, Bool.and_eq_true] at hL
                                obtain ⟨s₁, h1⟩ := hmem p0 (by simp) s i hL.1
                                exact ⟨_, by
                                  rw [processComplementOp_eq1, h1]
                                  simp only [bind, Except.bind]
                                  exact rfl⟩
                              · rw [if_neg hb11] at hA ⊢
                                by_cases hb12 : fname = "and"
                                · rw [if_pos hb12] at hA ⊢
                                  have hlen : params.length = 2 := by
                                    rwa [beq_iff_eq] at hA
                                  rcases params with
                                    _ | ⟨p0, _ | ⟨p1, _ | ⟨p2, ps⟩⟩⟩ <;>
                                    first
                                    | (simp only [List.length_cons,
                                        List.length_nil] at hlen; omega)
                                    | skip
                                  rw [wfEList_cons, Bool.and_eq_true] at hL
                                  obtain ⟨hw0, hL⟩ := hL
                                  rw [wfEList_cons, Bool.and_eq_true] at hL
                                  obtain ⟨hw1, -⟩ := hL
                                  obtain ⟨s₁, h1⟩ := hmem p0 (by simp) s i hw0
                                  have hS1 := SFE_all p0 s i s₁ h1
                                  obtain ⟨s₃, h3⟩ := hmem p1 (by simp)
                                    (s₁.emitAt i [.I64_TRUNC_S_F64,
                                      .I64_CONST 0, .I64_NE]) i
                                    (wfE_state hS1 hw1)
                                  exact ⟨_, by
                                    rw [processAndOp_eq2, h1]
                                    simp only [bind, Except.bind]
                                    rw [h3]⟩
                                · rw [if_neg hb12] at hA ⊢
                                  by_cases hb13 : fname = "or"
                                  · rw [if_pos hb13] at hA ⊢
                                    have hlen : params.length = 2 := by
                                      rwa [beq_iff_eq] at hA
                                    rcases params with
                                      _ | ⟨p0, _ | ⟨p1, _ | ⟨p2, ps⟩⟩⟩ <;>
                                      first
                                      | (simp only [List.length_cons,
                                          List.length_nil] at hlen; omega)
                                      | skip
                                    rw [wfEList_cons, Bool.and_eq_true] at hL
                                    obtain ⟨hw0, hL⟩ := hL
                                    rw [wfEList_cons, Bool.and_eq_true] at hL
                                    obtain ⟨hw1, -⟩ := hL
                                    obtain ⟨s₁, h1⟩ := hmem p0 (by simp) s i hw0
                                    have hS1 := SFE_all p0 s i s₁ h1
                                    obtain ⟨s₃, h3⟩ := hmem p1 (by simp)
                                      (s₁.emitAt i [.I64_TRUNC_S_F64]) i
                                      (wfE_state hS1 hw1)
                                    exact ⟨_, by
                                      rw [processOrOp_eq2, h1]
                                      simp only [bind, Except.bind]
                                      rw [h3]⟩
                                  · rw [if_neg hb13] at hA ⊢
                                    obtain ⟨r, hr⟩ := resolveCore_some
                                      s.local_names s.function_names
                                      s.global_names s.global_values fname hA
                                    rw [show s.resolve_identifier fname =
                                      .ok (some r) from hr]
                                    show ∃ s',
                                      s.processUserCall i r.1 params = .ok s'
                                    obtain ⟨s₁, h1⟩ := processPlainList_ok i
                                      params hmem s hL
                                    exact ⟨_, by
                                      rw [processUserCall_loop_eq, h1]
                                      simp only [bind, Except.bind]
                                      exact rfl⟩

/-- Every statically well-formed expression lowers without unwinding. -/
theorem process_ok (e : Expression) : SuccP e :=
  process_ok_sized (sizeOf e + 1) e (Nat.lt_succ_self _)

/-- Static well-formedness of the lowered function bodies. -/
def wfFDefs (fns gns : List String) (gvlen : ℕ) : List TopLevelOperation → Bool
  | [] => true
  | .DefineFunction f :: rest =>
      wfEList f.params fns gns gvlen f.children && wfFDefs fns gns gvlen rest
  | _ :: rest => wfFDefs fns gns gvlen rest

theorem processFunctionDefs_deffn (s : Compiler) (i : ℕ) (f : FunctionDef)
    (rest : List TopLevelOperation) :
    s.processFunctionDefs i (.DefineFunction f :: rest) = (do
      let s₂ ← ({ s with local_names := f.params } :
        Compiler).processSeq i f.children
      (s₂.emitAt i [.END]).processFunctionDefs (i + 1) rest) := rfl

theorem processFunctionDefs_ok :
    ∀ (l : List TopLevelOperation) (s : Compiler) (i : ℕ),
      wfFDefs s.function_names s.global_names s.global_values.length l = true →
      ∃ s', s.processFunctionDefs i l = .ok s' := by
  intro l
  induction l with
  | nil => intro s i _; exact ⟨s, rfl⟩
  | cons op rest ih =>
      intro s i h
      cases op with
      | ExternalFunction f => exact ih s (i + 1) h
      | DefineGlobal g => exact ih s (i + 1) h
      | DefineFunction f =>
          have h' : (wfEList f.params s.function_names s.global_names
              s.global_values.length f.children &&
            wfFDefs s.function_names s.global_names s.global_values.length rest)
            = true := h
          rw [Bool.and_eq_true] at h'
          obtain ⟨s₂, h2⟩ := processSeq_ok i f.children (fun p hp => process_ok p)
            { s with local_names := f.params } h'.1
          have hS2 := processSeq_SFB i f.children (fun p hp => SFE_all p)
            { s with local_names := f.params } s₂ h2
          obtain ⟨s', h3⟩ := ih (s₂.emitAt i [.END]) (i + 1)
            (by
              show wfFDefs s₂.function_names s₂.global_names
                s₂.global_values.length rest = true
              rw [hS2.1, hS2.2.1, hS2.2.2.1]
              exact h'.2)
          exact ⟨s', by
            rw [processFunctionDefs_deffn, h2]
            simp only [bind, Except.bind]
            exact h3⟩

/-- The global definitions of an input program, in order. -/
def globalsOf (app : App) : List Global :=
  app.children.filterMap (fun x => match x with
    | .DefineGlobal g => some g
    | _ => none)

/-- The names the globals bind, in order. -/
def gnsOf (app : App) : List String := (globalsOf app).map (fun g => g.name)

/-- The function definitions of an input program, in order. -/
def fdefsOf (app : App) : List FunctionDef :=
  ((app.children.filter (fun x => match x with
    | .DefineFunction _ => true
    | _ => false)).filterMap (fun x => match x with
    | .DefineFunction f => some f
    | _ => none))

/-- The complete function-name table: imports first, then defined
functions — the resolution namespace every body is lowered against. -/
def fnsOf (app : App) : List String :=
  (app.children.filterMap (fun x => match x with
    | .ExternalFunction f => some f
    | _ => none)).map (fun d => d.name) ++ (fdefsOf app).map (fun f => f.name)

/-- Static well-formedness of a whole input program: each global
initializer only uses functions and earlier globals, and each function
body is well-formed against its parameters, the function table and the
globals. -/
def wfApp (app : App) : Bool :=
  wfGDefs (fnsOf app) [] 0 (globalsOf app) &&
  wfFDefs (fnsOf app) (gnsOf app) (globalsOf app).length
    (app.children.filter (fun x => match x with
      | .DefineFunction _ => true
      | _ => false))

/-- A statically well-formed program compiles without unwinding, to the
finished module description. -/
theorem compile_ok_of_wf (app : App) (h : wfApp app = true) :
    ∃ w, compile app = .ok (.ok w) := by
  have h' : (wfGDefs (fnsOf app) [] 0 (globalsOf app) &&
    wfFDefs (fnsOf app) (gnsOf app) (globalsOf app).length
      (app.children.filter (fun x => match x with
        | .DefineFunction _ => true
        | _ => false))) = true := h
  rw [Bool.and_eq_true] at h'
  have hfn : ((Compiler.new app).pre_process_functions).function_names =
      fnsOf app := by
    show ([] : List String) ++ _ ++ _ = _
    rw [List.nil_append]
    rfl
  obtain ⟨s₂, h2, p1, p2, p3, p4, p5, p6⟩ :=
    processGlobalDefs_ok (globalsOf app) (Compiler.new app).pre_process_functions
      (by
        show wfGDefs ((Compiler.new app).pre_process_functions).function_names
          ([] : List String) (([] : List ℚ)).length (globalsOf app) = true
        rw [hfn]
        exact h'.1)
  obtain ⟨s₃, h3⟩ := processFunctionDefs_ok s₂.function_defs s₂ 0
    (by
      rw [show s₂.function_defs = (app.children.filter (fun x => match x with
        | .DefineFunction _ => true
        | _ => false)) from p3]
      rw [show s₂.function_names = fnsOf app from by rw [p1]; exact hfn]
      rw [show s₂.global_names = gnsOf app from by
        rw [p5]
        show ([] : List String) ++ _ = _
        rw [List.nil_append]
        rfl]
      have hlen : s₂.global_values.length = (globalsOf app).length := by
        rw [p6]
        show ([] : List ℚ).length + _ = _
        simp
      rw [hlen]
      exact h'.2)
  exact ⟨_, by
    rw [show compile app = (do
        let c ← ((Compiler.new app).pre_process_functions).process_globals
        let c₂ ← c.process_functions
        .ok (.ok c₂.set_heap_start.wasm)) from rfl]
    rw [show ((Compiler.new app).pre_process_functions).process_globals =
      ((Compiler.new app).pre_process_functions).processGlobalDefs
        (globalsOf app) from rfl]
    rw [h2]
    simp only [bind, Except.bind]
    rw [show s₂.process_functions = (do
        let s₁ ← s₂.processFunctionDefs 0 s₂.function_defs
        let t : Compiler := { s₁ with
          wasm := { s₁.wasm with
            functions := s₁.wasm.functions ++ s₁.function_implementations },
          function_implementations := [] }
        .ok { t with
          wasm := t.wasm.add_elements 0 (List.range t.function_names.length) })
      from rfl]
    rw [h3]
    simp only [bind, Except.bind]
    exact rfl⟩

/-- Counterexample to C3: a diagnosable problem (an empty `Loop` body)
makes the public entry point `compile` unwind (panic) with the short
message from the `Loop` arm, instead of returning a structured error
value: the structured-error branch of the result type is never the
outcome of a diagnosable problem. -/
theorem C3_empty_loop_panics :
    compile ⟨[.DefineFunction ⟨"main", true, [], [.Loop []]⟩]⟩ =
      .error (.msg "useless infinite loop detected") := by decide

/-- **C3** (corrected): every diagnosable problem is fatal, but by
unwinding (a panic carrying a short message), not by a structured error:
(1) whenever `compile` returns at all, the structured-error branch of its
result is never taken (`CompileError` is uninhabited, as the source never
constructs one); (2) every statically well-formed program compiles
without unwinding, to the finished module description; and (3) each of
the remaining diagnosable-problem classes — unknown identifier, unknown
function name, wrong intrinsic arity, and a `call` whose first argument
is not a `FnSig` — aborts the whole run by unwinding with its short
message. -/
theorem C3_fatal_panics_or_module :
    (∀ (app : App) (r : Except CompileError WasmApp),
      compile app = .ok r → ∀ e : CompileError, r ≠ .error e) ∧
    (∀ app : App, wfApp app = true → ∃ w, compile app = .ok (.ok w)) ∧
    compile ⟨[.DefineFunction ⟨"f", true, [], [.Identifier "y"]⟩]⟩ =
      .error (.msg "y is not a valid identifier") ∧
    compile ⟨[.DefineFunction ⟨"f", true, [], [.FunctionCall "foo" []]⟩]⟩ =
      .error (.msg "foo is not a valid function") ∧
    compile ⟨[.DefineFunction ⟨"f", true, [],
        [.FunctionCall "mem_heap_start" [.Number 1]]⟩]⟩ =
      .error (.msg "invalid number params for mem_heap_start") ∧
    compile ⟨[.DefineFunction ⟨"f", true, [],
        [.FunctionCall "call" [.Number 1, .Number 2]]⟩]⟩ =
      .error (.msg "call must begin with a function signature not an expression") := by
  refine ⟨?_, compile_ok_of_wf, by decide, by decide, by decide, by decide⟩
  intro app r _ e
  cases e

/-- Witness for `C3_fatal_panics_or_module`: the well-formedness branch
applied at a concrete one-function program. -/
theorem C3_fatal_panics_or_module_witness :
    wfApp ⟨[.DefineFunction ⟨"main", true, [], [.Number 42]⟩]⟩ = true ∧
    ∃ w, compile ⟨[.DefineFunction ⟨"main", true, [], [.Number 42]⟩]⟩ =
      .ok (.ok w) :=
  ⟨by decide, C3_fatal_panics_or_module.2.1
    ⟨[.DefineFunction ⟨"main", true, [], [.Number 42]⟩]⟩ (by decide)⟩

end Wasp
